import Mathlib

/-! # forestatrisk: the binomial iCAR Gibbs sampler (`C/binomial_iCAR.c`, `C/useful.c`)

A shallow embedding of the sampler and of the utility functions it calls.

* Numbers of C type `double` are elements of an arbitrary linear ordered field `α`
  (exact arithmetic); theorems that need the meaning of `exp`, `log`, `sqrt`, `pow`
  take `α = ℝ`.
* The functions of `math.h` and the constant `RAND_MAX` of `stdlib.h` are not part of the
  repository: they are the fields of `CMath`.
* `rand()` reads the next element of a stream `rs : ℕ → ℕ`; every function that draws
  takes the position `k` in the stream and returns the new position.
* C arrays are functions from indices; a store `a[i] = v` is `Function.update a i v`.
* Loops with a fixed trip count are folds over `List.range`; rejection loops
  (`while (test == 0)`, `do … while`) take a bound on their number of iterations and
  return `none` when it is exhausted.
* A remainder of C `int`s by zero and a store outside the block of an output trace give
  `none`: the sweep, and the run, do not return.
* The type `CDouble` adds the infinities and NaN to the finite values, for the
  log-posteriors of a Metropolis test when a logarithm of 0 is taken.
-/

namespace ForestAtRisk

/-! ## The C library -/

/-- The functions of `math.h` used by the sources, and `RAND_MAX`. -/
structure CMath (α : Type) where
  exp : α → α
  log : α → α
  sqrt : α → α
  pow : α → α → α
  floor : α → Int
  RAND_MAX : Nat

/-- The interpretation of `math.h` in exact real arithmetic. -/
def IsRealMath (m : CMath ℝ) : Prop :=
  m.exp = Real.exp ∧ m.log = Real.log ∧ m.sqrt = Real.sqrt ∧
    (∀ x y : ℝ, m.pow x y = x ^ y) ∧ (∀ x : ℝ, m.floor x = ⌊x⌋)

section Defs

variable {α : Type} [LinearOrderedField α]

/-! ## `useful.c`: general functions -/

/-- `logit` (useful.c:40). -/
def logit (m : CMath α) (x : α) : α :=
  m.log x - m.log (1 - x)

/-- `invlogit` (useful.c:47). -/
def invlogit (m : CMath α) (x : α) : α :=
  if x > 0 then 1 / (1 + m.exp (-x))
  else m.exp x / (1 + m.exp x)

/-- The constant `M_LN_SQRT_2PI` (useful.c:20). -/
def M_LN_SQRT_2PI : α := 0.918938533204672741780329736406

/-- The constant `M_1_SQRT_2PI` (useful.c:22). -/
def M_1_SQRT_2PI : α := 0.39894228040143267793994605993

/-- `mydnorm` (useful.c:370). -/
def mydnorm (m : CMath α) (x mu sd : α) (l : Int) : α :=
  let X := (x - mu) / sd
  if l = 1 then -(M_LN_SQRT_2PI + 0.5 * X * X + m.log sd)
  else M_1_SQRT_2PI * m.exp (-0.5 * X * X) / sd

/-- `mylndbern` (useful.c:404). -/
def mylndbern (m : CMath α) (x : Int) (p : α) : α :=
  (x : α) * m.log p + (1 - (x : α)) * m.log (1 - p)

/-! ## `useful.c`: random draws -/

/-- `myrunif` (useful.c:456): one call of `rand()`. -/
def myrunif (m : CMath α) (rs : Nat → Nat) (k : Nat) : α × Nat :=
  (((rs k : α) + 0.5) / ((m.RAND_MAX : α) + 1.0), k + 1)

/-- `myrgamma1` (useful.c:463), Best's rejection loop run at most `fuel` times.
In C, for `alpha = 1` (`b = 0`) or `x / b < 0` the expression `b * log (x / b)` is NaN and
the comparison with `log (z)` is false: the second test is taken only when `0 < x / b`. -/
def myrgamma1 (m : CMath α) (rs : Nat → Nat) (alpha : α) : Nat → Nat → Option (α × Nat)
  | 0, _ => none
  | fuel + 1, k =>
    let b := alpha - 1
    let c := 3 * alpha - 0.75
    let u := (myrunif m rs k).1
    let v := (myrunif m rs (k + 1)).1
    let w := u * (1 - u)
    let y := m.sqrt (c / w) * (u - 0.5)
    let x := b + y
    if x > 0 then
      let z := 64 * m.pow v 2 * m.pow w 3
      if z ≤ 1 - 2 * m.pow y 2 / x then some (x, k + 2)
      else if 0 < x / b ∧ 2 * (b * m.log (x / b) - y) ≥ m.log z then some (x, k + 2)
      else myrgamma1 m rs alpha fuel (k + 2)
    else myrgamma1 m rs alpha fuel (k + 2)

/-- `rnorm1` (useful.c:500): the polar method, its `do … while` run at most `fuel` times. -/
def rnorm1 (m : CMath α) (rs : Nat → Nat) : Nat → Nat → Option (α × Nat)
  | 0, _ => none
  | fuel + 1, k =>
    let v1 := 2.0 * ((rs k : α) / (m.RAND_MAX : α)) - 1
    let v2 := 2.0 * ((rs (k + 1) : α) / (m.RAND_MAX : α)) - 1
    let s := v1 * v1 + v2 * v2
    if s ≥ 1.0 then rnorm1 m rs fuel (k + 2)
    else if s = 0.0 then some (0.0, k + 2)
    else some (v1 * m.sqrt (-2.0 * m.log s / s), k + 2)

/-- `myrnorm` (useful.c:517). -/
def myrnorm (m : CMath α) (rs : Nat → Nat) (mean sd : α) (fuel k : Nat) : Option (α × Nat) :=
  match rnorm1 m rs fuel k with
  | none => none
  | some (z, k') => some (mean + z * sd, k')

/-- The conversion `(int) a` of a `double`: truncation toward zero. -/
def cInt (m : CMath α) (a : α) : Int :=
  if 0 ≤ a then m.floor a else -(m.floor (-a))

/-- The table `wl` of `integer` (useful.c:537, 541); entry 0 is never written nor read. -/
def integer_wl (a b : α) : Nat → α
  | 0 => 0
  | 1 => 1.0
  | i + 2 => integer_wl a b (i + 1) * (a - ((i + 2 : Nat) : α) + 1) / b

/-- The table `wlc` of `integer` after the first loop (useful.c:538, 542). -/
def integer_wlc0 (a b : α) : Nat → α
  | 0 => 0
  | 1 => 1.0
  | i + 2 => integer_wlc0 a b (i + 1) + integer_wl a b (i + 2)

/-- The table `wlc` of `integer` after the normalising loop (useful.c:544–547), whose
divisor `wlc[(int)a]` is overwritten only by the last iteration. -/
def integer_wlc (a b : α) (n : Nat) (i : Nat) : α :=
  integer_wlc0 a b i / integer_wlc0 a b n

/-- The search `i=1; while (u>wlc[i]) i=i+1;` of `integer` (useful.c:549–550) from index
`i`; the table has the entries `0..n`, and a read past entry `n` gives `none`. -/
def integer_search (wlc : Nat → α) (n : Nat) (u : α) : Nat → Nat → Option Nat
  | 0, _ => none
  | fuel + 1, i =>
    if n < i then none
    else if u > wlc i then integer_search wlc n u fuel (i + 1)
    else some i

/-- `integer` (useful.c:530): a draw of the gamma distribution of integer shape `a` and
rate `b`, left-truncated at 1. `none` when `(int)a < 1` (the store `wl[1]` is then outside
the `(int)(a+1)` allocated entries). -/
def integer (m : CMath α) (rs : Nat → Nat) (a b : α) (fuel k : Nat) : Option (α × Nat) :=
  let n := (cInt m a).toNat
  if n < 1 then none
  else
    let u := (myrunif m rs k).1
    match integer_search (integer_wlc a b n) n u n 1 with
    | none => none
    | some i =>
      match myrgamma1 m rs ((i : Nat) : α) fuel (k + 1) with
      | none => none
      | some (g, k') => some (g / b + 1.0, k')

/-- `inter_le` (useful.c:559); each of its three `while (test == 0)` loops runs at most
`fuel` times, the loops of the functions it calls at most `gfuel` times. -/
def inter_le (m : CMath α) (rs : Nat → Nat) (a b : α) (gfuel : Nat) :
    Nat → Nat → Option (α × Nat)
  | 0, _ => none
  | fuel + 1, k =>
    if a < 1.0 then
      let M : α := 1.0
      let x := 1 - (1 / b) * m.log (1 - (myrunif m rs k).1)
      let y := 1 / m.pow x (1 - a)
      if (myrunif m rs (k + 1)).1 < y / M then some (x, k + 2)
      else inter_le m rs a b gfuel fuel (k + 2)
    else if a < b then
      let M := m.exp ((m.floor a : α) - a)
      match integer m rs (m.floor a : α) (b * (m.floor a : α) / a) gfuel k with
      | none => none
      | some (x, k') =>
        let y := m.pow x (a - (m.floor a : α)) * m.exp (-x * b * (1 - (m.floor a : α) / a))
        if (myrunif m rs k').1 < y / M then some (x, k' + 1)
        else inter_le m rs a b gfuel fuel (k' + 1)
    else
      let M := m.exp ((m.floor a : α) - a) * m.pow (a / b) (a - (m.floor a : α))
      match integer m rs (m.floor a : α) (b + (m.floor a : α) - a) gfuel k with
      | none => none
      | some (x, k') =>
        let y := m.pow x (a - (m.floor a : α)) * m.exp (-x * (-(m.floor a : α) + a))
        if (myrunif m rs k').1 < y / M then some (x, k' + 1)
        else inter_le m rs a b gfuel fuel (k' + 1)

/-- `myrtgamma_left` (useful.c:600). -/
def myrtgamma_left (m : CMath α) (rs : Nat → Nat) (a b t : α) (fuel k : Nat) :
    Option (α × Nat) :=
  match inter_le m rs a (b * t) fuel fuel k with
  | none => none
  | some (x, k') => some (x * t, k')

/-! ## `binomial_iCAR.c`: data and state -/

/-- The arguments of `binomial_iCAR` (binomial_iCAR.c:157–191) once read into C arrays
(lines 296–410): `X n p` is `X[n][p]`, `Neigh i l` is `Neigh[i][l]`. Indices and array
lengths are natural numbers. -/
structure Inputs (α : Type) where
  NGIBBS : Int
  NTHIN : Int
  NBURN : Int
  NOBS : Nat
  NCELL : Nat
  NP : Nat
  NPRED : Nat
  Y : Nat → Int
  T : Nat → Int
  X : Nat → Nat → α
  IdCell : Nat → Nat
  nNeigh : Nat → Nat
  Neigh : Nat → Nat → Nat
  X_pred : Nat → Nat → α
  IdCell_pred : Nat → Nat
  beta_start : Nat → α
  rho_start : Nat → α
  Vrho_start : α
  mubeta : Nat → α
  Vbeta : Nat → α
  priorVrho : α
  shape : α
  rate : α
  Vrho_max : α
  save_rho : Int
  save_p : Int

/-- The mutable variables of the sampler: the fields `beta_run`, `rho_run`, `Vrho_run` of
`dens_data`, the tuning arrays, the per-sweep values, the output arrays and the position
`pos` in the stream of `rand()`. The output arrays are indexed by integers, as the index
`isamp-1` is a C `int`. -/
structure State (α : Type) where
  beta_run : Nat → α
  rho_run : Nat → α
  Vrho_run : α
  sigmap_beta : Nat → α
  sigmap_rho : Nat → α
  nA_beta : Nat → Int
  nA_rho : Nat → Int
  Ar_beta : Nat → α
  Ar_rho : Nat → α
  theta_run : Nat → α
  theta_pred_run : Nat → α
  Deviance_run : α
  beta_vect : Int → α
  rho_vect : Int → α
  Vrho_vect : Int → α
  Deviance_vect : Int → α
  theta_latent_vect : Int → α
  theta_pred_vect : Int → α
  pos : Nat

/-- `nObsCell[i]` (binomial_iCAR.c:317–324). -/
def nObsCell (d : Inputs α) (i : Nat) : Nat :=
  (List.range d.NOBS).foldl (fun c n => if d.IdCell n = i then c + 1 else c) 0

/-- `PosCell[i]` (binomial_iCAR.c:327–336): the observations of cell `i`, in order. -/
def PosCell (d : Inputs α) (i : Nat) : List Nat :=
  (List.range d.NOBS).foldl (fun l n => if d.IdCell n = i then l ++ [n] else l) []

/-- `viscell` (binomial_iCAR.c:383–389). -/
def viscell (d : Inputs α) : Nat → Int :=
  (List.range d.NOBS).foldl
    (fun v n => Function.update v (d.IdCell n) (v (d.IdCell n) + 1)) (fun _ => 0)

/-- The state before the first sweep (binomial_iCAR.c:282–289, 353–359, 377–380,
412–486). -/
def initState (d : Inputs α) : State α where
  beta_run := d.beta_start
  rho_run := d.rho_start
  Vrho_run := d.Vrho_start
  sigmap_beta := fun _ => 1.0
  sigmap_rho := fun _ => 1.0
  nA_beta := fun _ => 0
  nA_rho := fun _ => 0
  Ar_beta := fun _ => 0.0
  Ar_rho := fun _ => 0.0
  theta_run := fun _ => 0.0
  theta_pred_run := fun _ => 0.0
  Deviance_run := 0
  beta_vect := fun _ => 0.0
  rho_vect := fun _ => 0.0
  Vrho_vect := fun _ => 0.0
  Deviance_vect := fun _ => 0.0
  theta_latent_vect := fun _ => 0.0
  theta_pred_vect := fun _ => 0.0
  pos := 0

/-! ## `binomial_iCAR.c`: conditional densities -/

/-- The linear predictor `Xpart_theta` of row `x` at the coefficients `beta`
(binomial_iCAR.c:93–96, 592–595, 610–613). -/
def Xpart (NP : Nat) (x : Nat → α) (beta : Nat → α) : α :=
  (List.range NP).foldl (fun acc p => acc + x p * beta p) 0.0

/-- `betadens` (binomial_iCAR.c:51) with `pos_beta = k`. -/
def betadens (m : CMath α) (d : Inputs α) (st : State α) (k : Nat) (beta_k : α) : α :=
  let logL := (List.range d.NOBS).foldl (fun logL n =>
    let Xpart_theta := (List.range d.NP).foldl
      (fun acc p => if p ≠ k then acc + d.X n p * st.beta_run p else acc) 0.0
    let Xpart_theta := Xpart_theta + d.X n k * beta_k
    let theta := invlogit m (Xpart_theta + st.rho_run (d.IdCell n))
    logL + mylndbern m (d.Y n) theta) 0.0
  logL + mydnorm m beta_k (d.mubeta k) (m.sqrt (d.Vbeta k)) 1

/-- The sum `sumNeighbors` of the neighbours of cell `i` (binomial_iCAR.c:104–107,
124–127). -/
def sumNeighbors (d : Inputs α) (st : State α) (i : Nat) : α :=
  (List.range (d.nNeigh i)).foldl (fun acc l => acc + st.rho_run (d.Neigh i l)) 0.0

/-- `rhodens_visited` (binomial_iCAR.c:82) with `pos_rho = i`. -/
def rhodens_visited (m : CMath α) (d : Inputs α) (st : State α) (i : Nat) (rho_i : α) : α :=
  let logL := (List.range (nObsCell d i)).foldl (fun logL mm =>
    let w := (PosCell d i).getD mm 0
    let theta := invlogit m (Xpart d.NP (d.X w) st.beta_run + rho_i)
    logL + mylndbern m (d.Y w) theta) 0
  let nNeighbors := d.nNeigh i
  let meanNeighbors := sumNeighbors d st i / (nNeighbors : α)
  logL + mydnorm m rho_i meanNeighbors (m.sqrt (st.Vrho_run / (nNeighbors : α))) 1

/-- `rhodens_unvisited` (binomial_iCAR.c:116) with `pos_rho = i`: the value drawn and the
new position in the stream. -/
def rhodens_unvisited (m : CMath α) (rs : Nat → Nat) (d : Inputs α) (st : State α) (i : Nat)
    (fuel : Nat) : Option (α × Nat) :=
  let nNeighbors := d.nNeigh i
  let meanNeighbors := sumNeighbors d st i / (nNeighbors : α)
  myrnorm m rs meanNeighbors (m.sqrt (st.Vrho_run / (nNeighbors : α))) fuel st.pos

/-! ## `binomial_iCAR.c`: the steps of one sweep -/

/-- The Metropolis update of `beta_run[p]` (binomial_iCAR.c:505–516). -/
def betaUpdate (m : CMath α) (rs : Nat → Nat) (d : Inputs α) (fuel : Nat) (st : State α)
    (p : Nat) : Option (State α) :=
  let x_now := st.beta_run p
  match myrnorm m rs x_now (st.sigmap_beta p) fuel st.pos with
  | none => none
  | some (x_prop, k) =>
    let p_now := betadens m d st p x_now
    let p_prop := betadens m d st p x_prop
    let r := m.exp (p_prop - p_now)
    let z := (myrunif m rs k).1
    if z < r then
      some { st with beta_run := Function.update st.beta_run p x_prop,
                     nA_beta := Function.update st.nA_beta p (st.nA_beta p + 1),
                     pos := k + 1 }
    else some { st with pos := k + 1 }

/-- The loop over the coefficients (binomial_iCAR.c:504). -/
def betaStep (m : CMath α) (rs : Nat → Nat) (d : Inputs α) (fuel : Nat) (st : State α) :
    Option (State α) :=
  (List.range d.NP).foldlM (betaUpdate m rs d fuel) st

/-- The update of `rho_run[i]` (binomial_iCAR.c:525–541): a Metropolis step for a visited
cell, the direct draw of `rhodens_unvisited` otherwise. -/
def rhoUpdate (m : CMath α) (rs : Nat → Nat) (d : Inputs α) (fuel : Nat) (st : State α)
    (i : Nat) : Option (State α) :=
  if viscell d i > 0 then
    let x_now := st.rho_run i
    match myrnorm m rs x_now (st.sigmap_rho i) fuel st.pos with
    | none => none
    | some (x_prop, k) =>
      let p_now := rhodens_visited m d st i x_now
      let p_prop := rhodens_visited m d st i x_prop
      let r := m.exp (p_prop - p_now)
      let z := (myrunif m rs k).1
      if z < r then
        some { st with rho_run := Function.update st.rho_run i x_prop,
                       nA_rho := Function.update st.nA_rho i (st.nA_rho i + 1),
                       pos := k + 1 }
      else some { st with pos := k + 1 }
  else
    match rhodens_unvisited m rs d st i fuel with
    | none => none
    | some (sample, k) =>
      some { st with rho_run := Function.update st.rho_run i sample, pos := k }

/-- The loop over the cells (binomial_iCAR.c:524). -/
def rhoSample (m : CMath α) (rs : Nat → Nat) (d : Inputs α) (fuel : Nat) (st : State α) :
    Option (State α) :=
  (List.range d.NCELL).foldlM (rhoUpdate m rs d fuel) st

/-- The centring of `rho_run` (binomial_iCAR.c:545–552). -/
def rhoCenter (d : Inputs α) (st : State α) : State α :=
  let rho_sum := (List.range d.NCELL).foldl (fun acc i => acc + st.rho_run i) 0.0
  let rho_bar := rho_sum / (d.NCELL : α)
  let rho_run := (List.range d.NCELL).foldl
    (fun rho i => Function.update rho i (rho i - rho_bar)) st.rho_run
  { st with rho_run := rho_run }

/-- The spatial-effect step of a sweep (binomial_iCAR.c:524–552). -/
def rhoStep (m : CMath α) (rs : Nat → Nat) (d : Inputs α) (fuel : Nat) (st : State α) :
    Option (State α) :=
  match rhoSample m rs d fuel st with
  | none => none
  | some st' => some (rhoCenter d st')

/-- The quadratic form `Sum` of the variance step (binomial_iCAR.c:562–571). -/
def vrhoSum (d : Inputs α) (st : State α) : α :=
  (List.range d.NCELL).foldl (fun Sum i =>
    let nNeigh : α := (d.nNeigh i : α)
    let rho_run := st.rho_run i
    let Sum_neigh := (List.range (d.nNeigh i)).foldl
      (fun acc mm => acc + st.rho_run (d.Neigh i mm)) 0.0
    Sum + rho_run * (nNeigh * rho_run - Sum_neigh)) 0.0

/-- The draw of the uniform-prior branch (binomial_iCAR.c:577–581). -/
def vrhoUniform (m : CMath α) (rs : Nat → Nat) (d : Inputs α) (fuel : Nat) (st : State α) :
    Option (State α) :=
  let Shape := 0.5 * (d.NCELL : α) - 1
  let Rate := 0.5 * vrhoSum d st
  match myrtgamma_left m rs Shape Rate (1 / d.Vrho_max) fuel st.pos with
  | none => none
  | some (g, k) => some { st with Vrho_run := 1 / g, pos := k }

/-- The draw of the inverse-gamma branch (binomial_iCAR.c:572–576). -/
def vrhoInvGamma (m : CMath α) (rs : Nat → Nat) (d : Inputs α) (fuel : Nat) (st : State α) :
    Option (State α) :=
  let Shape := d.shape + 0.5 * ((d.NCELL : α) - 1)
  let Rate := d.rate + 0.5 * vrhoSum d st
  match myrgamma1 m rs Shape fuel st.pos with
  | none => none
  | some (g, k) => some { st with Vrho_run := Rate / g, pos := k }

/-- The variance step of a sweep (binomial_iCAR.c:558–582). -/
def vrhoStep (m : CMath α) (rs : Nat → Nat) (d : Inputs α) (fuel : Nat) (st : State α) :
    Option (State α) :=
  if d.priorVrho > 0.0 then some { st with Vrho_run := d.priorVrho }
  else
    match (if d.priorVrho = -1.0 then vrhoInvGamma m rs d fuel st else some st) with
    | none => none
    | some st1 => if d.priorVrho = -2.0 then vrhoUniform m rs d fuel st1 else some st1

/-- The deviance step of a sweep (binomial_iCAR.c:589–603): stores `theta_run` and
`Deviance_run`. -/
def devianceStep (m : CMath α) (d : Inputs α) (st : State α) : State α :=
  let r := (List.range d.NOBS).foldl (fun (acc : α × (Nat → α)) n =>
    let theta := invlogit m (Xpart d.NP (d.X n) st.beta_run + st.rho_run (d.IdCell n))
    (acc.1 + mylndbern m (d.Y n) theta, Function.update acc.2 n theta)) (0.0, st.theta_run)
  { st with theta_run := r.2, Deviance_run := -2 * r.1 }

/-- The prediction step of a sweep (binomial_iCAR.c:608–615). -/
def predStep (m : CMath α) (d : Inputs α) (st : State α) : State α :=
  let theta_pred_run := (List.range d.NPRED).foldl (fun tp mm =>
    Function.update tp mm
      (invlogit m (Xpart d.NP (d.X_pred mm) st.beta_run + st.rho_run (d.IdCell_pred mm))))
    st.theta_pred_run
  { st with theta_pred_run := theta_pred_run }

/-! ## The thinning counters of the driver -/

/-- `NSAMP` (binomial_iCAR.c:274); `/` of C `int`s truncates toward zero. -/
def NSAMP (NGIBBS NBURN NTHIN : Int) : Int :=
  (NGIBBS - NBURN).tdiv NTHIN

/-- The recording condition of sweep `g` (binomial_iCAR.c:620). -/
def records (NBURN NTHIN : Int) (g : Nat) : Bool :=
  decide (((g : Int) + 1) > NBURN) && decide ((((g : Int) + 1).tmod NTHIN) = 0)

/-- The sample number `isamp` of sweep `g` (binomial_iCAR.c:621). -/
def isamp (NBURN NTHIN : Int) (g : Nat) : Int :=
  (((g : Int) + 1) - NBURN).tdiv NTHIN

/-- The number of sweeps `g` of the loop `for (g=0; g<NGIBBS; g++)` that record. -/
def nRecorded (NGIBBS NBURN NTHIN : Int) : Nat :=
  ((List.range NGIBBS.toNat).filter (fun g => records NBURN NTHIN g)).length

/-- The output step of sweep `g` (binomial_iCAR.c:620–656). The traces `Vrho_vect` and
`Deviance_vect` are blocks of `NSAMP` entries, `beta_vect` of `NP * NSAMP` entries
(binomial_iCAR.c:414–460): at a recording sweep whose position `isamp-1` is outside
`[0, NSAMP)` the store `Vrho_vect[isamp-1]` is outside its block, and the step is `none`.
For a position inside `[0, NSAMP)` every index `p*NSAMP+(isamp-1)` with `p < NP` is inside
its block. -/
def recordStep (d : Inputs α) (g : Nat) (st : State α) : Option (State α) :=
  if records d.NBURN d.NTHIN g then
    let NSAMP := NSAMP d.NGIBBS d.NBURN d.NTHIN
    let isamp := isamp d.NBURN d.NTHIN g
    if isamp - 1 < 0 ∨ NSAMP ≤ isamp - 1 then none
    else
    let beta_vect := (List.range d.NP).foldl (fun bv (p : Nat) =>
      Function.update bv ((p : Int) * NSAMP + (isamp - 1)) (st.beta_run p)) st.beta_vect
    let rho_vect0 :=
      if d.save_rho = 0 then
        (List.range d.NCELL).foldl (fun rv (i : Nat) =>
          Function.update rv (i : Int) (rv (i : Int) + st.rho_run i / (NSAMP : α))) st.rho_vect
      else st.rho_vect
    let rho_vect :=
      if d.save_rho = 1 then
        (List.range d.NCELL).foldl (fun rv (i : Nat) =>
          Function.update rv ((i : Int) * NSAMP + (isamp - 1)) (st.rho_run i)) rho_vect0
      else rho_vect0
    let Vrho_vect := Function.update st.Vrho_vect (isamp - 1) st.Vrho_run
    let Deviance_vect := Function.update st.Deviance_vect (isamp - 1) st.Deviance_run
    let theta_latent_vect := (List.range d.NOBS).foldl (fun tl (n : Nat) =>
      Function.update tl (n : Int) (tl (n : Int) + st.theta_run n / (NSAMP : α)))
      st.theta_latent_vect
    let theta_pred_vect0 :=
      if d.save_p = 0 then
        (List.range d.NPRED).foldl (fun tp (mm : Nat) =>
          Function.update tp (mm : Int) (tp (mm : Int) + st.theta_pred_run mm / (NSAMP : α)))
          st.theta_pred_vect
      else st.theta_pred_vect
    let theta_pred_vect :=
      if d.save_p = 1 then
        (List.range d.NPRED).foldl (fun tp (mm : Nat) =>
          Function.update tp ((mm : Int) * NSAMP + (isamp - 1)) (st.theta_pred_run mm))
          theta_pred_vect0
      else theta_pred_vect0
    some { st with beta_vect := beta_vect, rho_vect := rho_vect, Vrho_vect := Vrho_vect,
                   Deviance_vect := Deviance_vect, theta_latent_vect := theta_latent_vect,
                   theta_pred_vect := theta_pred_vect }
  else some st

/-- The target acceptance rate `ropt` (binomial_iCAR.c:661). -/
def ropt : α := 0.44

/-- One adaptation of a proposal scale from the window rate `Ar`
(binomial_iCAR.c:670–671 for beta, 678–679 for rho). -/
def adaptScale (sigmap Ar : α) : α :=
  if Ar ≥ ropt then sigmap * (2 - (1 - Ar) / (1 - ropt))
  else sigmap / (2 - Ar / ropt)

/-- The window rate `Ar = ((double) nA) / DIV` (binomial_iCAR.c:669, 677). -/
def windowRate (nA DIV : Int) : α :=
  (nA : α) / (DIV : α)

/-- The window length `DIV` (binomial_iCAR.c:662–664). -/
def DIV (NGIBBS : Int) : Int :=
  if NGIBBS ≥ 1000 then 100 else NGIBBS.tdiv 10

/-- The body of the loop over the coefficients during the burn-in
(binomial_iCAR.c:669–672). -/
def adaptBeta (d : Inputs α) (st : State α) (p : Nat) : State α :=
  let Ar : α := windowRate (st.nA_beta p) (DIV d.NGIBBS)
  { st with Ar_beta := Function.update st.Ar_beta p Ar,
            sigmap_beta := Function.update st.sigmap_beta p (adaptScale (st.sigmap_beta p) Ar),
            nA_beta := Function.update st.nA_beta p 0 }

/-- The body of the loop over the cells during the burn-in (binomial_iCAR.c:676–681). -/
def adaptRho (d : Inputs α) (st : State α) (i : Nat) : State α :=
  if viscell d i > 0 then
    let Ar : α := windowRate (st.nA_rho i) (DIV d.NGIBBS)
    { st with Ar_rho := Function.update st.Ar_rho i Ar,
              sigmap_rho := Function.update st.sigmap_rho i (adaptScale (st.sigmap_rho i) Ar),
              nA_rho := Function.update st.nA_rho i 0 }
  else st

/-- The body of the loop over the coefficients after the burn-in
(binomial_iCAR.c:688–689). -/
def rateBeta (d : Inputs α) (st : State α) (p : Nat) : State α :=
  { st with Ar_beta := Function.update st.Ar_beta p (windowRate (st.nA_beta p) (DIV d.NGIBBS)),
            nA_beta := Function.update st.nA_beta p 0 }

/-- The body of the loop over the cells after the burn-in (binomial_iCAR.c:693–696). -/
def rateRho (d : Inputs α) (st : State α) (i : Nat) : State α :=
  if viscell d i > 0 then
    { st with Ar_rho := Function.update st.Ar_rho i (windowRate (st.nA_rho i) (DIV d.NGIBBS)),
              nA_rho := Function.update st.nA_rho i 0 }
  else st

/-- The adaptive-sampling step of sweep `g` (binomial_iCAR.c:661–698); `none` when
`DIV = 0`, where `(g+1)%DIV` is a division by zero. -/
def adaptStep (d : Inputs α) (g : Nat) (st : State α) : Option (State α) :=
  if DIV d.NGIBBS = 0 then none
  else
    let st1 :=
      if ((g : Int) + 1).tmod (DIV d.NGIBBS) = 0 ∧ (g : Int) + 1 ≤ d.NBURN then
        (List.range d.NCELL).foldl (adaptRho d) ((List.range d.NP).foldl (adaptBeta d) st)
      else st
    let st2 :=
      if ((g : Int) + 1).tmod (DIV d.NGIBBS) = 0 ∧ (g : Int) + 1 > d.NBURN then
        (List.range d.NCELL).foldl (rateRho d) ((List.range d.NP).foldl (rateBeta d) st1)
      else st1
    some st2

/-- The progress bar at the end of a sweep (binomial_iCAR.c:703–726). Its test
`(g+1)%(NGIBBS/100)==0 && verbose==1` evaluates the remainder first, whatever `verbose`
is: for `NGIBBS/100 = 0` it is a division by zero and the step is `none`. Otherwise it
prints and changes no variable of the sampler. -/
def progressBar (d : Inputs α) (st : State α) : Option (State α) :=
  if d.NGIBBS.tdiv 100 = 0 then none else some st

/-- One sweep `g` of the Gibbs sampler (binomial_iCAR.c:498–733). -/
def sweep (m : CMath α) (rs : Nat → Nat) (d : Inputs α) (fuel : Nat) (st : State α)
    (g : Nat) : Option (State α) :=
  match betaStep m rs d fuel st with
  | none => none
  | some st1 =>
    match rhoStep m rs d fuel st1 with
    | none => none
    | some st2 =>
      match vrhoStep m rs d fuel st2 with
      | none => none
      | some st3 =>
        match recordStep d g (predStep m d (devianceStep m d st3)) with
        | none => none
        | some st4 =>
          match adaptStep d g st4 with
          | none => none
          | some st5 => progressBar d st5

/-- The sweeps `g = 0, …, n-1` from the state `st`. -/
def sweeps (m : CMath α) (rs : Nat → Nat) (d : Inputs α) (fuel : Nat) (st : State α)
    (n : Nat) : Option (State α) :=
  (List.range n).foldlM (sweep m rs d fuel) st

/-- The whole loop `for (g=0; g<NGIBBS; g++)` from the initial state. -/
def gibbs (m : CMath α) (rs : Nat → Nat) (d : Inputs α) (fuel : Nat) : Option (State α) :=
  sweeps m rs d fuel (initState d) d.NGIBBS.toNat

/-! ## Reference quantities of the specification -/

/-- The log-likelihood of all observations at the coefficients `beta` and the spatial
effects `rho`: the sum over the NOBS observations of the Bernoulli log-density of `Y[n]` at
`invlogit (Σ_p X[n][p] * beta[p] + rho[IdCell[n]])`. -/
def fullLogLik (m : CMath α) (d : Inputs α) (beta rho : Nat → α) : α :=
  ∑ n in Finset.range d.NOBS,
    mylndbern m (d.Y n) (invlogit m ((∑ p in Finset.range d.NP, d.X n p * beta p)
      + rho (d.IdCell n)))

/-- The log-likelihood of the observations of cell `i` at the candidate value `v`: the sum
over exactly the observations `n` with `IdCell[n] = i` of the Bernoulli log-density of
`Y[n]` at `invlogit (Σ_p X[n][p] * beta[p] + v)`. -/
def cellLogLik (m : CMath α) (d : Inputs α) (beta : Nat → α) (i : Nat) (v : α) : α :=
  ∑ n in (Finset.range d.NOBS).filter (fun n => d.IdCell n = i),
    mylndbern m (d.Y n) (invlogit m ((∑ p in Finset.range d.NP, d.X n p * beta p) + v))

/-- The number of times cell `j` occurs in the neighbour list `Neigh[i]`. -/
def neighCount (d : Inputs α) (i j : Nat) : Nat :=
  ((List.range (d.nNeigh i)).map (d.Neigh i)).count j

/-- One half of the sum, over the cells `i` and the entries `j` of `Neigh[i]`, of
`(rho_i - rho_j)^2`. -/
def halfPairwiseSS (d : Inputs α) (rho : Nat → α) : α :=
  (1 / 2) * ∑ i in Finset.range d.NCELL, ∑ l in Finset.range (d.nNeigh i),
    (rho i - rho (d.Neigh i l)) ^ 2

/-! ## `useful.c`: densities with domain checks -/

/-- How a call that can stop the process ends otherwise than by returning:
`exitFailure` is `exit(EXIT_FAILURE)`, `outOfBounds` a read outside an array,
`outOfFuel` a loop that has not stopped within the bound given to the model. -/
inductive CErr where
  | exitFailure
  | outOfBounds
  | outOfFuel

/-- The functions `sin` and `log1p` of `math.h`, which only the gamma and binomial helpers
call. -/
structure CMathX (α : Type) extends CMath α where
  sin : α → α
  log1p : α → α

/-- The interpretation of the extended `math.h` in exact real arithmetic. -/
def IsRealMathX (mx : CMathX ℝ) : Prop :=
  IsRealMath mx.toCMath ∧ mx.sin = Real.sin ∧ ∀ x : ℝ, mx.log1p x = Real.log (1 + x)

/-- The constant `M_PI` (useful.c:17, used when `math.h` does not define it). -/
def M_PI : α := 3.141592653589793238462643383280

/-- The constant `M_LN_2PI` (useful.c:19). -/
def M_LN_2PI : α := 1.837877066409345483560659472811

/-- The constant `M_LN_SQRT_PId2` (useful.c:21). -/
def M_LN_SQRT_PId2 : α := 0.225791352644727432363097614947

/-- `chebyshev_eval` (useful.c:62); `a` is the coefficient array. -/
def chebyshev_eval (x : α) (a : List α) (n : Int) : Except CErr α :=
  if n < 1 ∨ n > 1000 then Except.error CErr.exitFailure
  else if x < -1.1 ∨ x > 1.1 then Except.error CErr.exitFailure
  else
    let twox := x * 2
    let b := (List.range n.toNat).foldl (fun (b : α × α × α) j =>
      let b2 := b.2.1
      let b1 := b.1
      let b0 := twox * b1 - b2 + a.getD (n.toNat - (j + 1)) 0
      (b0, b1, b2)) (0, 0, 0)
    Except.ok ((b.1 - b.2.2) * 0.5)

/-- The array `algmcs` of `lngammacor` (useful.c:90). -/
def algmcs : List α := [
    0.1666389480451863247205729650822e+0, -0.1384948176067563840732986059135e-4,
    0.9810825646924729426157171547487e-8, -0.1809129475572494194263306266719e-10,
    0.6221098041892605227126015543416e-13]

/-- `lngammacor` (useful.c:89). -/
def lngammacor (x : α) : Except CErr α :=
  if x < 10 then Except.error CErr.exitFailure
  else if x ≥ 3.745194030963158e306 then Except.error CErr.exitFailure
  else if x < 94906265.62425156 then
    let tmp := 10 / x
    match chebyshev_eval (tmp * tmp * 2 - 1) algmcs 5 with
    | Except.error e => Except.error e
    | Except.ok c => Except.ok (c / x)
  else Except.ok (1 / (x * 12))

/-- The Taylor loop of `bd0` (useful.c:122–128) from the iteration `j`, run at most `fuel`
times. -/
def bd0_loop (v : α) : Nat → Nat → α → α → Except CErr α
  | 0, _, _, _ => Except.error CErr.outOfFuel
  | fuel + 1, j, ej, s =>
    let ej := ej * v
    let s1 := s + ej / (((2 * j + 1 : Nat) : α))
    if s1 = s then Except.ok s1 else bd0_loop v fuel (j + 1) ej s1

/-- `bd0` (useful.c:115). -/
def bd0 (m : CMath α) (x np : α) (fuel : Nat) : Except CErr α :=
  if |x - np| < 0.1 * (x + np) then
    let v := (x - np) / (x + np)
    let s := (x - np) * v
    let ej := 2 * x * v
    let v := v * v
    bd0_loop v fuel 1 ej s
  else Except.ok (x * m.log (x / np) + np - x)

/-- The array `gamcs` of `gammafn` (useful.c:138). -/
def gamcs : List α := [
    0.8571195590989331421920062399942e-2, 0.4415381324841006757191315771652e-2,
    0.5685043681599363378632664588789e-1, -0.4219835396418560501012500186624e-2,
    0.1326808181212460220584006796352e-2, -0.1893024529798880432523947023886e-3,
    0.3606925327441245256578082217225e-4, -0.6056761904460864218485548290365e-5,
    0.1055829546302283344731823509093e-5, -0.1811967365542384048291855891166e-6,
    0.3117724964715322277790254593169e-7, -0.5354219639019687140874081024347e-8,
    0.9193275519859588946887786825940e-9, -0.1577941280288339761767423273953e-9,
    0.2707980622934954543266540433089e-10, -0.4646818653825730144081661058933e-11,
    0.7973350192007419656460767175359e-12, -0.1368078209830916025799499172309e-12,
    0.2347319486563800657233471771688e-13, -0.4027432614949066932766570534699e-14,
    0.6910051747372100912138336975257e-15, -0.1185584500221992907052387126192e-15]

/-- `gammafn` (useful.c:136). -/
def gammafn (mx : CMathX α) (x : α) : Except CErr α :=
  let y := |x|
  if y ≤ 10 then
    let n : Int := cInt mx.toCMath x
    let n : Int := if x < 0 then n - 1 else n
    let y := x - (n : α)
    let n : Int := n - 1
    match chebyshev_eval (y * 2 - 1) gamcs 22 with
    | Except.error e => Except.error e
    | Except.ok c =>
      let value := c + 0.9375
      if n = 0 then Except.ok value
      else if n < 0 then
        if x = 0 ∨ (x < 0 ∧ x = ((n + 2 : Int) : α)) then Except.error CErr.exitFailure
        else if x < -0.5 ∧ |(x - ((cInt mx.toCMath (x - 0.5) : Int) : α)) / x| < 67108864.0 then
          Except.error CErr.exitFailure
        else if y < 2.2474362225598545e-308 then Except.error CErr.exitFailure
        else
          let n := -n
          Except.ok ((List.range n.toNat).foldl (fun value i => value / (x + (i : α))) value)
      else
        Except.ok ((List.range n.toNat).foldl
          (fun value j => value * (y + ((j + 1 : Nat) : α))) value)
  else
    if x > 171.61447887182298 then Except.error CErr.exitFailure
    else if x < -170.5674972726612 then Except.error CErr.exitFailure
    else
      match lngammacor y with
      | Except.error e => Except.error e
      | Except.ok c =>
        let value := mx.exp ((y - 0.5) * mx.log y - y + M_LN_SQRT_2PI + c)
        if x > 0 then Except.ok value
        else if |(x - ((cInt mx.toCMath (x - 0.5) : Int) : α)) / x| < 67108864.0 then
          Except.error CErr.exitFailure
        else
          let sinpiy := mx.sin (M_PI * y)
          if sinpiy = 0 then Except.error CErr.exitFailure
          else Except.ok (-M_PI / (y * sinpiy * value))

/-- `lngammafn` (useful.c:262). -/
def lngammafn (mx : CMathX α) (x : α) : Except CErr α :=
  if x ≤ 0 ∧ x = ((cInt mx.toCMath x : Int) : α) then Except.error CErr.exitFailure
  else
    let y := |x|
    if y ≤ 10 then
      match gammafn mx x with
      | Except.error e => Except.error e
      | Except.ok g => Except.ok (mx.log |g|)
    else if y > 2.5327372760800758e+305 then Except.error CErr.exitFailure
    else if x > 0 then
      match lngammacor x with
      | Except.error e => Except.error e
      | Except.ok c => Except.ok (M_LN_SQRT_2PI + (x - 0.5) * mx.log x - x + c)
    else
      let sinpiy := |mx.sin (M_PI * y)|
      if sinpiy = 0 then Except.error CErr.exitFailure
      else
        match lngammacor y with
        | Except.error e => Except.error e
        | Except.ok c =>
          let ans := M_LN_SQRT_PId2 + (x - 0.5) * mx.log y - x - mx.log sinpiy - c
          if |(x - ((cInt mx.toCMath (x - 0.5) : Int) : α)) * ans / x| < 1.490116119384765696e-8
          then Except.error CErr.exitFailure
          else Except.ok ans

/-- The array `sferr_halves` of `stirlerr` (useful.c:307). -/
def sferr_halves : List α := [
    0.0, 0.1534264097200273452913848, 0.0810614667953272582196702,
    0.0548141210519176538961390, 0.0413406959554092940938221, 0.03316287351993628748511048,
    0.02767792568499833914878929, 0.02374616365629749597132920, 0.02079067210376509311152277,
    0.01848845053267318523077934, 0.01664469118982119216319487, 0.01513497322191737887351255,
    0.01387612882307074799874573, 0.01281046524292022692424986, 0.01189670994589177009505572,
    0.01110455975820691732662991, 0.010411265261972096497478567, 0.009799416126158803298389475,
    0.009255462182712732917728637, 0.008768700134139385462952823, 0.008330563433362871256469318,
    0.007934114564314020547248100, 0.007573675487951840794972024, 0.007244554301320383179543912,
    0.006942840107209529865664152, 0.006665247032707682442354394, 0.006408994188004207068439631,
    0.006171712263039457647532867, 0.005951370112758847735624416, 0.005746216513010115682023589,
    0.005554733551962801371038690]

/-- `stirlerr` (useful.c:299), with its constants `S0`, …, `S4`. -/
def stirlerr (mx : CMathX α) (n : α) : Except CErr α :=
  let S0 : α := 0.083333333333333333333
  let S1 : α := 0.00277777777777777777778
  let S2 : α := 0.00079365079365079365079365
  let S3 : α := 0.000595238095238095238095238
  let S4 : α := 0.0008417508417508417508417508
  if n ≤ 15.0 then
    let nn := n + n
    if nn = ((cInt mx.toCMath nn : Int) : α) then
      if cInt mx.toCMath nn < 0 ∨ cInt mx.toCMath nn > 30 then Except.error CErr.outOfBounds
      else Except.ok (sferr_halves.getD (cInt mx.toCMath nn).toNat 0)
    else
      match lngammafn mx (n + 1.0) with
      | Except.error e => Except.error e
      | Except.ok lg => Except.ok (lg - (n + 0.5) * mx.log n + n - M_LN_SQRT_2PI)
  else
    let nn := n * n
    if n > 500 then Except.ok ((S0 - S1 / nn) / n)
    else if n > 80 then Except.ok ((S0 - (S1 - S2 / nn) / nn) / n)
    else if n > 35 then Except.ok ((S0 - (S1 - (S2 - S3 / nn) / nn) / nn) / n)
    else Except.ok ((S0 - (S1 - (S2 - (S3 - S4 / nn) / nn) / nn) / nn) / n)

/-- `mydbern` (useful.c:380). -/
def mydbern (m : CMath α) (x : Int) (p : α) (l : Int) : Except CErr α :=
  if p < 0 ∨ p > 1 then Except.error CErr.exitFailure
  else if x ≠ 0 ∧ x ≠ 1 then
    if l = 1 then Except.error CErr.exitFailure else Except.ok 0.0
  else if l = 1 then
    if p = 0 ∨ p = 1 then Except.error CErr.exitFailure
    else Except.ok ((x : α) * m.log p + (1 - (x : α)) * m.log (1 - p))
  else Except.ok (m.pow p (x : α) * m.pow (1 - p) (((1 - x : Int)) : α))

/-- `dbinom_raw` (useful.c:413); the loops of `bd0` run at most `fuel` times. -/
def dbinom_raw (mx : CMathX α) (x n p q : α) (l : Int) (fuel : Nat) : Except CErr α :=
  if p = 0 then Except.ok (if x = 0 then 1.0 else 0.0)
  else if q = 0 then Except.ok (if x = n then 1.0 else 0.0)
  else if x = 0 then
    if n = 0 then Except.ok 1.0
    else if p < 0.1 then
      match bd0 mx.toCMath n (n * q) fuel with
      | Except.error e => Except.error e
      | Except.ok b => Except.ok (mx.exp (-b - n * p))
    else Except.ok (mx.exp (n * mx.log q))
  else if x = n then
    if q < 0.1 then
      match bd0 mx.toCMath n (n * p) fuel with
      | Except.error e => Except.error e
      | Except.ok b => Except.ok (mx.exp (-b - n * q))
    else Except.ok (mx.exp (n * mx.log p))
  else if x < 0 ∨ x > n then Except.ok 0.0
  else
    match stirlerr mx n, stirlerr mx x, stirlerr mx (n - x), bd0 mx.toCMath x (n * p) fuel,
        bd0 mx.toCMath (n - x) (n * q) fuel with
    | Except.ok sn, Except.ok sx, Except.ok snx, Except.ok b1, Except.ok b2 =>
      let lc := sn - sx - snx - b1 - b2
      let lf := M_LN_2PI + mx.log x + mx.log1p (-x / n)
      if l = 1 then Except.ok (lc - 0.5 * lf)
      else Except.ok (mx.exp (lc - 0.5 * lf))
    | Except.error e, _, _, _, _ => Except.error e
    | _, Except.error e, _, _, _ => Except.error e
    | _, _, Except.error e, _, _ => Except.error e
    | _, _, _, Except.error e, _ => Except.error e
    | _, _, _, _, Except.error e => Except.error e

/-- `mydbinom` (useful.c:441); `n` is an `unsigned int`. -/
def mydbinom (mx : CMathX α) (x : α) (n : Nat) (p : α) (l : Int) (fuel : Nat) :
    Except CErr α :=
  if p < 0 ∨ p > 1 then Except.error CErr.exitFailure
  else
    let X : α := (mx.floor (x + 0.5) : α)
    dbinom_raw mx X (n : α) p (1 - p) l fuel

/-! ## Two runs that differ in the prediction data -/

/-- The inputs `d` with other prediction covariates and prediction cell ids. -/
def withPredInputs (d : Inputs α) (X_pred : Nat → Nat → α) (IdCell_pred : Nat → Nat) :
    Inputs α :=
  { d with X_pred := X_pred, IdCell_pred := IdCell_pred }

/-- The state `s` with other predictive values `theta_pred_run` and another predictive
output `theta_pred_vect`. -/
def withPred (a : Nat → α) (b : Int → α) (s : State α) : State α :=
  { s with theta_pred_run := a, theta_pred_vect := b }

/-! ## Per-sweep values and their mean over the recording sweeps -/

/-- The value of `v` in the state at the end of sweep `g` of the run from the initial
state (0 when the run does not reach the end of sweep `g`). -/
def perSweep (m : CMath α) (rs : Nat → Nat) (d : Inputs α) (fuel : Nat) (v : State α → α)
    (g : Nat) : α :=
  match sweeps m rs d fuel (initState d) (g + 1) with
  | none => 0
  | some s => v s

/-- The arithmetic mean of `v g` over the recording sweeps `g` of the loop: their sum
divided by their number. -/
def recordingMean (d : Inputs α) (v : Nat → α) : α :=
  (∑ g in (Finset.range d.NGIBBS.toNat).filter (fun g => records d.NBURN d.NTHIN g = true),
      v g) / (nRecorded d.NGIBBS d.NBURN d.NTHIN : α)

/-! ## Doubles that are infinite or NaN -/

/-- A C `double`: a finite value, an infinity or a NaN. The functions of the sampler are
modelled on the finite values; this type serves where a logarithm of 0 is taken. -/
inductive CDouble (α : Type) where
  | fin (x : α)
  | posInf
  | negInf
  | nan

/-- The sum of two doubles: `inf + (-inf)` is NaN. -/
def CDouble.add : CDouble α → CDouble α → CDouble α
  | CDouble.fin a, CDouble.fin b => CDouble.fin (a + b)
  | CDouble.nan, _ => CDouble.nan
  | _, CDouble.nan => CDouble.nan
  | CDouble.posInf, CDouble.negInf => CDouble.nan
  | CDouble.negInf, CDouble.posInf => CDouble.nan
  | CDouble.posInf, _ => CDouble.posInf
  | _, CDouble.posInf => CDouble.posInf
  | CDouble.negInf, _ => CDouble.negInf
  | _, CDouble.negInf => CDouble.negInf

/-- The opposite of a double. -/
def CDouble.neg : CDouble α → CDouble α
  | CDouble.fin a => CDouble.fin (-a)
  | CDouble.posInf => CDouble.negInf
  | CDouble.negInf => CDouble.posInf
  | CDouble.nan => CDouble.nan

/-- The difference of two doubles: `(-inf) - (-inf)` is NaN. -/
def CDouble.sub (a b : CDouble α) : CDouble α :=
  CDouble.add a (CDouble.neg b)

/-- The product of two doubles: `0 * inf` is NaN. -/
def CDouble.mul : CDouble α → CDouble α → CDouble α
  | CDouble.fin a, CDouble.fin b => CDouble.fin (a * b)
  | CDouble.nan, _ => CDouble.nan
  | _, CDouble.nan => CDouble.nan
  | CDouble.fin a, CDouble.posInf =>
    if a = 0 then CDouble.nan else if 0 < a then CDouble.posInf else CDouble.negInf
  | CDouble.fin a, CDouble.negInf =>
    if a = 0 then CDouble.nan else if 0 < a then CDouble.negInf else CDouble.posInf
  | CDouble.posInf, CDouble.fin b =>
    if b = 0 then CDouble.nan else if 0 < b then CDouble.posInf else CDouble.negInf
  | CDouble.negInf, CDouble.fin b =>
    if b = 0 then CDouble.nan else if 0 < b then CDouble.negInf else CDouble.posInf
  | CDouble.posInf, CDouble.posInf => CDouble.posInf
  | CDouble.negInf, CDouble.negInf => CDouble.posInf
  | CDouble.posInf, CDouble.negInf => CDouble.negInf
  | CDouble.negInf, CDouble.posInf => CDouble.negInf

/-- The function `log` of `math.h`: `log (0)` is `-inf`, the logarithm of a negative number
is NaN. -/
def CDouble.log (m : CMath α) : CDouble α → CDouble α
  | CDouble.fin x =>
    if x < 0 then CDouble.nan else if x = 0 then CDouble.negInf else CDouble.fin (m.log x)
  | CDouble.posInf => CDouble.posInf
  | CDouble.negInf => CDouble.nan
  | CDouble.nan => CDouble.nan

/-- The function `exp` of `math.h`: `exp (-inf)` is 0, `exp (NaN)` is NaN. -/
def CDouble.exp (m : CMath α) : CDouble α → CDouble α
  | CDouble.fin x => CDouble.fin (m.exp x)
  | CDouble.posInf => CDouble.posInf
  | CDouble.negInf => CDouble.fin 0
  | CDouble.nan => CDouble.nan

/-- The comparison `a < b` of C: false when an operand is NaN. -/
def CDouble.lt : CDouble α → CDouble α → Bool
  | CDouble.fin a, CDouble.fin b => decide (a < b)
  | CDouble.nan, _ => false
  | _, CDouble.nan => false
  | CDouble.posInf, _ => false
  | _, CDouble.negInf => false
  | CDouble.fin _, CDouble.posInf => true
  | CDouble.negInf, _ => true

/-- The comparison `a >= b` of C: false when an operand is NaN. -/
def CDouble.ge : CDouble α → CDouble α → Bool
  | CDouble.fin a, CDouble.fin b => decide (a ≥ b)
  | CDouble.nan, _ => false
  | _, CDouble.nan => false
  | CDouble.posInf, _ => true
  | _, CDouble.negInf => true
  | CDouble.fin _, CDouble.posInf => false
  | CDouble.negInf, _ => false

/-- `mylndbern` (useful.c:404) with the logarithms of `math.h` at 0: for `p = 1` and
`x = 0`, or `p = 0` and `x = 1`, the value is `-inf`. -/
def mylndbern_ext (m : CMath α) (x : Int) (p : α) : CDouble α :=
  CDouble.add (CDouble.mul (CDouble.fin (x : α)) (CDouble.log m (CDouble.fin p)))
    (CDouble.mul (CDouble.fin (1 - (x : α))) (CDouble.log m (CDouble.fin (1 - p))))

/-- The ratio `r = exp (p_prop - p_now)` and the test `z < r` of a Metropolis step
(binomial_iCAR.c:511–514 for a coefficient, 532–535 for a visited cell) for log-posteriors
that may be infinite. -/
def metropolisAccept (m : CMath α) (p_now p_prop : CDouble α) (z : α) : Bool :=
  let r := CDouble.exp m (CDouble.sub p_prop p_now)
  CDouble.lt (CDouble.fin z) r

/-! ## Example data -/

/-- A stream of `rand()` values for `RAND_MAX = 2147483647`: every value is
`(RAND_MAX - 1) / 2`, so that each pair of draws of `rnorm1` falls inside the unit disk. -/
def exStream : Nat → Nat := fun _ => 1073741823

/-- Three cells on a ring, two observations (in cells 0 and 1; cell 2 has none), one
covariate, one prediction row, a fixed variance `priorVrho = 1`; a hundred sweeps, of
which the first ten are the burn-in and every fifth of the others records
(NSAMP = 18). -/
def exInputs : Inputs α where
  NGIBBS := 100
  NTHIN := 5
  NBURN := 10
  NOBS := 2
  NCELL := 3
  NP := 1
  NPRED := 1
  Y := fun n => if n = 0 then 1 else 0
  T := fun _ => 1
  X := fun _ _ => 1
  IdCell := fun n => if n = 0 then 0 else 1
  nNeigh := fun _ => 2
  Neigh := fun i l => (i + l + 1) % 3
  X_pred := fun _ _ => 1
  IdCell_pred := fun _ => 2
  beta_start := fun _ => 0
  rho_start := fun _ => 0
  Vrho_start := 1
  mubeta := fun _ => 0
  Vbeta := fun _ => 10
  priorVrho := 1
  shape := 0.5
  rate := 0.0005
  Vrho_max := 10
  save_rho := 0
  save_p := 0

/-- A stream of `rand()` values for `RAND_MAX = 2147483647` on which the left-truncated
gamma sampler returns a value below its threshold: the draws 1 and 2 give
`u = 5/8 + 2^-32` and `v = 1/4 + 2^-32` in `myrgamma1`, the draws 0 and 3 give the
uniform value `2^-32`. -/
def failStream : Nat → Nat := fun k =>
  if k = 1 then 1342177280 else if k = 2 then 536870912 else 0

/-- Five cells on a ring without observation, the uniform prior (`priorVrho = -2`) with
`Vrho_max = 1`, and the spatial effects `(0.1, -0.1, 0, 0, 0)`, of sum zero. -/
def failInputs : Inputs α where
  NGIBBS := 20
  NTHIN := 5
  NBURN := 10
  NOBS := 0
  NCELL := 5
  NP := 1
  NPRED := 0
  Y := fun _ => 0
  T := fun _ => 1
  X := fun _ _ => 1
  IdCell := fun _ => 0
  nNeigh := fun _ => 2
  Neigh := fun i l => if l = 0 then (i + 1) % 5 else (i + 4) % 5
  X_pred := fun _ _ => 1
  IdCell_pred := fun _ => 0
  beta_start := fun _ => 0
  rho_start := fun i => if i = 0 then 0.1 else if i = 1 then -0.1 else 0
  Vrho_start := 1
  mubeta := fun _ => 0
  Vbeta := fun _ => 10
  priorVrho := -2.0
  shape := 0.5
  rate := 0.0005
  Vrho_max := 1
  save_rho := 0
  save_p := 0

/-- The example data with NGIBBS = 103 and NBURN = 98: NTHIN = 5 divides NGIBBS − NBURN
(NSAMP = 1) and does not divide NBURN. -/
def oobInputs : Inputs α :=
  { exInputs with NGIBBS := 103, NBURN := 98 }

/-- The state before the first sweep of `exInputs`, with the coefficient moved to 8. -/
def uphillBeta : State α :=
  { initState exInputs with beta_run := fun _ => 8 }

/-- The state before the first sweep of `exInputs`, with the effect of cell 1 moved to 4. -/
def uphillRho : State α :=
  { initState exInputs with rho_run := fun i => if i = 1 then 4 else 0 }

end Defs

/-! ## Theorems -/

/-! ### The thinning counters -/

/-- On non-negative arguments the recording condition is the one on natural numbers. -/
theorem records_natCast (B T g : Nat) :
    records (B : Int) (T : Int) g = (decide (B < g + 1) && decide ((g + 1) % T = 0)) := by
  unfold records
  have h1 : (((g : Int) + 1) > (B : Int)) ↔ B < g + 1 := by omega
  have h2 : (((g : Int) + 1).tmod (T : Int) = 0) ↔ (g + 1) % T = 0 := by
    rw [Int.tmod_eq_emod (by omega) (by omega)]
    constructor
    · intro h; exact_mod_cast h
    · intro h; exact_mod_cast h
  simp only [h1, h2]

/-- The number of recording sweeps among the first `N`. -/
theorem length_filter_records (B T : Nat) (N : Nat) :
    ((List.range N).filter (fun g => records (B : Int) (T : Int) g)).length
      = N / T - (min N B) / T := by
  induction N with
  | zero => simp
  | succ N ih =>
    rw [List.range_succ, List.filter_append, List.length_append, ih]
    simp only [List.filter_cons, List.filter_nil, records_natCast]
    rw [Nat.succ_div]
    by_cases hB : B < N + 1
    · have hmin1 : min (N + 1) B = B := by omega
      have hmin2 : min N B = B := by omega
      have hle : B / T ≤ N / T := Nat.div_le_div_right (by omega)
      rw [hmin1, hmin2]
      by_cases hd : T ∣ N + 1
      · have : (N + 1) % T = 0 := Nat.mod_eq_zero_of_dvd hd
        simp [hB, hd, this]
        omega
      · have : ¬ (N + 1) % T = 0 := fun h => hd (Nat.dvd_of_mod_eq_zero h)
        simp [hB, hd, this]
    · have hmin1 : min (N + 1) B = N + 1 := by omega
      have hmin2 : min N B = N := by omega
      rw [hmin1, hmin2, Nat.succ_div]
      simp [hB]

/-- The count of recording sweeps, for any admissible thinning configuration. -/
theorem nRecorded_cast (NGIBBS NBURN NTHIN : Int) (hT : 1 ≤ NTHIN) (hB : 0 ≤ NBURN)
    (hBN : NBURN ≤ NGIBBS) (hdvd : NTHIN ∣ NGIBBS - NBURN) :
    (nRecorded NGIBBS NBURN NTHIN : Int) = NSAMP NGIBBS NBURN NTHIN := by
  obtain ⟨k, hk⟩ := hdvd
  have hk0 : 0 ≤ k := by
    by_contra h
    have : NTHIN * k < 0 := Int.mul_neg_of_pos_of_neg (by omega) (by omega)
    omega
  lift NTHIN to Nat using (by omega) with T
  lift NBURN to Nat using hB with B
  lift k to Nat using hk0 with k
  have hN : NGIBBS = ((B + T * k : Nat) : Int) := by push_cast; omega
  subst hN
  have hT' : 0 < T := by omega
  unfold nRecorded NSAMP
  rw [Int.toNat_natCast, length_filter_records, hk, Int.tdiv_eq_ediv (by positivity) (by positivity)]
  have hmin : min (B + T * k) B = B := by simp
  rw [hmin, Nat.add_mul_div_left _ _ hT', Nat.add_sub_cancel_left]
  rw [Int.mul_ediv_cancel_left _ (by omega)]

/-- C2: for NTHIN ≥ 1 and 0 ≤ NBURN ≤ NGIBBS with NTHIN dividing NGIBBS − NBURN, the number
of sweeps `g` of `for (g=0; g<NGIBBS; g++)` at which the recording condition
`(g+1) > NBURN && (g+1) % NTHIN == 0` holds is `NSAMP = (NGIBBS − NBURN) / NTHIN`; for
NGIBBS = 500, NBURN = 100, NTHIN = 5 it is 80. -/
theorem nRecorded_eq_NSAMP (NGIBBS NBURN NTHIN : Int) (hT : 1 ≤ NTHIN) (hB : 0 ≤ NBURN)
    (hBN : NBURN ≤ NGIBBS) (hdvd : NTHIN ∣ NGIBBS - NBURN) :
    (nRecorded NGIBBS NBURN NTHIN : Int) = NSAMP NGIBBS NBURN NTHIN ∧
      nRecorded 500 100 5 = 80 := by
  refine ⟨nRecorded_cast NGIBBS NBURN NTHIN hT hB hBN hdvd, ?_⟩
  have h := nRecorded_cast 500 100 5 (by decide) (by decide) (by decide) (by decide)
  have h2 : NSAMP 500 100 5 = 80 := by decide
  rw [h2] at h
  exact_mod_cast h

/-- C2 at NGIBBS = 20, NBURN = 10, NTHIN = 5: two recording sweeps. -/
theorem nRecorded_eq_NSAMP_witness :
    (1 : Int) ≤ 5 ∧ (0 : Int) ≤ 10 ∧ (10 : Int) ≤ 20 ∧ (5 : Int) ∣ 20 - 10 ∧
      (nRecorded 20 10 5 : Int) = NSAMP 20 10 5 ∧ NSAMP 20 10 5 = 2 ∧
      nRecorded 500 100 5 = 80 :=
  ⟨by decide, by decide, by decide, by decide,
    (nRecorded_eq_NSAMP 20 10 5 (by decide) (by decide) (by decide) (by decide)).1, by decide,
    (nRecorded_eq_NSAMP 20 10 5 (by decide) (by decide) (by decide) (by decide)).2⟩

/-- The recording condition on natural numbers, as a proposition. -/
theorem records_iff (B T g : Nat) :
    records (B : Int) (T : Int) g = true ↔ B < g + 1 ∧ T ∣ g + 1 := by
  rw [records_natCast]
  simp [Nat.dvd_iff_mod_eq_zero]

/-- The sample number of a sweep whose `g+1` is a multiple of NTHIN, when NBURN is one. -/
theorem isamp_of_mul (T b q : Nat) (hT : 0 < T) (g : Nat) (hg : g + 1 = T * q) (hq : b ≤ q) :
    isamp ((T * b : Nat) : Int) (T : Int) g = (q : Int) - b := by
  unfold isamp
  have h : ((g : Int) + 1) - ((T * b : Nat) : Int) = (T : Int) * ((q : Int) - b) := by
    have : ((g : Int) + 1) = ((T * q : Nat) : Int) := by exact_mod_cast hg
    rw [this]; push_cast; ring
  rw [h, Int.tdiv_eq_ediv (by
    have : (0 : Int) ≤ (q : Int) - b := by omega
    positivity) (by positivity), Int.mul_ediv_cancel_left _ (by omega)]

/-- For NTHIN ≥ 1 dividing NBURN ≥ 0 and NGIBBS − NBURN ≥ 0, the position `isamp-1` of a
recording sweep `g < NGIBBS` lies in `[0, NSAMP)`. -/
theorem isamp_in_bounds (NGIBBS NBURN NTHIN : Int) (hB : 0 ≤ NBURN) (hT : 0 < NTHIN)
    (hBN : NBURN ≤ NGIBBS) (hdvd : NTHIN ∣ NGIBBS - NBURN) (hdvdB : NTHIN ∣ NBURN)
    (g : Nat) (hg : (g : Int) < NGIBBS) (hr : records NBURN NTHIN g = true) :
    0 ≤ isamp NBURN NTHIN g - 1 ∧ isamp NBURN NTHIN g - 1 < NSAMP NGIBBS NBURN NTHIN := by
  obtain ⟨k, hk⟩ := hdvd
  obtain ⟨b, hb⟩ := hdvdB
  have hk0 : 0 ≤ k := by
    by_contra h
    have : NTHIN * k < 0 := Int.mul_neg_of_pos_of_neg (by omega) (by omega)
    omega
  have hb0 : 0 ≤ b := by
    by_contra h
    have : NTHIN * b < 0 := Int.mul_neg_of_pos_of_neg (by omega) (by omega)
    omega
  lift NTHIN to Nat using (by omega) with T
  lift k to Nat using hk0 with k
  lift b to Nat using hb0 with b
  have hT' : 0 < T := by omega
  have hBeq : NBURN = ((T * b : Nat) : Int) := by push_cast; exact hb
  subst hBeq
  have hNeq : NGIBBS = ((T * (b + k) : Nat) : Int) := by push_cast; push_cast at hk; linarith
  subst hNeq
  have hNS : NSAMP ((T * (b + k) : Nat) : Int) ((T * b : Nat) : Int) (T : Int) = (k : Int) := by
    unfold NSAMP
    rw [hk, Int.tdiv_eq_ediv (by positivity) (by positivity),
      Int.mul_ediv_cancel_left _ (by omega)]
  rw [hNS]
  rw [records_iff] at hr
  obtain ⟨hlt, q, hq⟩ := hr
  have hbq : b < q := by
    rw [hq] at hlt
    exact Nat.lt_of_mul_lt_mul_left hlt
  have hqk : q ≤ b + k := by
    have hg' : g < T * (b + k) := by exact_mod_cast hg
    have : T * q ≤ T * (b + k) := by omega
    exact Nat.le_of_mul_le_mul_left this hT'
  rw [isamp_of_mul T b q hT' g hq hbq.le]
  omega

/-- C3 (amended): for positive NGIBBS, NBURN, NTHIN with NBURN ≤ NGIBBS, NTHIN dividing
NGIBBS − NBURN and NTHIN dividing NBURN, at every recording sweep the trace position
`isamp-1` lies in [0, NSAMP), and every position of [0, NSAMP) is the position of exactly
one recording sweep. -/
theorem isamp_slots (NGIBBS NBURN NTHIN : Int) (hN : 0 < NGIBBS) (hB : 0 < NBURN)
    (hT : 0 < NTHIN) (hBN : NBURN ≤ NGIBBS) (hdvd : NTHIN ∣ NGIBBS - NBURN)
    (hdvdB : NTHIN ∣ NBURN) :
    (∀ g : Nat, (g : Int) < NGIBBS → records NBURN NTHIN g = true →
        0 ≤ isamp NBURN NTHIN g - 1 ∧ isamp NBURN NTHIN g - 1 < NSAMP NGIBBS NBURN NTHIN) ∧
    (∀ j : Int, 0 ≤ j → j < NSAMP NGIBBS NBURN NTHIN →
        ∃! g : Nat, (g : Int) < NGIBBS ∧ records NBURN NTHIN g = true ∧
          isamp NBURN NTHIN g - 1 = j) := by
  obtain ⟨k, hk⟩ := hdvd
  obtain ⟨b, hb⟩ := hdvdB
  have hk0 : 0 ≤ k := by
    by_contra h
    have : NTHIN * k < 0 := Int.mul_neg_of_pos_of_neg (by omega) (by omega)
    omega
  have hb0 : 0 ≤ b := by
    by_contra h
    have : NTHIN * b < 0 := Int.mul_neg_of_pos_of_neg (by omega) (by omega)
    omega
  lift NTHIN to Nat using (by omega) with T
  lift k to Nat using hk0 with k
  lift b to Nat using hb0 with b
  have hT' : 0 < T := by omega
  have hBeq : NBURN = ((T * b : Nat) : Int) := by push_cast; exact hb
  subst hBeq
  have hNeq : NGIBBS = ((T * (b + k) : Nat) : Int) := by push_cast; push_cast at hk; linarith
  subst hNeq
  have hNS : NSAMP ((T * (b + k) : Nat) : Int) ((T * b : Nat) : Int) (T : Int) = (k : Int) := by
    unfold NSAMP
    rw [hk, Int.tdiv_eq_ediv (by positivity) (by positivity),
      Int.mul_ediv_cancel_left _ (by omega)]
  rw [hNS]
  have key : ∀ g : Nat, (g : Int) < ((T * (b + k) : Nat) : Int) →
      records ((T * b : Nat) : Int) (T : Int) g = true →
      ∃ q : Nat, g + 1 = T * q ∧ b < q ∧ q ≤ b + k := by
    intro g hg hr
    rw [records_iff] at hr
    obtain ⟨hlt, q, hq⟩ := hr
    refine ⟨q, hq, ?_, ?_⟩
    · rw [hq] at hlt
      exact Nat.lt_of_mul_lt_mul_left hlt
    · have hg' : g < T * (b + k) := by exact_mod_cast hg
      have : T * q ≤ T * (b + k) := by omega
      exact Nat.le_of_mul_le_mul_left this hT'
  constructor
  · intro g hg hr
    obtain ⟨q, hq, hbq, hqk⟩ := key g hg hr
    rw [isamp_of_mul T b q hT' g hq hbq.le]
    omega
  · intro j hj0 hjk
    lift j to Nat using hj0 with j
    have hjk' : j < k := by exact_mod_cast hjk
    have hpos : 0 < T * (b + j + 1) := Nat.mul_pos hT' (by omega)
    refine ⟨T * (b + j + 1) - 1, ⟨?_, ?_, ?_⟩, ?_⟩
    · have : T * (b + j + 1) ≤ T * (b + k) := Nat.mul_le_mul_left _ (by omega)
      have h2 : T * (b + j + 1) - 1 < T * (b + k) := by omega
      exact_mod_cast h2
    · rw [records_iff]
      have h1 : T * (b + j + 1) - 1 + 1 = T * (b + j + 1) := by omega
      rw [h1]
      refine ⟨?_, Dvd.intro _ rfl⟩
      exact Nat.mul_lt_mul_of_pos_left (by omega) hT'
    · rw [isamp_of_mul T b (b + j + 1) hT' _ (by omega) (by omega)]
      push_cast; ring
    · rintro g ⟨hg, hr, hi⟩
      obtain ⟨q, hq, hbq, hqk⟩ := key g hg hr
      rw [isamp_of_mul T b q hT' g hq hbq.le] at hi
      have : q = b + j + 1 := by omega
      subst this
      omega

/-- C3 fails as stated: with NGIBBS = 103, NBURN = 98, NTHIN = 5 (NSAMP = 1; `NGIBBS/100`
is 1 and `DIV` is 10, so that no remainder of a sweep is a division by zero) the sweep
g = 99 is the only sweep that records, and its trace position `isamp-1` is −1, outside
[0, NSAMP): the position 0 is written by no sweep. -/
theorem isamp_slot_counterexample :
    (0 : Int) < 103 ∧ (0 : Int) < 98 ∧ (0 : Int) < 5 ∧ (98 : Int) ≤ 103 ∧
      (5 : Int) ∣ 103 - 98 ∧ NSAMP 103 98 5 = 1 ∧
      (103 : Int).tdiv 100 = 1 ∧ DIV 103 = 10 ∧
      ((99 : Nat) : Int) < 103 ∧ records 98 5 99 = true ∧ isamp 98 5 99 - 1 = -1 ∧
      ¬ (0 ≤ isamp 98 5 99 - 1 ∧ isamp 98 5 99 - 1 < NSAMP 103 98 5) ∧
      (∀ g : Nat, (g : Int) < 103 → records 98 5 g = true → g = 99) := by
  refine ⟨by decide, by decide, by decide, by decide, by decide, by decide, by decide,
    by decide, by decide, by decide, by decide, by decide, ?_⟩
  intro g hg hr
  have hr' : records ((98 : Nat) : Int) ((5 : Nat) : Int) g = true := hr
  rw [records_iff] at hr'
  omega

/-- C3 (amended) at NGIBBS = 100, NBURN = 10, NTHIN = 5. -/
theorem isamp_slots_witness :
    (0 : Int) < 100 ∧ (0 : Int) < 10 ∧ (0 : Int) < 5 ∧ (10 : Int) ≤ 100 ∧
      (5 : Int) ∣ 100 - 10 ∧ (5 : Int) ∣ 10 ∧ NSAMP 100 10 5 = 18 ∧
    (∀ g : Nat, (g : Int) < 100 → records 10 5 g = true →
        0 ≤ isamp 10 5 g - 1 ∧ isamp 10 5 g - 1 < NSAMP 100 10 5) ∧
    (∀ j : Int, 0 ≤ j → j < NSAMP 100 10 5 →
        ∃! g : Nat, (g : Int) < 100 ∧ records 10 5 g = true ∧ isamp 10 5 g - 1 = j) :=
  ⟨by decide, by decide, by decide, by decide, by decide, by decide, by decide,
    isamp_slots 100 10 5 (by decide) (by decide) (by decide) (by decide) (by decide)
      (by decide)⟩

/-! ### The adaptation of the proposal scales -/

/-- C4: for every proposal scale sigma > 0 and every window rate Ar = nA/DIV, one burn-in
adaptation gives a scale strictly larger than sigma when Ar > 0.44 and strictly smaller
when Ar < 0.44 (in any ordered field, so in exact real arithmetic; the bounds
0 ≤ Ar ≤ 1 of the claim are assumed and not needed). -/
theorem adaptScale_direction {α : Type} [LinearOrderedField α] (sigmap : α) (nA DIV : Int)
    (hs : 0 < sigmap) (_h0 : (0 : α) ≤ windowRate nA DIV) (_h1 : windowRate nA DIV ≤ (1 : α)) :
    ((windowRate nA DIV : α) > 0.44 → adaptScale sigmap (windowRate nA DIV) > sigmap) ∧
      ((windowRate nA DIV : α) < 0.44 → adaptScale sigmap (windowRate nA DIV) < sigmap) := by
  generalize (windowRate nA DIV : α) = Ar
  have hr : (ropt : α) = 0.44 := rfl
  constructor
  · intro h
    have hge : Ar ≥ (ropt : α) := by rw [hr]; exact h.le
    unfold adaptScale
    rw [if_pos hge, hr]
    have hf : (1 : α) < 2 - (1 - Ar) / (1 - 0.44) := by
      have : (1 - Ar) / (1 - 0.44) < (1 : α) := by
        rw [div_lt_one (by norm_num)]
        linarith
      linarith
    calc sigmap = sigmap * 1 := (mul_one _).symm
      _ < sigmap * (2 - (1 - Ar) / (1 - 0.44)) := mul_lt_mul_of_pos_left hf hs
  · intro h
    have hlt : ¬ Ar ≥ (ropt : α) := by rw [hr]; exact not_le.mpr h
    unfold adaptScale
    rw [if_neg hlt, hr]
    have hf : (1 : α) < 2 - Ar / 0.44 := by
      have : Ar / 0.44 < (1 : α) := by
        rw [div_lt_one (by norm_num)]
        exact h
      linarith
    exact div_lt_self hs hf

/-- C4 at sigma = 1 with 50 acceptances in a window of 100 (the scale grows) and at
sigma = 2 with 25 acceptances in 100 (it shrinks). -/
theorem adaptScale_direction_witness :
    (adaptScale (1 : ℝ) (windowRate 50 100) > 1) ∧
      (adaptScale (2 : ℝ) (windowRate 25 100) < 2) :=
  ⟨(adaptScale_direction (1 : ℝ) 50 100 (by norm_num) (by norm_num [windowRate])
      (by norm_num [windowRate])).1 (by norm_num [windowRate]),
   (adaptScale_direction (2 : ℝ) 25 100 (by norm_num) (by norm_num [windowRate])
      (by norm_num [windowRate])).2 (by norm_num [windowRate])⟩

/-! ### The logit transform -/

/-- C9: for 0 < p < 1, `invlogit (logit p) = p` in exact real arithmetic; the first
conjunct is the round trip, the other two show that both branches of `invlogit` are taken
(`logit p > 0` iff `p > 1/2`). -/
theorem invlogit_logit_roundtrip (m : CMath ℝ) (hm : IsRealMath m) (p : ℝ)
    (hp0 : 0 < p) (hp1 : p < 1) :
    invlogit m (logit m p) = p ∧ (logit m p > 0 ↔ p > 1 / 2) := by
  obtain ⟨hexp, hlog, -, -, -⟩ := hm
  have h1p : 0 < 1 - p := by linarith
  have hlogit : logit m p = Real.log (p / (1 - p)) := by
    simp only [logit, hlog]
    rw [Real.log_div hp0.ne' h1p.ne']
  have hq : 0 < p / (1 - p) := div_pos hp0 h1p
  have hsign : logit m p > 0 ↔ p > 1 / 2 := by
    rw [hlogit, gt_iff_lt, Real.log_pos_iff hq, lt_div_iff₀ h1p]
    constructor <;> intro h <;> linarith
  refine ⟨?_, hsign⟩
  unfold invlogit
  split_ifs with h
  · rw [hlogit, hexp, Real.exp_neg, Real.exp_log hq]
    field_simp
  · rw [hlogit, hexp, Real.exp_log hq]
    field_simp

/-- C9 at p = 3/4 (first branch of `invlogit`) and p = 1/4 (second branch). -/
theorem invlogit_logit_roundtrip_witness :
    ∃ m : CMath ℝ, IsRealMath m ∧
      (invlogit m (logit m (3 / 4)) = 3 / 4 ∧ logit m (3 / 4) > 0) ∧
      (invlogit m (logit m (1 / 4)) = 1 / 4 ∧ ¬ logit m (1 / 4) > 0) := by
  have hm : IsRealMath ⟨Real.exp, Real.log, Real.sqrt, fun x y => x ^ y, fun x => ⌊x⌋,
      2147483647⟩ := ⟨rfl, rfl, rfl, fun _ _ => rfl, fun _ => rfl⟩
  have h1 := invlogit_logit_roundtrip _ hm (3 / 4) (by norm_num) (by norm_num)
  have h2 := invlogit_logit_roundtrip _ hm (1 / 4) (by norm_num) (by norm_num)
  refine ⟨_, hm, ⟨h1.1, h1.2.mpr (by norm_num)⟩, ⟨h2.1, fun h => ?_⟩⟩
  have := h2.2.mp h
  norm_num at this

/-! ### The spatial-effect step -/

/-- An accumulation loop `acc += f i` over `i < n` computes a finite sum. -/
theorem foldl_range_add {α : Type} [LinearOrderedField α] (f : Nat → α) (a : α) (n : Nat) :
    (List.range n).foldl (fun acc i => acc + f i) a = a + ∑ i in Finset.range n, f i := by
  induction n with
  | zero => simp
  | succ n ih =>
    rw [List.range_succ, List.foldl_append, ih, Finset.sum_range_succ]
    simp [add_assoc]

/-- The loop `rho[i] = rho[i] - c` over `i < n` subtracts `c` from the first `n` entries. -/
theorem foldl_range_sub {α : Type} [LinearOrderedField α] (c : α) (r : Nat → α) (n j : Nat) :
    (List.range n).foldl (fun rho i => Function.update rho i (rho i - c)) r j
      = if j < n then r j - c else r j := by
  induction n with
  | zero => simp
  | succ n ih =>
    rw [List.range_succ, List.foldl_append]
    simp only [List.foldl_cons, List.foldl_nil]
    by_cases hj : j = n
    · subst hj
      rw [Function.update_same, ih]
      simp
    · rw [Function.update_noteq hj, ih]
      by_cases hlt : j < n
      · simp [hlt, Nat.lt_succ_of_lt hlt]
      · have : ¬ j < n + 1 := by omega
        simp [hlt, this]

/-- The centred vector: every entry below `NCELL` loses the mean of the first `NCELL`. -/
theorem rhoCenter_rho_run {α : Type} [LinearOrderedField α] (d : Inputs α) (st : State α)
    (j : Nat) :
    (rhoCenter d st).rho_run j =
      if j < d.NCELL then
        st.rho_run j - (∑ i in Finset.range d.NCELL, st.rho_run i) / (d.NCELL : α)
      else st.rho_run j := by
  simp only [rhoCenter]
  rw [foldl_range_sub, foldl_range_add]
  norm_num

/-- The centring loop leaves a vector of sum zero, whatever the vector before. -/
theorem rhoCenter_sum_zero {α : Type} [LinearOrderedField α] (d : Inputs α) (st : State α)
    (hN : 1 ≤ d.NCELL) :
    ∑ i in Finset.range d.NCELL, (rhoCenter d st).rho_run i = 0 := by
  have h : ∀ i ∈ Finset.range d.NCELL, (rhoCenter d st).rho_run i
      = st.rho_run i - (∑ i in Finset.range d.NCELL, st.rho_run i) / (d.NCELL : α) := by
    intro i hi
    rw [rhoCenter_rho_run, if_pos (Finset.mem_range.mp hi)]
  rw [Finset.sum_congr rfl h, Finset.sum_sub_distrib, Finset.sum_const, Finset.card_range,
    nsmul_eq_mul]
  have hne : (d.NCELL : α) ≠ 0 := by
    have : (0 : α) < (d.NCELL : α) := by exact_mod_cast hN
    exact this.ne'
  field_simp

/-- C1: for every NCELL ≥ 1, every state and every stream of draws, the state left by the
spatial-effect step of a sweep (the per-cell updates, then the centring) has a rho vector
of sum zero, hence of mean zero, in exact arithmetic. -/
theorem rhoStep_sum_zero {α : Type} [LinearOrderedField α] (m : CMath α) (rs : Nat → Nat)
    (d : Inputs α) (fuel : Nat) (st st' : State α) (hN : 1 ≤ d.NCELL)
    (h : rhoStep m rs d fuel st = some st') :
    ∑ i in Finset.range d.NCELL, st'.rho_run i = 0 ∧
      (∑ i in Finset.range d.NCELL, st'.rho_run i) / (d.NCELL : α) = 0 := by
  unfold rhoStep at h
  cases hs : rhoSample m rs d fuel st with
  | none => rw [hs] at h; cases h
  | some st1 =>
    rw [hs] at h
    simp only [Option.some.injEq] at h
    subst h
    have := rhoCenter_sum_zero d st1 hN
    exact ⟨this, by rw [this, zero_div]⟩

/-! ### A stream on which every normal draw returns at once -/

/-- On the stream `exStream` every call of `rnorm1` accepts its first pair of draws. -/
theorem rnorm1_exStream {α : Type} [LinearOrderedField α] (m : CMath α)
    (hR : m.RAND_MAX = 2147483647) (k : Nat) :
    ∃ z, rnorm1 m exStream 1 k = some (z, k + 2) := by
  have hs : ¬ ((2.0 * (((1073741823 : Nat) : α) / ((2147483647 : Nat) : α)) - 1) *
      (2.0 * (((1073741823 : Nat) : α) / ((2147483647 : Nat) : α)) - 1) +
      (2.0 * (((1073741823 : Nat) : α) / ((2147483647 : Nat) : α)) - 1) *
      (2.0 * (((1073741823 : Nat) : α) / ((2147483647 : Nat) : α)) - 1) ≥ (1.0 : α)) := by
    norm_num
  simp only [rnorm1, exStream, hR, if_neg hs]
  split_ifs
  · exact ⟨_, rfl⟩
  · exact ⟨_, rfl⟩

/-! ### Loops in the option monad -/

/-- A loop whose body always returns, returns. -/
theorem foldlM_isSome {σ β : Type} (f : σ → β → Option σ)
    (hf : ∀ s x, ∃ s', f s x = some s') (l : List β) (s : σ) :
    ∃ s', l.foldlM f s = some s' := by
  induction l generalizing s with
  | nil => exact ⟨s, rfl⟩
  | cons x l ih =>
    obtain ⟨s1, h1⟩ := hf s x
    obtain ⟨s2, h2⟩ := ih s1
    exact ⟨s2, by simp [List.foldlM_cons, h1, h2]⟩

/-- A loop whose body returns at every element of the list, returns. -/
theorem foldlM_isSome_mem {σ β : Type} (f : σ → β → Option σ) (l : List β)
    (hf : ∀ s x, x ∈ l → ∃ s', f s x = some s') (s : σ) :
    ∃ s', l.foldlM f s = some s' := by
  induction l generalizing s with
  | nil => exact ⟨s, rfl⟩
  | cons x l ih =>
    obtain ⟨s1, h1⟩ := hf s x (List.mem_cons_self _ _)
    obtain ⟨s2, h2⟩ := ih (fun a y hy => hf a y (List.mem_cons_of_mem _ hy)) s1
    exact ⟨s2, by simp [List.foldlM_cons, h1, h2]⟩

/-- A reflexive and transitive relation that every iteration of a loop satisfies holds
between the state before the loop and the state after it. -/
theorem foldlM_rel {σ β : Type} (f : σ → β → Option σ) (R : σ → σ → Prop)
    (hrefl : ∀ s, R s s) (htrans : ∀ a b c, R a b → R b c → R a c)
    (l : List β) (hf : ∀ s x s', x ∈ l → f s x = some s' → R s s') (s s' : σ)
    (h : l.foldlM f s = some s') : R s s' := by
  induction l generalizing s with
  | nil =>
    simp only [List.foldlM_nil, Option.pure_def, Option.some.injEq] at h
    subst h
    exact hrefl s
  | cons x l ih =>
    simp only [List.foldlM_cons, Option.bind_eq_bind, Option.bind_eq_some] at h
    obtain ⟨s1, h1, h2⟩ := h
    exact htrans _ _ _ (hf s x s1 (List.mem_cons_self _ _) h1)
      (ih (fun a y b hy => hf a y b (List.mem_cons_of_mem _ hy)) s1 h2)

/-- The same for a loop without failure. -/
theorem foldl_rel {σ β : Type} (f : σ → β → σ) (R : σ → σ → Prop)
    (hrefl : ∀ s, R s s) (htrans : ∀ a b c, R a b → R b c → R a c)
    (l : List β) (hf : ∀ s x, x ∈ l → R s (f s x)) (s : σ) : R s (l.foldl f s) := by
  induction l generalizing s with
  | nil => exact hrefl s
  | cons x l ih =>
    exact htrans _ _ _ (hf s x (List.mem_cons_self _ _))
      (ih (fun a y hy => hf a y (List.mem_cons_of_mem _ hy)) (f s x))

/-- The sweeps `0, …, n` are the sweeps `0, …, n-1` followed by sweep `n`. -/
theorem sweeps_succ {α : Type} [LinearOrderedField α] (m : CMath α) (rs : Nat → Nat)
    (d : Inputs α) (fuel : Nat) (st : State α) (n : Nat) :
    sweeps m rs d fuel st (n + 1)
      = (sweeps m rs d fuel st n).bind (fun s => sweep m rs d fuel s n) := by
  unfold sweeps
  rw [List.range_succ, List.foldlM_append]
  cases h : List.foldlM (sweep m rs d fuel) st (List.range n) with
  | none => rfl
  | some s => simp [List.foldlM_cons]

/-! ### What each step of a sweep may change -/

/-- A cell that is the cell of no observation has `viscell` 0. -/
theorem viscell_eq_zero {α : Type} [LinearOrderedField α] (d : Inputs α) (i : Nat)
    (h : ∀ n, n < d.NOBS → d.IdCell n ≠ i) : viscell d i = 0 := by
  have key := foldl_rel
    (fun (v : Nat → Int) n => Function.update v (d.IdCell n) (v (d.IdCell n) + 1))
    (fun v v' => v' i = v i) (fun _ => rfl) (fun a b c h1 h2 => h2.trans h1)
    (List.range d.NOBS)
    (fun v n hn => Function.update_noteq (h n (List.mem_range.mp hn)).symm _ _)
    (fun _ => 0)
  exact key

/-- A Metropolis update of a coefficient changes `beta_run`, `nA_beta` and `pos` only. -/
theorem betaUpdate_shape {α : Type} [LinearOrderedField α] (m : CMath α) (rs : Nat → Nat)
    (d : Inputs α) (fuel : Nat) (st st' : State α) (p : Nat)
    (h : betaUpdate m rs d fuel st p = some st') :
    ∃ br na k, st' = { st with beta_run := br, nA_beta := na, pos := k } := by
  unfold betaUpdate at h
  dsimp only at h
  split at h
  · cases h
  · split_ifs at h
    · exact ⟨_, _, _, (Option.some.inj h).symm⟩
    · exact ⟨st.beta_run, st.nA_beta, _, (Option.some.inj h).symm⟩

/-- The loop over the coefficients changes `beta_run`, `nA_beta` and `pos` only. -/
theorem betaStep_shape {α : Type} [LinearOrderedField α] (m : CMath α) (rs : Nat → Nat)
    (d : Inputs α) (fuel : Nat) (st st' : State α)
    (h : betaStep m rs d fuel st = some st') :
    ∃ br na k, st' = { st with beta_run := br, nA_beta := na, pos := k } := by
  refine foldlM_rel (betaUpdate m rs d fuel)
    (fun s s' => ∃ br na k, s' = { s with beta_run := br, nA_beta := na, pos := k })
    (fun s => ⟨s.beta_run, s.nA_beta, s.pos, rfl⟩) ?_ (List.range d.NP)
    (fun s x s' _ hx => betaUpdate_shape m rs d fuel s s' x hx) st st' h
  rintro a b c ⟨br, na, k, rfl⟩ ⟨br', na', k', rfl⟩
  exact ⟨br', na', k', rfl⟩

/-- The update of a cell changes `rho_run`, `nA_rho` and `pos` only, and `nA_rho` only at
visited cells. -/
theorem rhoUpdate_shape {α : Type} [LinearOrderedField α] (m : CMath α) (rs : Nat → Nat)
    (d : Inputs α) (fuel : Nat) (st st' : State α) (i : Nat)
    (h : rhoUpdate m rs d fuel st i = some st') :
    ∃ rr na k, st' = { st with rho_run := rr, nA_rho := na, pos := k } ∧
      ∀ j, ¬ viscell d j > 0 → na j = st.nA_rho j := by
  unfold rhoUpdate at h
  by_cases hv : viscell d i > 0
  · rw [if_pos hv] at h
    dsimp only at h
    split at h
    · cases h
    · split_ifs at h
      · refine ⟨_, _, _, (Option.some.inj h).symm, fun j hj => ?_⟩
        have : j ≠ i := fun e => hj (e ▸ hv)
        exact Function.update_noteq this _ _
      · exact ⟨st.rho_run, st.nA_rho, _, (Option.some.inj h).symm, fun _ _ => rfl⟩
  · rw [if_neg hv] at h
    split at h
    · cases h
    · exact ⟨_, st.nA_rho, _, (Option.some.inj h).symm, fun _ _ => rfl⟩

/-- The loop over the cells changes `rho_run`, `nA_rho` and `pos` only, and `nA_rho` only
at visited cells. -/
theorem rhoSample_shape {α : Type} [LinearOrderedField α] (m : CMath α) (rs : Nat → Nat)
    (d : Inputs α) (fuel : Nat) (st st' : State α)
    (h : rhoSample m rs d fuel st = some st') :
    ∃ rr na k, st' = { st with rho_run := rr, nA_rho := na, pos := k } ∧
      ∀ j, ¬ viscell d j > 0 → na j = st.nA_rho j := by
  refine foldlM_rel (rhoUpdate m rs d fuel)
    (fun s s' => ∃ rr na k, s' = { s with rho_run := rr, nA_rho := na, pos := k } ∧
      ∀ j, ¬ viscell d j > 0 → na j = s.nA_rho j)
    (fun s => ⟨s.rho_run, s.nA_rho, s.pos, rfl, fun _ _ => rfl⟩) ?_ (List.range d.NCELL)
    (fun s x s' _ hx => rhoUpdate_shape m rs d fuel s s' x hx) st st' h
  rintro a b c ⟨rr, na, k, rfl, h1⟩ ⟨rr', na', k', rfl, h2⟩
  exact ⟨rr', na', k', rfl, fun j hj => (h2 j hj).trans (h1 j hj)⟩

/-- The spatial-effect step changes `rho_run`, `nA_rho` and `pos` only, and `nA_rho` only
at visited cells. -/
theorem rhoStep_shape {α : Type} [LinearOrderedField α] (m : CMath α) (rs : Nat → Nat)
    (d : Inputs α) (fuel : Nat) (st st' : State α)
    (h : rhoStep m rs d fuel st = some st') :
    ∃ rr na k, st' = { st with rho_run := rr, nA_rho := na, pos := k } ∧
      ∀ j, ¬ viscell d j > 0 → na j = st.nA_rho j := by
  unfold rhoStep at h
  cases hs : rhoSample m rs d fuel st with
  | none => rw [hs] at h; cases h
  | some st1 =>
    rw [hs] at h
    obtain ⟨rr, na, k, rfl, hna⟩ := rhoSample_shape m rs d fuel st st1 hs
    exact ⟨_, na, k, (Option.some.inj h).symm, hna⟩

/-- The variance step changes `Vrho_run` and `pos` only. -/
theorem vrhoStep_shape {α : Type} [LinearOrderedField α] (m : CMath α) (rs : Nat → Nat)
    (d : Inputs α) (fuel : Nat) (st st' : State α)
    (h : vrhoStep m rs d fuel st = some st') :
    ∃ v k, st' = { st with Vrho_run := v, pos := k } := by
  have hIG : ∀ s s', vrhoInvGamma m rs d fuel s = some s' →
      ∃ v k, s' = { s with Vrho_run := v, pos := k } := by
    intro s s' hs
    unfold vrhoInvGamma at hs
    dsimp only at hs
    split at hs
    · cases hs
    · exact ⟨_, _, (Option.some.inj hs).symm⟩
  have hU : ∀ s s', vrhoUniform m rs d fuel s = some s' →
      ∃ v k, s' = { s with Vrho_run := v, pos := k } := by
    intro s s' hs
    unfold vrhoUniform at hs
    dsimp only at hs
    split at hs
    · cases hs
    · exact ⟨_, _, (Option.some.inj hs).symm⟩
  unfold vrhoStep at h
  split_ifs at h with h0 h1 h2 h2
  · exact ⟨_, st.pos, (Option.some.inj h).symm⟩
  · cases hd : vrhoInvGamma m rs d fuel st with
    | none => simp [hd] at h
    | some s1 =>
      simp only [hd] at h
      obtain ⟨v, k, rfl⟩ := hIG st s1 hd
      obtain ⟨v', k', rfl⟩ := hU _ st' h
      exact ⟨v', k', rfl⟩
  · cases hd : vrhoInvGamma m rs d fuel st with
    | none => simp [hd] at h
    | some s1 =>
      simp only [hd, Option.some.injEq] at h
      subst h
      exact hIG st s1 hd
  · exact hU st st' h
  · exact ⟨st.Vrho_run, st.pos, (Option.some.inj h).symm⟩

/-- The adaptive-sampling step changes the rates, the proposal scales and the acceptance
counters only, and `nA_rho` only at visited cells. -/
theorem adaptStep_shape {α : Type} [LinearOrderedField α] (d : Inputs α) (g : Nat)
    (st st' : State α) (h : adaptStep d g st = some st') :
    ∃ ab sb nb ar sr nr,
      st' = { st with Ar_beta := ab, sigmap_beta := sb, nA_beta := nb,
                      Ar_rho := ar, sigmap_rho := sr, nA_rho := nr } ∧
      ∀ j, ¬ viscell d j > 0 → nr j = st.nA_rho j := by
  let R : State α → State α → Prop := fun s s' =>
    ∃ ab sb nb ar sr nr,
      s' = { s with Ar_beta := ab, sigmap_beta := sb, nA_beta := nb,
                    Ar_rho := ar, sigmap_rho := sr, nA_rho := nr } ∧
      ∀ j, ¬ viscell d j > 0 → nr j = s.nA_rho j
  have hrefl : ∀ s, R s s := fun s => ⟨_, _, _, _, _, _, rfl, fun _ _ => rfl⟩
  have htrans : ∀ a b c, R a b → R b c → R a c := by
    rintro a b c ⟨ab, sb, nb, ar, sr, nr, rfl, h1⟩ ⟨ab', sb', nb', ar', sr', nr', rfl, h2⟩
    exact ⟨ab', sb', nb', ar', sr', nr', rfl, fun j hj => (h2 j hj).trans (h1 j hj)⟩
  have hAB : ∀ s p, R s (adaptBeta d s p) := fun s p =>
    ⟨_, _, _, _, _, _, rfl, fun _ _ => rfl⟩
  have hRB : ∀ s p, R s (rateBeta d s p) := fun s p =>
    ⟨_, _, _, _, _, _, rfl, fun _ _ => rfl⟩
  have hAR : ∀ s i, R s (adaptRho d s i) := by
    intro s i
    unfold adaptRho
    split_ifs with hv
    · refine ⟨_, _, _, _, _, _, rfl, fun j hj => ?_⟩
      have : j ≠ i := fun e => hj (e ▸ hv)
      exact Function.update_noteq this _ _
    · exact hrefl s
  have hRR : ∀ s i, R s (rateRho d s i) := by
    intro s i
    unfold rateRho
    split_ifs with hv
    · refine ⟨_, _, _, _, _, _, rfl, fun j hj => ?_⟩
      have : j ≠ i := fun e => hj (e ▸ hv)
      exact Function.update_noteq this _ _
    · exact hrefl s
  have hA : ∀ s, R s ((List.range d.NCELL).foldl (adaptRho d)
      ((List.range d.NP).foldl (adaptBeta d) s)) := fun s =>
    htrans _ _ _ (foldl_rel _ R hrefl htrans _ (fun a x _ => hAB a x) s)
      (foldl_rel _ R hrefl htrans _ (fun a x _ => hAR a x) _)
  have hB : ∀ s, R s ((List.range d.NCELL).foldl (rateRho d)
      ((List.range d.NP).foldl (rateBeta d) s)) := fun s =>
    htrans _ _ _ (foldl_rel _ R hrefl htrans _ (fun a x _ => hRB a x) s)
      (foldl_rel _ R hrefl htrans _ (fun a x _ => hRR a x) _)
  unfold adaptStep at h
  by_cases h0 : DIV d.NGIBBS = 0
  · rw [if_pos h0] at h
    cases h
  · rw [if_neg h0] at h
    dsimp only at h
    have h' := (Option.some.inj h).symm
    subst h'
    have e1 : R st (if ((g : Int) + 1).tmod (DIV d.NGIBBS) = 0 ∧ (g : Int) + 1 ≤ d.NBURN then
        (List.range d.NCELL).foldl (adaptRho d) ((List.range d.NP).foldl (adaptBeta d) st)
        else st) := by
      split_ifs
      · exact hA st
      · exact hrefl st
    have e2 : ∀ s, R s (if ((g : Int) + 1).tmod (DIV d.NGIBBS) = 0 ∧ (g : Int) + 1 > d.NBURN
        then (List.range d.NCELL).foldl (rateRho d) ((List.range d.NP).foldl (rateBeta d) s)
        else s) := by
      intro s
      split_ifs
      · exact hB s
      · exact hrefl s
    exact htrans _ _ _ e1 (e2 _)

/-- An output step that returns changes the output arrays only. -/
theorem recordStep_shape {α : Type} [LinearOrderedField α] (d : Inputs α) (g : Nat)
    (st st' : State α) (h : recordStep d g st = some st') :
    ∃ bv rv vv dv tl tp,
      st' =
        { st with beta_vect := bv, rho_vect := rv, Vrho_vect := vv, Deviance_vect := dv,
                  theta_latent_vect := tl, theta_pred_vect := tp } := by
  unfold recordStep at h
  by_cases hr : records d.NBURN d.NTHIN g = true
  · rw [if_pos hr] at h
    dsimp only at h
    by_cases hb : isamp d.NBURN d.NTHIN g - 1 < 0 ∨
        NSAMP d.NGIBBS d.NBURN d.NTHIN ≤ isamp d.NBURN d.NTHIN g - 1
    · rw [if_pos hb] at h
      cases h
    · rw [if_neg hb] at h
      exact ⟨_, _, _, _, _, _, (Option.some.inj h).symm⟩
  · rw [if_neg hr] at h
    exact ⟨_, _, _, _, _, _, (Option.some.inj h).symm⟩

/-- The output step returns exactly when the sweep does not record or its position
`isamp-1` lies in `[0, NSAMP)`. -/
theorem recordStep_isSome {α : Type} [LinearOrderedField α] (d : Inputs α) (g : Nat)
    (st : State α) :
    (∃ st', recordStep d g st = some st') ↔
      (records d.NBURN d.NTHIN g = true →
        0 ≤ isamp d.NBURN d.NTHIN g - 1 ∧
          isamp d.NBURN d.NTHIN g - 1 < NSAMP d.NGIBBS d.NBURN d.NTHIN) := by
  unfold recordStep
  by_cases hr : records d.NBURN d.NTHIN g = true
  · rw [if_pos hr]
    dsimp only
    by_cases hb : isamp d.NBURN d.NTHIN g - 1 < 0 ∨
        NSAMP d.NGIBBS d.NBURN d.NTHIN ≤ isamp d.NBURN d.NTHIN g - 1
    · rw [if_pos hb]
      constructor
      · rintro ⟨st', h⟩
        cases h
      · intro h
        have := h hr
        omega
    · rw [if_neg hb]
      exact ⟨fun _ _ => by omega, fun _ => ⟨_, rfl⟩⟩
  · rw [if_neg hr]
    exact ⟨fun _ h => absurd h hr, fun _ => ⟨_, rfl⟩⟩

/-- A sweep that returns is the composition of its steps. -/
theorem sweep_steps {α : Type} [LinearOrderedField α] (m : CMath α) (rs : Nat → Nat)
    (d : Inputs α) (fuel : Nat) (st st' : State α) (g : Nat)
    (h : sweep m rs d fuel st g = some st') :
    ∃ st1 st2 st3 st4, betaStep m rs d fuel st = some st1 ∧
      rhoStep m rs d fuel st1 = some st2 ∧ vrhoStep m rs d fuel st2 = some st3 ∧
      recordStep d g (predStep m d (devianceStep m d st3)) = some st4 ∧
      adaptStep d g st4 = some st' ∧ d.NGIBBS.tdiv 100 ≠ 0 := by
  unfold sweep at h
  split at h
  · cases h
  · rename_i st1 h1
    split at h
    · cases h
    · rename_i st2 h2
      split at h
      · cases h
      · rename_i st3 h3
        split at h
        · cases h
        · rename_i st4 h4
          split at h
          · cases h
          · rename_i st5 h5
            unfold progressBar at h
            split_ifs at h with hP
            have e : st5 = st' := Option.some.inj h
            subst e
            exact ⟨st1, st2, st3, st4, h1, h2, h3, h4, h5, hP⟩

/-- A sweep changes the acceptance counter of no cell that is not visited. -/
theorem sweep_nA_rho {α : Type} [LinearOrderedField α] (m : CMath α) (rs : Nat → Nat)
    (d : Inputs α) (fuel : Nat) (st st' : State α) (g : Nat) (i : Nat)
    (hv : ¬ viscell d i > 0) (h : sweep m rs d fuel st g = some st') :
    st'.nA_rho i = st.nA_rho i := by
  obtain ⟨st1, st2, st3, st4, h1, h2, h3, hr4, h4, -⟩ := sweep_steps m rs d fuel st st' g h
  obtain ⟨br, na, k, rfl⟩ := betaStep_shape m rs d fuel st st1 h1
  obtain ⟨rr, na2, k2, rfl, hna2⟩ := rhoStep_shape m rs d fuel _ st2 h2
  obtain ⟨v, k3, rfl⟩ := vrhoStep_shape m rs d fuel _ st3 h3
  obtain ⟨bv, rv, vv, dv, tl, tp, rfl⟩ := recordStep_shape d g _ st4 hr4
  obtain ⟨ab, sb, nb, ar, sr, nr, rfl, hnr⟩ := adaptStep_shape d g _ st' h4
  exact (hnr i hv).trans (hna2 i hv)

/-! ### Runs that return: the stream `exStream` and a fixed variance -/

/-- On `exStream` every normal draw returns. -/
theorem myrnorm_exStream {α : Type} [LinearOrderedField α] (m : CMath α)
    (hR : m.RAND_MAX = 2147483647) (mean sd : α) (k : Nat) :
    ∃ x, myrnorm m exStream mean sd 1 k = some (x, k + 2) := by
  obtain ⟨z, hz⟩ := rnorm1_exStream m hR k
  exact ⟨mean + z * sd, by simp [myrnorm, hz]⟩

/-- On `exStream` the update of a coefficient returns. -/
theorem betaUpdate_exStream {α : Type} [LinearOrderedField α] (m : CMath α)
    (hR : m.RAND_MAX = 2147483647) (d : Inputs α) (st : State α) (p : Nat) :
    ∃ st', betaUpdate m exStream d 1 st p = some st' := by
  obtain ⟨x, hx⟩ := myrnorm_exStream m hR (st.beta_run p) (st.sigmap_beta p) st.pos
  unfold betaUpdate
  dsimp only
  rw [hx]
  dsimp only
  split_ifs
  · exact ⟨_, rfl⟩
  · exact ⟨_, rfl⟩

/-- On `exStream` the update of a cell returns. -/
theorem rhoUpdate_exStream {α : Type} [LinearOrderedField α] (m : CMath α)
    (hR : m.RAND_MAX = 2147483647) (d : Inputs α) (st : State α) (i : Nat) :
    ∃ st', rhoUpdate m exStream d 1 st i = some st' := by
  unfold rhoUpdate
  split_ifs
  · obtain ⟨x, hx⟩ := myrnorm_exStream m hR (st.rho_run i) (st.sigmap_rho i) st.pos
    dsimp only
    rw [hx]
    dsimp only
    split_ifs
    · exact ⟨_, rfl⟩
    · exact ⟨_, rfl⟩
  · obtain ⟨x, hx⟩ := myrnorm_exStream m hR (sumNeighbors d st i / (d.nNeigh i : α))
      (m.sqrt (st.Vrho_run / (d.nNeigh i : α))) st.pos
    unfold rhodens_unvisited
    dsimp only
    rw [hx]
    exact ⟨_, rfl⟩

/-- On `exStream`, with a fixed variance, a window `DIV` and a quotient `NGIBBS/100` that
are not 0, a sweep that does not record, or records at a position in `[0, NSAMP)`,
returns. -/
theorem sweep_exStream {α : Type} [LinearOrderedField α] (m : CMath α)
    (hR : m.RAND_MAX = 2147483647) (d : Inputs α) (hp : d.priorVrho > 0.0)
    (hD : DIV d.NGIBBS ≠ 0) (hP : d.NGIBBS.tdiv 100 ≠ 0) (st : State α) (g : Nat)
    (hIB : records d.NBURN d.NTHIN g = true →
      0 ≤ isamp d.NBURN d.NTHIN g - 1 ∧
        isamp d.NBURN d.NTHIN g - 1 < NSAMP d.NGIBBS d.NBURN d.NTHIN) :
    ∃ st', sweep m exStream d 1 st g = some st' := by
  obtain ⟨st1, h1⟩ := foldlM_isSome (betaUpdate m exStream d 1)
    (fun s x => betaUpdate_exStream m hR d s x) (List.range d.NP) st
  obtain ⟨st2, h2⟩ := foldlM_isSome (rhoUpdate m exStream d 1)
    (fun s x => rhoUpdate_exStream m hR d s x) (List.range d.NCELL) st1
  have h1' : betaStep m exStream d 1 st = some st1 := h1
  have h2' : rhoStep m exStream d 1 st1 = some (rhoCenter d st2) := by
    unfold rhoStep rhoSample
    rw [h2]
  have h3 : vrhoStep m exStream d 1 (rhoCenter d st2)
      = some { rhoCenter d st2 with Vrho_run := d.priorVrho } := by
    unfold vrhoStep
    rw [if_pos hp]
  obtain ⟨st4, h4⟩ := (recordStep_isSome d g
    (predStep m d (devianceStep m d { rhoCenter d st2 with Vrho_run := d.priorVrho }))).mpr hIB
  have h5 : ∃ st5, adaptStep d g st4 = some st5 := by
    unfold adaptStep
    rw [if_neg hD]
    exact ⟨_, rfl⟩
  obtain ⟨st5, h5⟩ := h5
  unfold sweep
  simp only [h1', h2', h3, h4, h5]
  unfold progressBar
  rw [if_neg hP]
  exact ⟨_, rfl⟩

/-- On `exStream`, with a fixed variance, a window `DIV` and a quotient `NGIBBS/100` that
are not 0, the sweeps `0, …, n-1` return when each of them that records has its position
in `[0, NSAMP)`. -/
theorem sweeps_exStream {α : Type} [LinearOrderedField α] (m : CMath α)
    (hR : m.RAND_MAX = 2147483647) (d : Inputs α) (hp : d.priorVrho > 0.0)
    (hD : DIV d.NGIBBS ≠ 0) (hP : d.NGIBBS.tdiv 100 ≠ 0) (st : State α) (n : Nat)
    (hIB : ∀ g, g < n → records d.NBURN d.NTHIN g = true →
      0 ≤ isamp d.NBURN d.NTHIN g - 1 ∧
        isamp d.NBURN d.NTHIN g - 1 < NSAMP d.NGIBBS d.NBURN d.NTHIN) :
    ∃ st', sweeps m exStream d 1 st n = some st' :=
  foldlM_isSome_mem (sweep m exStream d 1) (List.range n)
    (fun s g hg => sweep_exStream m hR d hp hD hP s g (hIB g (List.mem_range.mp hg))) st

/-- On the example data every recording sweep of the run has its position in
`[0, NSAMP)`. -/
theorem exInputs_in_bounds {α : Type} [LinearOrderedField α] (g : Nat) (hg : g < 100)
    (hr : records (exInputs : Inputs α).NBURN (exInputs : Inputs α).NTHIN g = true) :
    0 ≤ isamp (exInputs : Inputs α).NBURN (exInputs : Inputs α).NTHIN g - 1 ∧
      isamp (exInputs : Inputs α).NBURN (exInputs : Inputs α).NTHIN g - 1
        < NSAMP (exInputs : Inputs α).NGIBBS (exInputs : Inputs α).NBURN
            (exInputs : Inputs α).NTHIN :=
  isamp_in_bounds 100 10 5 (by decide) (by decide) (by decide) (by decide) (by decide) g
    (by exact_mod_cast hg) hr

/-- On the example data with the stream `exStream` every sweep of the run returns. -/
theorem sweep_exInputs {α : Type} [LinearOrderedField α] (m : CMath α)
    (hR : m.RAND_MAX = 2147483647) (st : State α) (g : Nat) (hg : g < 100) :
    ∃ st', sweep m exStream exInputs 1 st g = some st' :=
  sweep_exStream m hR exInputs (by norm_num [exInputs]) (show DIV 100 ≠ 0 by decide)
    (show (100 : Int).tdiv 100 ≠ 0 by decide) st g (exInputs_in_bounds g hg)

/-- On the example data with the stream `exStream` the first `n ≤ 100` sweeps return. -/
theorem sweeps_exInputs {α : Type} [LinearOrderedField α] (m : CMath α)
    (hR : m.RAND_MAX = 2147483647) (st : State α) (n : Nat) (hn : n ≤ 100) :
    ∃ st', sweeps m exStream exInputs 1 st n = some st' :=
  sweeps_exStream m hR exInputs (by norm_num [exInputs]) (show DIV 100 ≠ 0 by decide)
    (show (100 : Int).tdiv 100 ≠ 0 by decide) st n
    (fun g hg => exInputs_in_bounds g (by omega))

/-! ### Cells without observation -/

/-- C7: for a cell `i` that is the cell of no observation (all `IdCell` values in
[0, NCELL), none equal to `i`), every update of `rho_run[i]` is the direct draw
`meanNeighbors + z * sqrt (Vrho_run / nNeigh[i])`, `z` the standard normal draw of `rnorm1`:
it changes `rho_run[i]` and the position in the stream only and makes no accept/reject
test (no uniform draw is read); and after any number of sweeps from the initial state
`nA_rho[i]` is 0. -/
theorem unvisited_cell_direct_draw {α : Type} [LinearOrderedField α] (m : CMath α)
    (rs : Nat → Nat) (d : Inputs α) (fuel : Nat) (i : Nat) (_hi : i < d.NCELL)
    (_hrange : ∀ n, n < d.NOBS → d.IdCell n < d.NCELL)
    (hno : ∀ n, n < d.NOBS → d.IdCell n ≠ i) :
    (∀ st : State α, rhoUpdate m rs d fuel st i =
      (rnorm1 m rs fuel st.pos).map (fun zk =>
        { st with rho_run := Function.update st.rho_run i
                    (sumNeighbors d st i / (d.nNeigh i : α)
                      + zk.1 * m.sqrt (st.Vrho_run / (d.nNeigh i : α))),
                  pos := zk.2 })) ∧
    (∀ (n : Nat) (st' : State α),
      sweeps m rs d fuel (initState d) n = some st' → st'.nA_rho i = 0) := by
  have hv : ¬ viscell d i > 0 := by
    rw [viscell_eq_zero d i hno]
    exact lt_irrefl 0
  constructor
  · intro st
    unfold rhoUpdate
    rw [if_neg hv]
    unfold rhodens_unvisited myrnorm
    dsimp only
    cases rnorm1 m rs fuel st.pos with
    | none => rfl
    | some zk => rfl
  · intro n st' h
    have key := foldlM_rel (sweep m rs d fuel) (fun s s' => s'.nA_rho i = s.nA_rho i)
      (fun _ => rfl) (fun a b c h1 h2 => h2.trans h1) (List.range n)
      (fun s g s' _ hs => sweep_nA_rho m rs d fuel s s' g i hv hs) (initState d) st' h
    exact key

/-- C7 on the example data (`NGIBBS = 100`), whose cell 2 has no observation: the hundred
sweeps of the run return and leave `nA_rho[2] = 0`. -/
theorem unvisited_cell_direct_draw_witness :
    ∃ (m : CMath ℝ) (st' : State ℝ), IsRealMath m ∧
      sweeps m exStream exInputs 1 (initState exInputs) 100 = some st' ∧
      st'.nA_rho 2 = 0 := by
  have hm : IsRealMath ⟨Real.exp, Real.log, Real.sqrt, fun x y => x ^ y, fun x => ⌊x⌋,
      2147483647⟩ := ⟨rfl, rfl, rfl, fun _ _ => rfl, fun _ => rfl⟩
  obtain ⟨st', hst'⟩ := sweeps_exInputs
    (⟨Real.exp, Real.log, Real.sqrt, fun x y => x ^ y, fun x => ⌊x⌋, 2147483647⟩ : CMath ℝ)
    rfl (initState exInputs) 100 (le_refl 100)
  refine ⟨_, st', hm, hst', ?_⟩
  have hno : ∀ n, n < (exInputs : Inputs ℝ).NOBS → (exInputs : Inputs ℝ).IdCell n ≠ 2 := by
    intro n _
    simp only [exInputs]
    split_ifs <;> decide
  have hrange : ∀ n, n < (exInputs : Inputs ℝ).NOBS →
      (exInputs : Inputs ℝ).IdCell n < (exInputs : Inputs ℝ).NCELL := by
    intro n _
    simp only [exInputs]
    split_ifs <;> decide
  exact (unvisited_cell_direct_draw _ exStream exInputs 1 2 (by simp [exInputs]) hrange
    hno).2 100 st' hst'

/-- C1 on the example data: the spatial-effect step returns from the initial state and
leaves a rho vector of sum zero. -/
theorem rhoStep_sum_zero_witness :
    ∃ (m : CMath ℝ) (st' : State ℝ), IsRealMath m ∧ 1 ≤ (exInputs : Inputs ℝ).NCELL ∧
      rhoStep m exStream exInputs 1 (initState exInputs) = some st' ∧
      ∑ i in Finset.range (exInputs : Inputs ℝ).NCELL, st'.rho_run i = 0 := by
  have hm : IsRealMath ⟨Real.exp, Real.log, Real.sqrt, fun x y => x ^ y, fun x => ⌊x⌋,
      2147483647⟩ := ⟨rfl, rfl, rfl, fun _ _ => rfl, fun _ => rfl⟩
  obtain ⟨st2, h2⟩ := foldlM_isSome
    (rhoUpdate (⟨Real.exp, Real.log, Real.sqrt, fun x y => x ^ y, fun x => ⌊x⌋,
      2147483647⟩ : CMath ℝ) exStream exInputs 1)
    (fun s x => rhoUpdate_exStream _ rfl exInputs s x)
    (List.range (exInputs : Inputs ℝ).NCELL) (initState exInputs)
  have h : rhoStep (⟨Real.exp, Real.log, Real.sqrt, fun x y => x ^ y, fun x => ⌊x⌋,
      2147483647⟩ : CMath ℝ) exStream exInputs 1 (initState exInputs)
      = some (rhoCenter exInputs st2) := by
    unfold rhoStep rhoSample
    rw [h2]
  have hN : 1 ≤ (exInputs : Inputs ℝ).NCELL := by simp [exInputs]
  exact ⟨_, _, hm, hN, h, (rhoStep_sum_zero _ exStream exInputs 1 _ _ hN h).1⟩

/-! ### The variance step with a fixed value -/

/-- The entry of the Vrho trace written by an output step that returns. -/
theorem recordStep_Vrho_vect {α : Type} [LinearOrderedField α] (d : Inputs α) (g : Nat)
    (st st' : State α) (h : recordStep d g st = some st') :
    st'.Vrho_vect =
      if records d.NBURN d.NTHIN g = true then
        Function.update st.Vrho_vect (isamp d.NBURN d.NTHIN g - 1) st.Vrho_run
      else st.Vrho_vect := by
  unfold recordStep at h
  by_cases hr : records d.NBURN d.NTHIN g = true
  · rw [if_pos hr] at h
    dsimp only at h
    by_cases hb : isamp d.NBURN d.NTHIN g - 1 < 0 ∨
        NSAMP d.NGIBBS d.NBURN d.NTHIN ≤ isamp d.NBURN d.NTHIN g - 1
    · rw [if_pos hb] at h
      cases h
    · rw [if_neg hb] at h
      have e := (Option.some.inj h).symm
      subst e
      rw [if_pos hr]
  · rw [if_neg hr] at h
    have e := (Option.some.inj h).symm
    subst e
    rw [if_neg hr]

/-- A sweep that returns and records has its position `isamp-1` in `[0, NSAMP)`. -/
theorem sweep_in_bounds {α : Type} [LinearOrderedField α] (m : CMath α) (rs : Nat → Nat)
    (d : Inputs α) (fuel : Nat) (st st' : State α) (g : Nat)
    (h : sweep m rs d fuel st g = some st') (hr : records d.NBURN d.NTHIN g = true) :
    0 ≤ isamp d.NBURN d.NTHIN g - 1 ∧
      isamp d.NBURN d.NTHIN g - 1 < NSAMP d.NGIBBS d.NBURN d.NTHIN := by
  obtain ⟨st1, st2, st3, st4, -, -, -, hr4, -, -⟩ := sweep_steps m rs d fuel st st' g h
  exact (recordStep_isSome d g _).mp ⟨st4, hr4⟩ hr

/-- The sweeps `0, …, n-1` return only if the sweeps `0, …, g` do, for `g < n`. -/
theorem sweeps_prefix {α : Type} [LinearOrderedField α] (m : CMath α) (rs : Nat → Nat)
    (d : Inputs α) (fuel : Nat) (st0 st' : State α) (n : Nat)
    (h : sweeps m rs d fuel st0 n = some st') (g : Nat) (hg : g < n) :
    ∃ s s1, sweeps m rs d fuel st0 g = some s ∧ sweep m rs d fuel s g = some s1 := by
  induction n generalizing st' with
  | zero => omega
  | succ n ih =>
    rw [sweeps_succ] at h
    cases hs : sweeps m rs d fuel st0 n with
    | none => rw [hs] at h; cases h
    | some s =>
      rw [hs] at h
      rcases Nat.lt_succ_iff_lt_or_eq.mp hg with h' | h'
      · exact ih s hs h'
      · subst h'
        exact ⟨s, st', hs, h⟩

/-- With a fixed variance the variance step draws nothing and stores `priorVrho`. -/
theorem vrhoStep_fixed {α : Type} [LinearOrderedField α] (m : CMath α) (rs : Nat → Nat)
    (d : Inputs α) (fuel : Nat) (hp : d.priorVrho > 0) (st : State α) :
    vrhoStep m rs d fuel st = some { st with Vrho_run := d.priorVrho } := by
  have hp' : d.priorVrho > 0.0 := by
    have : (0.0 : α) = 0 := by norm_num
    rw [this]; exact hp
  unfold vrhoStep
  rw [if_pos hp']

/-- With a fixed variance, what a sweep leaves in `Vrho_run` and in the Vrho trace. -/
theorem sweep_fixed_Vrho {α : Type} [LinearOrderedField α] (m : CMath α) (rs : Nat → Nat)
    (d : Inputs α) (fuel : Nat) (hp : d.priorVrho > 0) (st st' : State α) (g : Nat)
    (h : sweep m rs d fuel st g = some st') :
    st'.Vrho_run = d.priorVrho ∧
      st'.Vrho_vect =
        if records d.NBURN d.NTHIN g = true then
          Function.update st.Vrho_vect (isamp d.NBURN d.NTHIN g - 1) d.priorVrho
        else st.Vrho_vect := by
  obtain ⟨st1, st2, st3, st4, h1, h2, h3, hr4, h4, -⟩ := sweep_steps m rs d fuel st st' g h
  obtain ⟨br, na, k, rfl⟩ := betaStep_shape m rs d fuel st st1 h1
  obtain ⟨rr, na2, k2, rfl, -⟩ := rhoStep_shape m rs d fuel _ st2 h2
  rw [vrhoStep_fixed m rs d fuel hp] at h3
  have h3' := (Option.some.inj h3).symm
  subst h3'
  obtain ⟨ab, sb, nb, ar, sr, nr, rfl, -⟩ := adaptStep_shape d g _ st' h4
  have hvv := recordStep_Vrho_vect d g _ st4 hr4
  obtain ⟨bv, rv, vv, dv, tl, tp, hrec⟩ := recordStep_shape d g _ st4 hr4
  constructor
  · show st4.Vrho_run = d.priorVrho
    rw [hrec]
    rfl
  · show st4.Vrho_vect = _
    rw [hvv]
    rfl

/-- C10: when `priorVrho > 0`, the variance step of every sweep sets `Vrho_run` to
`priorVrho` (it reads no draw and always returns), `Vrho_run` is `priorVrho` at the end of
every sweep, and after any number of sweeps from any state (any `Vrho_start`) every
recording sweep `g` has written inside the Vrho trace (`0 ≤ isamp-1 < NSAMP`) and the
entry it has written equals `priorVrho`. -/
theorem fixed_Vrho_trace {α : Type} [LinearOrderedField α] (m : CMath α) (rs : Nat → Nat)
    (d : Inputs α) (fuel : Nat) (hp : d.priorVrho > 0) :
    (∀ st : State α, vrhoStep m rs d fuel st = some { st with Vrho_run := d.priorVrho }) ∧
    (∀ (st st' : State α) (g : Nat), sweep m rs d fuel st g = some st' →
      st'.Vrho_run = d.priorVrho) ∧
    (∀ (st0 st' : State α) (n : Nat), sweeps m rs d fuel st0 n = some st' →
      ∀ g, g < n → records d.NBURN d.NTHIN g = true →
        (0 ≤ isamp d.NBURN d.NTHIN g - 1 ∧
          isamp d.NBURN d.NTHIN g - 1 < NSAMP d.NGIBBS d.NBURN d.NTHIN) ∧
        st'.Vrho_vect (isamp d.NBURN d.NTHIN g - 1) = d.priorVrho) := by
  refine ⟨vrhoStep_fixed m rs d fuel hp, fun st st' g h =>
    (sweep_fixed_Vrho m rs d fuel hp st st' g h).1, ?_⟩
  intro st0 st' n hrun g hg hr
  refine ⟨?_, ?_⟩
  · obtain ⟨s, s1, -, hs1⟩ := sweeps_prefix m rs d fuel st0 st' n hrun g hg
    exact sweep_in_bounds m rs d fuel s s1 g hs1 hr
  revert hr hg g hrun
  induction n generalizing st' with
  | zero => intro _ g hg; omega
  | succ n ih =>
    intro h g hg hr
    rw [sweeps_succ] at h
    cases hs : sweeps m rs d fuel st0 n with
    | none => rw [hs] at h; cases h
    | some s =>
      rw [hs] at h
      have hsw : sweep m rs d fuel s n = some st' := h
      have hv := (sweep_fixed_Vrho m rs d fuel hp s st' n hsw).2
      rw [hv]
      by_cases hrn : records d.NBURN d.NTHIN n = true
      · rw [if_pos hrn]
        by_cases he : isamp d.NBURN d.NTHIN g - 1 = isamp d.NBURN d.NTHIN n - 1
        · rw [he, Function.update_same]
        · rw [Function.update_noteq he]
          have hgn : g < n := by
            rcases Nat.lt_succ_iff_lt_or_eq.mp hg with h' | h'
            · exact h'
            · exact absurd (h' ▸ rfl) he
          exact ih s hs g hgn hr
      · rw [if_neg hrn]
        have hgn : g < n := by
          rcases Nat.lt_succ_iff_lt_or_eq.mp hg with h' | h'
          · exact h'
          · exact absurd (h' ▸ hr) hrn
        exact ih s hs g hgn hr

/-- C10 on the example data (`priorVrho = 1`, `Vrho_start = 1`, NGIBBS = 100, NBURN = 10,
NTHIN = 5, so NSAMP = 18): the run returns, and the first and the last entry of the Vrho
trace, written by the sweeps 14 and 99, are 1. -/
theorem fixed_Vrho_trace_witness :
    ∃ (m : CMath ℝ) (st' : State ℝ), IsRealMath m ∧ (exInputs : Inputs ℝ).priorVrho > 0 ∧
      gibbs m exStream exInputs 1 = some st' ∧
      NSAMP 100 10 5 = 18 ∧ isamp 10 5 14 - 1 = 0 ∧ isamp 10 5 99 - 1 = 17 ∧
      st'.Vrho_vect 0 = 1 ∧ st'.Vrho_vect 17 = 1 := by
  have hm : IsRealMath ⟨Real.exp, Real.log, Real.sqrt, fun x y => x ^ y, fun x => ⌊x⌋,
      2147483647⟩ := ⟨rfl, rfl, rfl, fun _ _ => rfl, fun _ => rfl⟩
  have hp : (exInputs : Inputs ℝ).priorVrho > 0 := by norm_num [exInputs]
  obtain ⟨st', hst'⟩ := sweeps_exInputs
    (⟨Real.exp, Real.log, Real.sqrt, fun x y => x ^ y, fun x => ⌊x⌋, 2147483647⟩ : CMath ℝ)
    rfl (initState exInputs) 100 (le_refl 100)
  have key := (fixed_Vrho_trace _ exStream exInputs 1 hp).2.2 (initState exInputs) st' 100 hst'
  have e14 : isamp 10 5 14 - 1 = 0 := by decide
  have e99 : isamp 10 5 99 - 1 = 17 := by decide
  refine ⟨_, st', hm, hp, hst', by decide, e14, e99, ?_, ?_⟩
  · have := (key 14 (by norm_num) (by decide)).2
    simpa [exInputs, e14] using this
  · have := (key 99 (by norm_num) (by decide)).2
    simpa [exInputs, e99] using this

/-! ### The deviance -/

/-- The inverse logit of a real number lies strictly between 0 and 1. -/
theorem invlogit_mem {m : CMath ℝ} (hm : IsRealMath m) (x : ℝ) :
    0 < invlogit m x ∧ invlogit m x < 1 := by
  obtain ⟨hexp, -, -, -, -⟩ := hm
  unfold invlogit
  rw [hexp]
  split_ifs
  · have h := Real.exp_pos (-x)
    constructor
    · positivity
    · rw [div_lt_one (by positivity)]
      linarith
  · have h := Real.exp_pos x
    constructor
    · positivity
    · rw [div_lt_one (by positivity)]
      linarith

/-- The Bernoulli log-density of an outcome 0 or 1 at a probability strictly between 0 and
1 is negative. -/
theorem mylndbern_neg {m : CMath ℝ} (hm : IsRealMath m) (x : Int) (p : ℝ)
    (hx : x = 0 ∨ x = 1) (hp0 : 0 < p) (hp1 : p < 1) : mylndbern m x p < 0 := by
  obtain ⟨-, hlog, -, -, -⟩ := hm
  unfold mylndbern
  rw [hlog]
  rcases hx with rfl | rfl
  · have := Real.log_neg (by linarith : (0 : ℝ) < 1 - p) (by linarith)
    simpa using this
  · have := Real.log_neg hp0 hp1
    simpa using this

/-- The accumulator of a loop that adds `f n` to a sum and stores into an array. -/
theorem foldl_pair_fst {α β : Type} [LinearOrderedField α] (f : Nat → α)
    (F : β → Nat → β) (a : α) (b : β) (n : Nat) :
    ((List.range n).foldl (fun (acc : α × β) i => (acc.1 + f i, F acc.2 i)) (a, b)).1
      = a + ∑ i in Finset.range n, f i := by
  induction n with
  | zero => simp
  | succ n ih =>
    rw [List.range_succ, List.foldl_append, Finset.sum_range_succ]
    simp only [List.foldl_cons, List.foldl_nil]
    rw [ih]
    ring

/-- The linear predictor is the sum of the products. -/
theorem Xpart_eq_sum {α : Type} [LinearOrderedField α] (NP : Nat) (x beta : Nat → α) :
    Xpart NP x beta = ∑ p in Finset.range NP, x p * beta p := by
  unfold Xpart
  rw [foldl_range_add]
  norm_num

/-- The deviance stored by the deviance step. -/
theorem devianceStep_Deviance_run {α : Type} [LinearOrderedField α] (m : CMath α)
    (d : Inputs α) (st : State α) :
    (devianceStep m d st).Deviance_run =
      -2 * ∑ n in Finset.range d.NOBS, mylndbern m (d.Y n)
        (invlogit m ((∑ p in Finset.range d.NP, d.X n p * st.beta_run p)
          + st.rho_run (d.IdCell n))) := by
  unfold devianceStep
  dsimp only
  rw [foldl_pair_fst (fun n => mylndbern m (d.Y n)
    (invlogit m (Xpart d.NP (d.X n) st.beta_run + st.rho_run (d.IdCell n))))
    (fun tr n => Function.update tr n
      (invlogit m (Xpart d.NP (d.X n) st.beta_run + st.rho_run (d.IdCell n))))]
  simp only [Xpart_eq_sum]
  norm_num

/-- C8: for NOBS ≥ 1 and all `Y[n]` in {0, 1}, the deviance left by a sweep is
`-2 * Σ_n [Y[n] * log θ_n + (1 - Y[n]) * log (1 - θ_n)]` with
`θ_n = invlogit (Σ_p X[n][p] * beta[p] + rho[IdCell[n]])`, where `beta` and `rho` are the
vectors left by the sweep, which are those left by its coefficient step and by its
spatial-effect step (the centred rho); and it is strictly positive, in exact real
arithmetic. -/
theorem sweep_deviance (m : CMath ℝ) (hm : IsRealMath m) (rs : Nat → Nat) (d : Inputs ℝ)
    (fuel : Nat) (st st' : State ℝ) (g : Nat) (hN : 1 ≤ d.NOBS)
    (hY : ∀ n, n < d.NOBS → d.Y n = 0 ∨ d.Y n = 1)
    (h : sweep m rs d fuel st g = some st') :
    (st'.Deviance_run =
      -2 * ∑ n in Finset.range d.NOBS,
        ((d.Y n : ℝ) * Real.log (invlogit m
            ((∑ p in Finset.range d.NP, d.X n p * st'.beta_run p) + st'.rho_run (d.IdCell n)))
          + (1 - (d.Y n : ℝ)) * Real.log (1 - invlogit m
            ((∑ p in Finset.range d.NP, d.X n p * st'.beta_run p)
              + st'.rho_run (d.IdCell n))))) ∧
    0 < st'.Deviance_run ∧
    (∃ st1 st2, betaStep m rs d fuel st = some st1 ∧ rhoStep m rs d fuel st1 = some st2 ∧
      st'.beta_run = st1.beta_run ∧ st'.rho_run = st2.rho_run) := by
  obtain ⟨st1, st2, st3, st4, h1, h2, h3, hr4, h4, -⟩ := sweep_steps m rs d fuel st st' g h
  obtain ⟨br, na, k, e1⟩ := betaStep_shape m rs d fuel st st1 h1
  obtain ⟨rr, na2, k2, e2, -⟩ := rhoStep_shape m rs d fuel _ st2 h2
  obtain ⟨v, k3, e3⟩ := vrhoStep_shape m rs d fuel _ st3 h3
  obtain ⟨bv, rv, vv, dv, tl, tp, rfl⟩ := recordStep_shape d g _ st4 hr4
  obtain ⟨ab, sb, nb, ar, sr, nr, e4, -⟩ := adaptStep_shape d g _ st' h4
  have hdev : st'.Deviance_run = (devianceStep m d st3).Deviance_run := by rw [e4]; rfl
  have hbeta3 : st'.beta_run = st3.beta_run := by rw [e4]; rfl
  have hrho3 : st'.rho_run = st3.rho_run := by rw [e4]; rfl
  have hbeta : st3.beta_run = st1.beta_run := by rw [e3, e2]
  have hrho : st3.rho_run = st2.rho_run := by rw [e3]
  have hform := devianceStep_Deviance_run m d st3
  rw [← hbeta3, ← hrho3, ← hdev] at hform
  have hlog : m.log = Real.log := hm.2.1
  refine ⟨?_, ?_, st1, st2, h1, h2, hbeta3.trans hbeta, hrho3.trans hrho⟩
  · rw [hform]
    simp only [mylndbern, hlog]
  · rw [hform]
    have hneg : ∑ n in Finset.range d.NOBS, mylndbern m (d.Y n)
        (invlogit m ((∑ p in Finset.range d.NP, d.X n p * st'.beta_run p)
          + st'.rho_run (d.IdCell n))) < 0 := by
      apply Finset.sum_neg'
      · intro n hn
        exact (mylndbern_neg hm _ _ (hY n (Finset.mem_range.mp hn)) (invlogit_mem hm _).1
          (invlogit_mem hm _).2).le
      · exact ⟨0, Finset.mem_range.mpr hN,
          mylndbern_neg hm _ _ (hY 0 hN) (invlogit_mem hm _).1 (invlogit_mem hm _).2⟩
    linarith

/-- C8 on the example data (`NGIBBS = 100`, two observations, `Y = (1, 0)`): the first
sweep returns and its deviance is positive. -/
theorem sweep_deviance_witness :
    ∃ (m : CMath ℝ) (st' : State ℝ), IsRealMath m ∧
      sweep m exStream exInputs 1 (initState exInputs) 0 = some st' ∧
      0 < st'.Deviance_run := by
  have hm : IsRealMath ⟨Real.exp, Real.log, Real.sqrt, fun x y => x ^ y, fun x => ⌊x⌋,
      2147483647⟩ := ⟨rfl, rfl, rfl, fun _ _ => rfl, fun _ => rfl⟩
  obtain ⟨st', hst'⟩ := sweep_exInputs
    (⟨Real.exp, Real.log, Real.sqrt, fun x y => x ^ y, fun x => ⌊x⌋, 2147483647⟩ : CMath ℝ)
    rfl (initState exInputs) 0 (by decide)
  have hY : ∀ n, n < (exInputs : Inputs ℝ).NOBS →
      (exInputs : Inputs ℝ).Y n = 0 ∨ (exInputs : Inputs ℝ).Y n = 1 := by
    intro n _
    simp only [exInputs]
    split_ifs
    · exact Or.inr rfl
    · exact Or.inl rfl
  exact ⟨_, st', hm, hst', (sweep_deviance _ hm exStream exInputs 1 _ st' 0
    (by simp [exInputs]) hY hst').2.1⟩

/-! ### The left-truncated gamma sampler below its threshold -/

/-- The uniform values read from `failStream`. -/
theorem myrunif_failStream (m : CMath ℝ) (hR : m.RAND_MAX = 2147483647) :
    (myrunif m failStream 0).1 = 1 / 2 ^ 32 ∧ (myrunif m failStream 1).1 = 5 / 8 + 1 / 2 ^ 32 ∧
      (myrunif m failStream 2).1 = 1 / 4 + 1 / 2 ^ 32 ∧
      (myrunif m failStream 3).1 = 1 / 2 ^ 32 := by
  simp only [myrunif, failStream, hR]
  norm_num

/-- On `failStream` from position 1, `myrgamma1 (1.0)` accepts its first candidate, a value
between 0 and 2/5. -/
theorem myrgamma1_failStream (m : CMath ℝ) (hm : IsRealMath m)
    (hR : m.RAND_MAX = 2147483647) :
    ∃ y, myrgamma1 m failStream 1 1 1 = some (y, 3) ∧ 0 < y ∧ y < 2 / 5 := by
  obtain ⟨-, -, hsqrt, hpow, -⟩ := hm
  obtain ⟨-, hu, hv, -⟩ := myrunif_failStream m hR
  have hS0 : 0 < Real.sqrt ((3 * 1 - 0.75) / ((5 / 8 + 1 / 2 ^ 32) * (1 - (5 / 8 + 1 / 2 ^ 32)))) :=
    Real.sqrt_pos.mpr (by norm_num)
  have hS1 : Real.sqrt ((3 * 1 - 0.75) / ((5 / 8 + 1 / 2 ^ 32) * (1 - (5 / 8 + 1 / 2 ^ 32))))
      ≤ 3.1 := by
    rw [Real.sqrt_le_iff]
    constructor <;> norm_num
  have h3 : ∀ x : ℝ, x ^ (3 : ℝ) = x ^ (3 : ℕ) := fun x => by
    exact_mod_cast Real.rpow_natCast x 3
  unfold myrgamma1
  simp only [hu, hv, hsqrt, hpow, Real.rpow_two, h3]
  generalize Real.sqrt ((3 * 1 - 0.75) / ((5 / 8 + 1 / 2 ^ 32) * (1 - (5 / 8 + 1 / 2 ^ 32))))
    = S at hS0 hS1 ⊢
  have hy : 1 - 1 + S * (5 / 8 + 1 / 2 ^ 32 - 0.5) = S * (1 / 8 + 1 / 2 ^ 32) := by ring
  have hy0 : 0 < S * (1 / 8 + 1 / 2 ^ 32) := mul_pos hS0 (by norm_num)
  have hy1 : S * (1 / 8 + 1 / 2 ^ 32) < 2 / 5 := by
    have : S * (1 / 8 + 1 / 2 ^ 32) ≤ 3.1 * (1 / 8 + 1 / 2 ^ 32) :=
      mul_le_mul_of_nonneg_right hS1 (by norm_num)
    have h2 : (3.1 : ℝ) * (1 / 8 + 1 / 2 ^ 32) < 2 / 5 := by norm_num
    linarith
  have hq : 2 * (S * (5 / 8 + 1 / 2 ^ 32 - 0.5)) ^ 2 / (1 - 1 + S * (5 / 8 + 1 / 2 ^ 32 - 0.5))
      = 2 * (S * (1 / 8 + 1 / 2 ^ 32)) := by
    rw [hy]
    have e : S * (5 / 8 + 1 / 2 ^ 32 - 0.5) = S * (1 / 8 + 1 / 2 ^ 32) := by ring
    rw [e]
    field_simp
    ring
  rw [hq, hy]
  have hz : (64 : ℝ) * (1 / 4 + 1 / 2 ^ 32) ^ 2 * ((5 / 8 + 1 / 2 ^ 32) * (1 - (5 / 8 + 1 / 2 ^ 32))) ^ 3
      ≤ 1 / 5 := by norm_num
  have c2 : (64 : ℝ) * (1 / 4 + 1 / 2 ^ 32) ^ 2 *
      ((5 / 8 + 1 / 2 ^ 32) * (1 - (5 / 8 + 1 / 2 ^ 32))) ^ 3
      ≤ 1 - 2 * (S * (1 / 8 + 1 / 2 ^ 32)) := by linarith
  rw [if_pos (show S * (1 / 8 + 1 / 2 ^ 32) > 0 from hy0), if_pos c2]
  exact ⟨_, rfl, hy0, hy1⟩

/-- On `failStream`, `integer (1.0, b)` returns `y / b + 1` for a `y` between 0 and 2/5,
whatever the rate `b`. -/
theorem integer_failStream (m : CMath ℝ) (hm : IsRealMath m)
    (hR : m.RAND_MAX = 2147483647) (b : ℝ) :
    ∃ y, integer m failStream 1 b 1 0 = some (y / b + 1, 3) ∧ 0 < y ∧ y < 2 / 5 := by
  obtain ⟨y, hy, hy0, hy1⟩ := myrgamma1_failStream m hm hR
  obtain ⟨hu, -, -, -⟩ := myrunif_failStream m hR
  have hfl : m.floor 1 = 1 := by rw [hm.2.2.2.2]; exact Int.floor_one
  have hn : (cInt m (1 : ℝ)).toNat = 1 := by
    unfold cInt
    rw [if_pos zero_le_one, hfl]
    rfl
  have hs : integer_search (integer_wlc (1 : ℝ) b 1) 1 (1 / 2 ^ 32) 1 1 = some 1 := by
    unfold integer_search
    have h1 : ¬ ((1 : ℝ) / 2 ^ 32 > integer_wlc (1 : ℝ) b 1 1) := by
      simp only [integer_wlc, integer_wlc0]
      norm_num
    rw [if_neg (lt_irrefl 1), if_neg h1]
  refine ⟨y, ?_, hy0, hy1⟩
  unfold integer
  simp only [hn, hu, hs, lt_irrefl, if_false, Nat.cast_one, zero_add, hy]
  norm_num

/-- On `failStream`, for the shape 3/2 and a rate `B` between 1/1000 and 1/20 (third regime
of `inter_le`, with `B + floor a - a < 0`), `inter_le` returns after one iteration a value
strictly between 0 and 1. -/
theorem inter_le_failStream (m : CMath ℝ) (hm : IsRealMath m)
    (hR : m.RAND_MAX = 2147483647) (a B : ℝ) (ha : a = 3 / 2) (hB0 : 1 / 1000 ≤ B)
    (hB1 : B ≤ 1 / 20) :
    ∃ x, inter_le m failStream a B 1 1 0 = some (x, 4) ∧ 0 < x ∧ x < 1 := by
  subst ha
  obtain ⟨y, hy, hy0, hy1⟩ := integer_failStream m hm hR (B + 1 - 3 / 2)
  obtain ⟨-, -, -, hu3⟩ := myrunif_failStream m hR
  obtain ⟨hexp, -, -, hpow, hfloor⟩ := hm
  have hfl : m.floor (3 / 2 : ℝ) = 1 := by
    rw [hfloor, Int.floor_eq_iff]
    norm_num
  have hb : B + 1 - 3 / 2 < 0 := by linarith
  have hx0 : 1 / 9 < y / (B + 1 - 3 / 2) + 1 := by
    have : y / (B + 1 - 3 / 2) > -(8 / 9) := by
      rw [gt_iff_lt, lt_div_iff_of_neg hb]
      nlinarith
    linarith
  have hx1 : y / (B + 1 - 3 / 2) + 1 < 1 := by
    have : y / (B + 1 - 3 / 2) < 0 := div_neg_of_pos_of_neg hy0 hb
    linarith
  refine ⟨y / (B + 1 - 3 / 2) + 1, ?_, by linarith, hx1⟩
  generalize y / (B + 1 - 3 / 2) + 1 = x at hy hx0 hx1
  have hxpos : 0 < x := by linarith
  have hsx : 1 / 3 ≤ x ^ ((3 / 2 : ℝ) - 1) := by
    have e : ((3 / 2 : ℝ) - 1) = 1 / 2 := by norm_num
    rw [e, ← Real.sqrt_eq_rpow, Real.le_sqrt (by norm_num)]
    · nlinarith
    · exact hxpos.le
  have hex : Real.exp (-(1 / 2)) ≤ Real.exp (-x * (-1 + 3 / 2)) := by
    apply Real.exp_le_exp.mpr
    nlinarith
  have hM : ((3 / 2 : ℝ) / B) ^ ((3 / 2 : ℝ) - 1) ≤ 39 := by
    have e : ((3 / 2 : ℝ) - 1) = 1 / 2 := by norm_num
    rw [e, ← Real.sqrt_eq_rpow, Real.sqrt_le_iff]
    refine ⟨by norm_num, ?_⟩
    rw [div_le_iff₀ (by linarith)]
    nlinarith
  have hM0 : 0 < ((3 / 2 : ℝ) / B) ^ ((3 / 2 : ℝ) - 1) :=
    Real.rpow_pos_of_pos (div_pos (by norm_num) (by linarith)) _
  have hE := Real.exp_pos (-(1 / 2))
  have hacc : (1 : ℝ) / 2 ^ 32 <
      x ^ ((3 / 2 : ℝ) - 1) * Real.exp (-x * (-1 + 3 / 2)) /
        (Real.exp (1 - 3 / 2) * ((3 / 2 : ℝ) / B) ^ ((3 / 2 : ℝ) - 1)) := by
    have e1 : (1 : ℝ) - 3 / 2 = -(1 / 2) := by norm_num
    rw [e1, lt_div_iff₀ (mul_pos hE hM0)]
    have h1 : (1 : ℝ) / 2 ^ 32 * (Real.exp (-(1 / 2)) * ((3 / 2 : ℝ) / B) ^ ((3 / 2 : ℝ) - 1))
        ≤ 1 / 2 ^ 32 * (Real.exp (-(1 / 2)) * 39) := by
      apply mul_le_mul_of_nonneg_left _ (by norm_num)
      exact mul_le_mul_of_nonneg_left hM hE.le
    have h2 : (1 : ℝ) / 3 * Real.exp (-(1 / 2))
        ≤ x ^ ((3 / 2 : ℝ) - 1) * Real.exp (-x * (-1 + 3 / 2)) :=
      mul_le_mul hsx hex hE.le (by linarith)
    have h3 : (1 : ℝ) / 2 ^ 32 * (Real.exp (-(1 / 2)) * 39) < 1 / 3 * Real.exp (-(1 / 2)) := by
      have : (1 : ℝ) / 2 ^ 32 * 39 < 1 / 3 := by norm_num
      nlinarith
    linarith
  unfold inter_le
  have c1 : ¬ ((3 / 2 : ℝ) < 1.0) := by norm_num
  have c2 : ¬ ((3 / 2 : ℝ) < B) := by linarith
  rw [if_neg c1, if_neg c2]
  simp only [hfl, Int.cast_one, hy, hu3, hexp, hpow]
  rw [if_pos hacc]

/-- C5 fails on the code: for the shape a = 3/2, the rate b = 1/100 and the threshold
t = 1 (third regime, `b * t < a - floor a`), on the stream `failStream` with
`RAND_MAX = 2147483647`, `myrtgamma_left` returns after four draws a value strictly
between 0 and t. -/
theorem myrtgamma_left_below_threshold :
    ∃ (m : CMath ℝ) (v : ℝ), IsRealMath m ∧ m.RAND_MAX = 2147483647 ∧
      (∀ k, failStream k ≤ m.RAND_MAX) ∧ (3 / 2 : ℝ) ≥ max 1 (1 / 100 * 1) ∧
      myrtgamma_left m failStream (3 / 2) (1 / 100) 1 1 0 = some (v, 4) ∧ 0 < v ∧ v < 1 := by
  have hm : IsRealMath ⟨Real.exp, Real.log, Real.sqrt, fun x y => x ^ y, fun x => ⌊x⌋,
      2147483647⟩ := ⟨rfl, rfl, rfl, fun _ _ => rfl, fun _ => rfl⟩
  obtain ⟨x, hx, hx0, hx1⟩ := inter_le_failStream _ hm rfl (3 / 2) (1 / 100 * 1) rfl
    (by norm_num) (by norm_num)
  refine ⟨_, x * 1, hm, rfl, ?_, by norm_num, ?_, by linarith, by linarith⟩
  · intro k
    unfold failStream
    split_ifs <;> norm_num
  · unfold myrtgamma_left
    rw [hx]

/-- The quadratic form of the variance step on `failInputs`. -/
theorem vrhoSum_failInputs : vrhoSum (failInputs : Inputs ℝ) (initState failInputs) = 3 / 50 := by
  simp [vrhoSum, failInputs, initState, List.range_succ]
  norm_num

/-- C6 fails on the code: under the uniform prior with `Vrho_max = 1`, five cells
(`Shape = 3/2`) and `Sum = 3/50 > 0`, on the stream `failStream` the variance step returns
and assigns to `Vrho_run` a value strictly greater than `Vrho_max`. -/
theorem vrhoStep_above_Vrho_max :
    ∃ (m : CMath ℝ) (st' : State ℝ), IsRealMath m ∧ m.RAND_MAX = 2147483647 ∧
      (failInputs : Inputs ℝ).priorVrho = -2 ∧ (failInputs : Inputs ℝ).Vrho_max = 1 ∧
      (failInputs : Inputs ℝ).NCELL = 5 ∧
      0 < vrhoSum (failInputs : Inputs ℝ) (initState failInputs) ∧
      vrhoStep m failStream failInputs 1 (initState failInputs) = some st' ∧
      st'.Vrho_run > (failInputs : Inputs ℝ).Vrho_max := by
  have hm : IsRealMath ⟨Real.exp, Real.log, Real.sqrt, fun x y => x ^ y, fun x => ⌊x⌋,
      2147483647⟩ := ⟨rfl, rfl, rfl, fun _ _ => rfl, fun _ => rfl⟩
  obtain ⟨x, hx, hx0, hx1⟩ := inter_le_failStream _ hm rfl
    (0.5 * (((failInputs : Inputs ℝ).NCELL : ℕ) : ℝ) - 1)
    (0.5 * vrhoSum (failInputs : Inputs ℝ) (initState failInputs)
      * (1 / (failInputs : Inputs ℝ).Vrho_max))
    (by norm_num [failInputs]) (by rw [vrhoSum_failInputs]; norm_num [failInputs])
    (by rw [vrhoSum_failInputs]; norm_num [failInputs])
  have hstep : vrhoStep ⟨Real.exp, Real.log, Real.sqrt, fun x y => x ^ y, fun x => ⌊x⌋,
      2147483647⟩ failStream failInputs 1 (initState failInputs)
      = some { (initState failInputs : State ℝ) with
                 Vrho_run := 1 / (x * (1 / (failInputs : Inputs ℝ).Vrho_max)), pos := 4 } := by
    have hp0 : ¬ ((failInputs : Inputs ℝ).priorVrho > 0.0) := by norm_num [failInputs]
    have hp1 : ¬ ((failInputs : Inputs ℝ).priorVrho = -1.0) := by norm_num [failInputs]
    have hp2 : (failInputs : Inputs ℝ).priorVrho = -2.0 := by norm_num [failInputs]
    unfold vrhoStep
    rw [if_neg hp0, if_neg hp1]
    dsimp only
    rw [if_pos hp2]
    unfold vrhoUniform myrtgamma_left
    dsimp only
    have hpos : (initState (failInputs : Inputs ℝ)).pos = 0 := rfl
    rw [hpos, hx]
  refine ⟨_, _, hm, rfl, by norm_num [failInputs], rfl, rfl, ?_, hstep, ?_⟩
  · rw [vrhoSum_failInputs]; norm_num
  · show 1 / (x * (1 / (failInputs : Inputs ℝ).Vrho_max)) > (failInputs : Inputs ℝ).Vrho_max
    have : (failInputs : Inputs ℝ).Vrho_max = 1 := rfl
    rw [this, gt_iff_lt, lt_div_iff₀ (by positivity)]
    linarith

/-! ### Where the left-truncated gamma sampler does respect its threshold -/

/-- Every value returned by `myrgamma1` is strictly positive. -/
theorem myrgamma1_pos {α : Type} [LinearOrderedField α] (m : CMath α) (rs : Nat → Nat)
    (alpha : α) (fuel k : Nat) (x : α) (k' : Nat)
    (h : myrgamma1 m rs alpha fuel k = some (x, k')) : 0 < x := by
  induction fuel generalizing k with
  | zero => simp [myrgamma1] at h
  | succ fuel ih =>
    unfold myrgamma1 at h
    dsimp only at h
    split_ifs at h with h1 h2 h3
    · simp only [Option.some.injEq, Prod.mk.injEq] at h
      rw [← h.1]; exact h1
    · simp only [Option.some.injEq, Prod.mk.injEq] at h
      rw [← h.1]; exact h1
    · exact ih _ h
    · exact ih _ h

/-- With a positive rate, every value returned by `integer` is strictly greater than 1. -/
theorem integer_gt_one {α : Type} [LinearOrderedField α] (m : CMath α) (rs : Nat → Nat)
    (a b : α) (hb : 0 < b) (fuel k : Nat) (x : α) (k' : Nat)
    (h : integer m rs a b fuel k = some (x, k')) : 1 < x := by
  unfold integer at h
  dsimp only at h
  split_ifs at h
  split at h
  · cases h
  · split at h
    · cases h
    · rename_i i _ g k2 hg
      simp only [Option.some.injEq, Prod.mk.injEq] at h
      have hg0 := myrgamma1_pos m rs _ _ _ _ _ hg
      have : 0 < g / b := div_pos hg0 hb
      rw [← h.1]
      have e : (1.0 : α) = 1 := by norm_num
      rw [e]
      linarith

/-- The uniform values lie strictly between 0 and 1 when `rand()` stays below
`RAND_MAX`. -/
theorem myrunif_mem {α : Type} [LinearOrderedField α] (m : CMath α) (rs : Nat → Nat)
    (hrs : ∀ k, rs k ≤ m.RAND_MAX) (k : Nat) :
    0 < (myrunif m rs k).1 ∧ (myrunif m rs k).1 < 1 := by
  have h1 : ((rs k : Nat) : α) ≤ (m.RAND_MAX : α) := by exact_mod_cast hrs k
  have h0 : (0 : α) ≤ ((rs k : Nat) : α) := Nat.cast_nonneg _
  have hden : (0 : α) < (m.RAND_MAX : α) + 1.0 := by
    have : (0 : α) ≤ (m.RAND_MAX : α) := Nat.cast_nonneg _
    norm_num
    linarith
  unfold myrunif
  dsimp only
  constructor
  · apply div_pos _ hden
    norm_num
    linarith
  · rw [div_lt_one hden]
    norm_num
    linarith

/-- In the first two regimes of `inter_le` (`a < 1`; `1 ≤ a < b`), and in the third
(`a ≥ max 1 b`) when `a - floor a < b`, every value returned by `inter_le (a, b)` with
`b > 0` is at least 1. -/
theorem inter_le_ge_one (m : CMath ℝ) (hm : IsRealMath m) (rs : Nat → Nat)
    (hrs : ∀ k, rs k ≤ m.RAND_MAX) (a b : ℝ) (hb : 0 < b)
    (hreg : a < 1 ∨ a < b ∨ a - ⌊a⌋ < b) (gfuel fuel k : Nat) (x : ℝ) (k' : Nat)
    (h : inter_le m rs a b gfuel fuel k = some (x, k')) : 1 ≤ x := by
  obtain ⟨-, hlog, -, -, hfloor⟩ := hm
  have e1 : (1.0 : ℝ) = 1 := by norm_num
  induction fuel generalizing k with
  | zero => simp [inter_le] at h
  | succ fuel ih =>
    unfold inter_le at h
    rw [e1] at h
    by_cases c1 : a < 1
    · rw [if_pos c1] at h
      dsimp only at h
      split_ifs at h
      · simp only [Option.some.injEq, Prod.mk.injEq] at h
        rw [← h.1, hlog]
        obtain ⟨hu0, hu1⟩ := myrunif_mem m rs hrs k
        have hl : Real.log (1 - (myrunif m rs k).1) < 0 :=
          Real.log_neg (by linarith) (by linarith)
        have : 1 / b * Real.log (1 - (myrunif m rs k).1) < 0 :=
          mul_neg_of_pos_of_neg (by positivity) hl
        linarith
      · exact ih _ h
    · rw [if_neg c1] at h
      have ha1 : 1 ≤ a := not_lt.mp c1
      have hfl : (1 : ℝ) ≤ (⌊a⌋ : ℝ) := by
        have : (1 : ℤ) ≤ ⌊a⌋ := Int.le_floor.mpr (by simpa using ha1)
        exact_mod_cast this
      by_cases c2 : a < b
      · rw [if_pos c2] at h
        dsimp only at h
        split at h
        · cases h
        · rename_i x1 k1 hi
          rw [hfloor] at hi
          have hrate : 0 < b * (⌊a⌋ : ℝ) / a := by positivity
          have hx1 := integer_gt_one m rs _ _ hrate _ _ _ _ hi
          split_ifs at h
          · simp only [Option.some.injEq, Prod.mk.injEq] at h
            rw [← h.1]; exact hx1.le
          · exact ih _ h
      · rw [if_neg c2] at h
        dsimp only at h
        have hfrac : a - ⌊a⌋ < b := by
          rcases hreg with h' | h' | h'
          · exact absurd h' c1
          · exact absurd h' c2
          · exact h'
        split at h
        · cases h
        · rename_i x1 k1 hi
          rw [hfloor] at hi
          have hrate : 0 < b + (⌊a⌋ : ℝ) - a := by linarith
          have hx1 := integer_gt_one m rs _ _ hrate _ _ _ _ hi
          split_ifs at h
          · simp only [Option.some.injEq, Prod.mk.injEq] at h
            rw [← h.1]; exact hx1.le
          · exact ih _ h

/-- For a > 0, b > 0, t > 0, in the first two regimes and in the third when
`a - floor a < b * t`, every value returned by `myrtgamma_left (a, b, t)` is at least
`t`. -/
theorem myrtgamma_left_ge (m : CMath ℝ) (hm : IsRealMath m) (rs : Nat → Nat)
    (hrs : ∀ k, rs k ≤ m.RAND_MAX) (a b t : ℝ) (_ha : 0 < a) (hb : 0 < b) (ht : 0 < t)
    (hreg : a < 1 ∨ a < b * t ∨ a - ⌊a⌋ < b * t) (fuel k : Nat) (v : ℝ) (k' : Nat)
    (h : myrtgamma_left m rs a b t fuel k = some (v, k')) : t ≤ v := by
  unfold myrtgamma_left at h
  split at h
  · cases h
  · rename_i x k1 hx
    simp only [Option.some.injEq, Prod.mk.injEq] at h
    have := inter_le_ge_one m hm rs hrs a (b * t) (mul_pos hb ht) hreg _ _ _ _ _ hx
    rw [← h.1]
    nlinarith

/-! ### The window of the adaptive step -/

/-- C14 (amended): for every NGIBBS ≥ 10 the window `DIV` is at least 1, so the test
`(g+1) % DIV` is defined at every sweep and the adaptive step returns; and for positive
NGIBBS, `DIV ≥ 1` holds only if NGIBBS ≥ 10: for positive NGIBBS below 10, `DIV` is 0. -/
theorem DIV_pos {α : Type} [LinearOrderedField α] (d : Inputs α) (h : 10 ≤ d.NGIBBS) :
    1 ≤ DIV d.NGIBBS ∧ (∀ (g : Nat) (st : State α), ∃ st', adaptStep d g st = some st') ∧
      (∀ N : Int, 0 < N → 1 ≤ DIV N → 10 ≤ N) ∧
      (∀ N : Int, 0 < N → N < 10 → DIV N = 0) := by
  have h1 : 1 ≤ DIV d.NGIBBS := by
    unfold DIV
    split_ifs
    · decide
    · rw [Int.tdiv_eq_ediv (by omega) (by decide)]
      omega
  refine ⟨h1, fun g st => ?_, fun N hN hD => ?_, fun N hN hlt => ?_⟩
  · unfold adaptStep
    rw [if_neg (by omega)]
    exact ⟨_, rfl⟩
  · unfold DIV at hD
    split_ifs at hD with hk
    · omega
    · rw [Int.tdiv_eq_ediv (by omega) (by decide)] at hD
      omega
  · unfold DIV
    rw [if_neg (by omega), Int.tdiv_eq_ediv (by omega) (by decide)]
    omega

/-- C14 (amended) on the example data, NGIBBS = 100: `DIV = 10`. -/
theorem DIV_pos_witness :
    (10 : Int) ≤ (exInputs : Inputs ℚ).NGIBBS ∧ DIV (exInputs : Inputs ℚ).NGIBBS = 10 ∧
      1 ≤ DIV (exInputs : Inputs ℚ).NGIBBS :=
  ⟨by decide, by decide, (DIV_pos (exInputs : Inputs ℚ) (by decide)).1⟩

/-- C14 fails as stated: for the positive NGIBBS = 5 the window `DIV` is 0, and the
adaptive step of the first sweep divides by zero. -/
theorem DIV_zero_counterexample :
    (0 : Int) < 5 ∧ DIV 5 = 0 ∧ ¬ (1 ≤ DIV 5) ∧
      adaptStep { (exInputs : Inputs ℚ) with NGIBBS := 5 } 0
        (initState { (exInputs : Inputs ℚ) with NGIBBS := 5 }) = none := by
  refine ⟨by decide, by decide, by decide, ?_⟩
  unfold adaptStep
  rw [if_pos (by decide)]

/-! ### The uniform draw -/

/-- C15: for a value `r = rs k` of `rand()` with 0 ≤ r ≤ RAND_MAX, `myrunif` returns
`(r + 0.5) / (RAND_MAX + 1)`, strictly between 0 and 1, and reads one draw. -/
theorem myrunif_open_interval {α : Type} [LinearOrderedField α] (m : CMath α)
    (rs : Nat → Nat) (k : Nat) (h : rs k ≤ m.RAND_MAX) :
    (myrunif m rs k).1 = ((rs k : α) + 1 / 2) / ((m.RAND_MAX : α) + 1) ∧
      0 < (myrunif m rs k).1 ∧ (myrunif m rs k).1 < 1 ∧ (myrunif m rs k).2 = k + 1 := by
  have h1 : ((rs k : Nat) : α) ≤ (m.RAND_MAX : α) := by exact_mod_cast h
  have h0 : (0 : α) ≤ ((rs k : Nat) : α) := Nat.cast_nonneg _
  have hden : (0 : α) < (m.RAND_MAX : α) + 1 := by
    have : (0 : α) ≤ (m.RAND_MAX : α) := Nat.cast_nonneg _
    linarith
  have e : (myrunif m rs k).1 = ((rs k : α) + 1 / 2) / ((m.RAND_MAX : α) + 1) := by
    unfold myrunif
    norm_num
  refine ⟨e, ?_, ?_, rfl⟩
  · rw [e]
    apply div_pos _ hden
    linarith
  · rw [e, div_lt_one hden]
    linarith

/-- C15 over the rationals at the two ends of the range of `rand()`, for
`RAND_MAX = 32767` (the only field of `CMath` that `myrunif` reads): r = 0 gives 1/65536
and r = RAND_MAX gives 65535/65536. -/
theorem myrunif_open_interval_witness :
    (myrunif (⟨id, id, id, fun x _ => x, fun _ => 0, 32767⟩ : CMath ℚ) (fun _ => 0) 0).1
        = 1 / 65536 ∧
      (myrunif (⟨id, id, id, fun x _ => x, fun _ => 0, 32767⟩ : CMath ℚ) (fun _ => 32767) 0).1
        = 65535 / 65536 := by
  have h0 := myrunif_open_interval (⟨id, id, id, fun x _ => x, fun _ => 0, 32767⟩ : CMath ℚ)
    (fun _ => 0) 0 (by decide)
  have h1 := myrunif_open_interval (⟨id, id, id, fun x _ => x, fun _ => 0, 32767⟩ : CMath ℚ)
    (fun _ => 32767) 0 (le_refl _)
  constructor
  · rw [h0.1]; norm_num
  · rw [h1.1]; norm_num

/-! ### The two branches of the inverse logit -/

/-- C18: for every real x, `exp (x) / (1 + exp (x))` (the branch of `invlogit` for x ≤ 0)
equals `1 / (1 + exp (-x))` (the branch for x > 0), so `invlogit x` is that common value
on both branches, and it lies strictly between 0 and 1. -/
theorem invlogit_branches (m : CMath ℝ) (hm : IsRealMath m) (x : ℝ) :
    m.exp x / (1 + m.exp x) = 1 / (1 + m.exp (-x)) ∧
      invlogit m x = 1 / (1 + m.exp (-x)) ∧ 0 < invlogit m x ∧ invlogit m x < 1 := by
  have hexp : m.exp = Real.exp := hm.1
  have e : m.exp x / (1 + m.exp x) = 1 / (1 + m.exp (-x)) := by
    rw [hexp, Real.exp_neg]
    have := Real.exp_pos x
    field_simp
    ring
  refine ⟨e, ?_, (invlogit_mem hm x).1, (invlogit_mem hm x).2⟩
  unfold invlogit
  split_ifs
  · rfl
  · exact e

/-- C18 at x = -1 (second branch) and x = 2 (first branch). -/
theorem invlogit_branches_witness :
    ∃ m : CMath ℝ, IsRealMath m ∧
      invlogit m (-1) = 1 / (1 + Real.exp 1) ∧ invlogit m 2 = 1 / (1 + Real.exp (-2)) ∧
      0 < invlogit m (-1) ∧ invlogit m 2 < 1 := by
  have hm : IsRealMath ⟨Real.exp, Real.log, Real.sqrt, fun x y => x ^ y, fun x => ⌊x⌋,
      2147483647⟩ := ⟨rfl, rfl, rfl, fun _ _ => rfl, fun _ => rfl⟩
  have h1 := invlogit_branches _ hm (-1)
  have h2 := invlogit_branches _ hm 2
  refine ⟨_, hm, ?_, h2.2.1, h1.2.2.1, h2.2.2.2⟩
  rw [h1.2.1]
  norm_num

/-! ### The proposal scales outside the adaptation sweeps -/

/-- The adaptive step leaves the proposal scales unchanged unless `(g+1) % DIV = 0` and
`(g+1) ≤ NBURN`. -/
theorem adaptStep_sigmap {α : Type} [LinearOrderedField α] (d : Inputs α) (g : Nat)
    (st st' : State α) (h : adaptStep d g st = some st')
    (hc : ¬ (((g : Int) + 1).tmod (DIV d.NGIBBS) = 0 ∧ (g : Int) + 1 ≤ d.NBURN)) :
    st'.sigmap_beta = st.sigmap_beta ∧ st'.sigmap_rho = st.sigmap_rho := by
  let R : State α → State α → Prop := fun s s' =>
    s'.sigmap_beta = s.sigmap_beta ∧ s'.sigmap_rho = s.sigmap_rho
  have hrefl : ∀ s, R s s := fun s => ⟨rfl, rfl⟩
  have htrans : ∀ a b c, R a b → R b c → R a c := fun a b c h1 h2 =>
    ⟨h2.1.trans h1.1, h2.2.trans h1.2⟩
  have hRB : ∀ s p, R s (rateBeta d s p) := fun s p => ⟨rfl, rfl⟩
  have hRR : ∀ s i, R s (rateRho d s i) := by
    intro s i
    unfold rateRho
    split_ifs
    · exact ⟨rfl, rfl⟩
    · exact hrefl s
  unfold adaptStep at h
  by_cases h0 : DIV d.NGIBBS = 0
  · rw [if_pos h0] at h
    cases h
  · rw [if_neg h0, if_neg hc] at h
    dsimp only at h
    have h' := (Option.some.inj h).symm
    subst h'
    split_ifs
    · exact htrans _ _ _ (foldl_rel _ R hrefl htrans _ (fun a x _ => hRB a x) st)
        (foldl_rel _ R hrefl htrans _ (fun a x _ => hRR a x) _)
    · exact hrefl st

/-- C11: a sweep `g` changes a proposal scale (`sigmap_beta[p]` or `sigmap_rho[i]`) only
if `(g+1) % DIV = 0` and `(g+1) ≤ NBURN`; in particular a sweep with `(g+1) > NBURN`
leaves every proposal scale unchanged. -/
theorem sweep_sigmap_frame {α : Type} [LinearOrderedField α] (m : CMath α)
    (rs : Nat → Nat) (d : Inputs α) (fuel : Nat) (st st' : State α) (g : Nat)
    (h : sweep m rs d fuel st g = some st') :
    (∀ p, st'.sigmap_beta p ≠ st.sigmap_beta p →
      ((g : Int) + 1).tmod (DIV d.NGIBBS) = 0 ∧ (g : Int) + 1 ≤ d.NBURN) ∧
    (∀ i, st'.sigmap_rho i ≠ st.sigmap_rho i →
      ((g : Int) + 1).tmod (DIV d.NGIBBS) = 0 ∧ (g : Int) + 1 ≤ d.NBURN) ∧
    ((g : Int) + 1 > d.NBURN →
      st'.sigmap_beta = st.sigmap_beta ∧ st'.sigmap_rho = st.sigmap_rho) := by
  obtain ⟨st1, st2, st3, st4, h1, h2, h3, hr4, h4, -⟩ := sweep_steps m rs d fuel st st' g h
  obtain ⟨br, na, k, e1⟩ := betaStep_shape m rs d fuel st st1 h1
  obtain ⟨rr, na2, k2, e2, -⟩ := rhoStep_shape m rs d fuel _ st2 h2
  obtain ⟨v, k3, e3⟩ := vrhoStep_shape m rs d fuel _ st3 h3
  obtain ⟨bv, rv, vv, dv, tl, tp, hrec⟩ := recordStep_shape d g _ st4 hr4
  have hb0 : st4.sigmap_beta = st.sigmap_beta := by
    rw [hrec]
    show st3.sigmap_beta = st.sigmap_beta
    rw [e3, e2, e1]
  have hr0 : st4.sigmap_rho = st.sigmap_rho := by
    rw [hrec]
    show st3.sigmap_rho = st.sigmap_rho
    rw [e3, e2, e1]
  have key : ¬ (((g : Int) + 1).tmod (DIV d.NGIBBS) = 0 ∧ (g : Int) + 1 ≤ d.NBURN) →
      st'.sigmap_beta = st.sigmap_beta ∧ st'.sigmap_rho = st.sigmap_rho := by
    intro hc
    obtain ⟨hb, hr⟩ := adaptStep_sigmap d g _ st' h4 hc
    exact ⟨hb.trans hb0, hr.trans hr0⟩
  refine ⟨fun p hp => ?_, fun i hi => ?_, fun hg => key (fun hc => ?_)⟩
  · by_contra hc
    exact hp (by rw [(key hc).1])
  · by_contra hc
    exact hi (by rw [(key hc).2])
  · omega

/-- C11 on the example data (NGIBBS = 100, NBURN = 10): the sweeps 0 to 18 of the run
return, the sweep g = 19, for which `(g+1) % DIV = 0` and `(g+1) > NBURN`, returns from
the state they leave, and it leaves the proposal scales unchanged. -/
theorem sweep_sigmap_frame_witness :
    ∃ (m : CMath ℝ) (st st' : State ℝ), IsRealMath m ∧
      sweeps m exStream exInputs 1 (initState exInputs) 19 = some st ∧
      sweep m exStream exInputs 1 st 19 = some st' ∧
      (((19 : Nat) : Int) + 1).tmod (DIV (exInputs : Inputs ℝ).NGIBBS) = 0 ∧
      ((19 : Nat) : Int) + 1 > (exInputs : Inputs ℝ).NBURN ∧
      st'.sigmap_beta = st.sigmap_beta ∧ st'.sigmap_rho = st.sigmap_rho := by
  have hm : IsRealMath ⟨Real.exp, Real.log, Real.sqrt, fun x y => x ^ y, fun x => ⌊x⌋,
      2147483647⟩ := ⟨rfl, rfl, rfl, fun _ _ => rfl, fun _ => rfl⟩
  obtain ⟨st, hst⟩ := sweeps_exInputs
    (⟨Real.exp, Real.log, Real.sqrt, fun x y => x ^ y, fun x => ⌊x⌋, 2147483647⟩ : CMath ℝ)
    rfl (initState exInputs) 19 (by decide)
  obtain ⟨st', hst'⟩ := sweep_exInputs
    (⟨Real.exp, Real.log, Real.sqrt, fun x y => x ^ y, fun x => ⌊x⌋, 2147483647⟩ : CMath ℝ)
    rfl st 19 (by decide)
  have hg : ((19 : Nat) : Int) + 1 > (exInputs : Inputs ℝ).NBURN := by decide
  have key := (sweep_sigmap_frame _ exStream exInputs 1 st st' 19 hst').2.2 hg
  exact ⟨_, st, st', hm, hst, hst', by decide, hg, key.1, key.2⟩

/-! ### The likelihood summed over the observations of a cell -/

/-- A loop that appends the indices satisfying a test builds the filtered list. -/
theorem foldl_append_filter (P : Nat → Prop) [DecidablePred P] (l acc : List Nat) :
    l.foldl (fun r n => if P n then r ++ [n] else r) acc = acc ++ l.filter (fun n => P n) := by
  induction l generalizing acc with
  | nil => simp
  | cons x l ih =>
    simp only [List.foldl_cons, List.filter_cons]
    rw [ih]
    by_cases hx : P x
    · simp [hx]
    · simp [hx]

/-- A loop that counts the indices satisfying a test counts the filtered list. -/
theorem foldl_count_filter (P : Nat → Prop) [DecidablePred P] (l : List Nat) (c : Nat) :
    l.foldl (fun r n => if P n then r + 1 else r) c = c + (l.filter (fun n => P n)).length := by
  induction l generalizing c with
  | nil => simp
  | cons x l ih =>
    simp only [List.foldl_cons, List.filter_cons]
    rw [ih]
    by_cases hx : P x
    · simp [hx]; omega
    · simp [hx]

/-- `PosCell[i]` lists the observations of cell `i`, and `nObsCell[i]` is its length. -/
theorem PosCell_eq_filter {α : Type} [LinearOrderedField α] (d : Inputs α) (i : Nat) :
    PosCell d i = (List.range d.NOBS).filter (fun n => d.IdCell n = i) ∧
      nObsCell d i = (PosCell d i).length := by
  have h1 : PosCell d i = (List.range d.NOBS).filter (fun n => d.IdCell n = i) := by
    unfold PosCell
    rw [foldl_append_filter (fun n => d.IdCell n = i)]
    simp
  refine ⟨h1, ?_⟩
  rw [h1]
  unfold nObsCell
  rw [foldl_count_filter (fun n => d.IdCell n = i)]
  simp

/-- A loop `acc += f (l[mm])` over the positions of a list adds up `f` over the list. -/
theorem foldl_range_getD {α : Type} [LinearOrderedField α] (f : Nat → α) (l : List Nat)
    (a : α) :
    (List.range l.length).foldl (fun acc mm => acc + f (l.getD mm 0)) a
      = a + (l.map f).sum := by
  induction l using List.reverseRecOn with
  | nil => simp
  | append_singleton l x ih =>
    rw [List.length_append, List.length_singleton, List.range_succ, List.foldl_append]
    have hcongr : (List.range l.length).foldl (fun acc mm => acc + f ((l ++ [x]).getD mm 0)) a
        = (List.range l.length).foldl (fun acc mm => acc + f (l.getD mm 0)) a := by
      apply List.foldl_ext
      intro acc mm hmm
      have : mm < l.length := List.mem_range.mp hmm
      rw [List.getD_append _ _ _ _ this]
    rw [hcongr, ih]
    simp [add_assoc]

/-- The sum of a list without repetition, as a sum over the positions that pass the test. -/
theorem sum_map_filter_range {α : Type} [LinearOrderedField α] (P : Nat → Prop)
    [DecidablePred P] (f : Nat → α) (N : Nat) :
    (((List.range N).filter (fun n => P n)).map f).sum
      = ∑ n in (Finset.range N).filter (fun n => P n), f n := by
  induction N with
  | zero => simp
  | succ N ih =>
    rw [List.range_succ, List.filter_append, List.map_append, List.sum_append, ih,
      Finset.range_succ, Finset.filter_insert]
    by_cases hN : P N
    · rw [if_pos hN, Finset.sum_insert (by simp)]
      simp [hN, add_comm]
    · rw [if_neg hN]
      simp [hN]

/-- The log-likelihood part of `rhodens_visited` is the sum over the observations of the
cell. -/
theorem rhodens_visited_eq {α : Type} [LinearOrderedField α] (m : CMath α) (d : Inputs α)
    (st : State α) (i : Nat) (v : α) :
    rhodens_visited m d st i v = cellLogLik m d st.beta_run i v
      + mydnorm m v (sumNeighbors d st i / (d.nNeigh i : α))
          (m.sqrt (st.Vrho_run / (d.nNeigh i : α))) 1 := by
  obtain ⟨hP, hn⟩ := PosCell_eq_filter d i
  unfold rhodens_visited cellLogLik
  dsimp only
  rw [hn, foldl_range_getD (fun w => mylndbern m (d.Y w)
    (invlogit m (Xpart d.NP (d.X w) st.beta_run + v))), hP,
    sum_map_filter_range (fun n => d.IdCell n = i), zero_add]
  simp only [Xpart_eq_sum]

/-- The full-data log-likelihood with `rho[i]` replaced by `v`, split into the
observations of cell `i` and the others. -/
theorem fullLogLik_update {α : Type} [LinearOrderedField α] (m : CMath α) (d : Inputs α)
    (beta rho : Nat → α) (i : Nat) (v : α) :
    fullLogLik m d beta (Function.update rho i v) = cellLogLik m d beta i v
      + ∑ n in (Finset.range d.NOBS).filter (fun n => ¬ d.IdCell n = i),
          mylndbern m (d.Y n) (invlogit m ((∑ p in Finset.range d.NP, d.X n p * beta p)
            + rho (d.IdCell n))) := by
  unfold fullLogLik cellLogLik
  rw [← Finset.sum_filter_add_sum_filter_not (Finset.range d.NOBS) (fun n => d.IdCell n = i)]
  congr 1
  · apply Finset.sum_congr rfl
    intro n hn
    rw [(Finset.mem_filter.mp hn).2, Function.update_same]
  · apply Finset.sum_congr rfl
    intro n hn
    rw [Function.update_noteq (Finset.mem_filter.mp hn).2]

/-- C17: for every cell `i` (all `IdCell` values in [0, NCELL)) and every candidate `v`,
the log-likelihood that `rhodens_visited` sums over `PosCell[i]` is the sum, over exactly
the observations `n` with `IdCell[n] = i`, of the Bernoulli log-density of `Y[n]` at
`invlogit (Σ_p X[n][p] * beta[p] + v)`; hence for all `a`, `b` the difference
`rhodens_visited (a) - rhodens_visited (b)` is the difference of the full-data
log-likelihoods (all NOBS observations, `rho[i]` replaced by `a`, by `b`) plus the
difference of the Normal(mean of the neighbours, Vrho / nNeigh[i]) log-densities. The
full-data log-likelihood is the one of the deviance step. -/
theorem rhodens_visited_refines {α : Type} [LinearOrderedField α] (m : CMath α)
    (d : Inputs α) (st : State α) (i : Nat) (_hi : i < d.NCELL)
    (_hrange : ∀ n, n < d.NOBS → d.IdCell n < d.NCELL) :
    (∀ v, rhodens_visited m d st i v
        - mydnorm m v (sumNeighbors d st i / (d.nNeigh i : α))
            (m.sqrt (st.Vrho_run / (d.nNeigh i : α))) 1
        = cellLogLik m d st.beta_run i v) ∧
    (∀ a b, rhodens_visited m d st i a - rhodens_visited m d st i b
        = (fullLogLik m d st.beta_run (Function.update st.rho_run i a)
            - fullLogLik m d st.beta_run (Function.update st.rho_run i b))
          + (mydnorm m a (sumNeighbors d st i / (d.nNeigh i : α))
              (m.sqrt (st.Vrho_run / (d.nNeigh i : α))) 1
            - mydnorm m b (sumNeighbors d st i / (d.nNeigh i : α))
              (m.sqrt (st.Vrho_run / (d.nNeigh i : α))) 1)) ∧
    (devianceStep m d st).Deviance_run = -2 * fullLogLik m d st.beta_run st.rho_run := by
  refine ⟨fun v => ?_, fun a b => ?_, devianceStep_Deviance_run m d st⟩
  · rw [rhodens_visited_eq]
    ring
  · rw [rhodens_visited_eq, rhodens_visited_eq, fullLogLik_update, fullLogLik_update]
    ring

/-- C17 on the example data, cell 0 (one observation, `Y = 1`, `X = 1`): from the initial
state the log-likelihood part of `rhodens_visited (v)` is the single Bernoulli term
`log (invlogit (1 * 0 + v))`. -/
theorem rhodens_visited_refines_witness :
    ∃ m : CMath ℝ, IsRealMath m ∧ ∀ v : ℝ,
      rhodens_visited m exInputs (initState exInputs) 0 v
        - mydnorm m v (sumNeighbors exInputs (initState exInputs) 0 / 2)
            (m.sqrt ((initState (exInputs : Inputs ℝ)).Vrho_run / 2)) 1
        = Real.log (invlogit m (1 * 0 + v)) := by
  have hm : IsRealMath ⟨Real.exp, Real.log, Real.sqrt, fun x y => x ^ y, fun x => ⌊x⌋,
      2147483647⟩ := ⟨rfl, rfl, rfl, fun _ _ => rfl, fun _ => rfl⟩
  refine ⟨_, hm, fun v => ?_⟩
  have hrange : ∀ n, n < (exInputs : Inputs ℝ).NOBS →
      (exInputs : Inputs ℝ).IdCell n < (exInputs : Inputs ℝ).NCELL := by
    intro n _
    simp only [exInputs]
    split_ifs <;> decide
  have key := (rhodens_visited_refines
    (⟨Real.exp, Real.log, Real.sqrt, fun x y => x ^ y, fun x => ⌊x⌋, 2147483647⟩ : CMath ℝ)
    exInputs (initState exInputs) 0 (by simp [exInputs]) hrange).1 v
  have hc : cellLogLik (⟨Real.exp, Real.log, Real.sqrt, fun x y => x ^ y, fun x => ⌊x⌋,
      2147483647⟩ : CMath ℝ) exInputs (initState (exInputs : Inputs ℝ)).beta_run 0 v
      = Real.log (invlogit ⟨Real.exp, Real.log, Real.sqrt, fun x y => x ^ y, fun x => ⌊x⌋,
          2147483647⟩ (1 * 0 + v)) := by
    have hf : (Finset.range (exInputs : Inputs ℝ).NOBS).filter
        (fun n => (exInputs : Inputs ℝ).IdCell n = 0) = {0} := by
      simp only [exInputs]
      decide
    unfold cellLogLik
    rw [hf, Finset.sum_singleton]
    simp [exInputs, initState, mylndbern]
  have e2 : (((exInputs : Inputs ℝ).nNeigh 0 : ℕ) : ℝ) = 2 := by simp [exInputs]
  rw [e2] at key
  rw [key, hc]

/-! ### The quadratic form of the variance step -/

/-- The sum of `f` over a list of indices below `N`, by multiplicity. -/
theorem sum_map_eq_sum_count {α : Type} [LinearOrderedField α] (f : Nat → α) (N : Nat)
    (l : List Nat) (hl : ∀ x ∈ l, x < N) :
    (l.map f).sum = ∑ j in Finset.range N, (l.count j : α) * f j := by
  induction l with
  | nil => simp
  | cons a l ih =>
    have ha : a < N := hl a (List.mem_cons_self _ _)
    rw [List.map_cons, List.sum_cons, ih (fun x hx => hl x (List.mem_cons_of_mem _ hx))]
    have : ∀ j ∈ Finset.range N, (((a :: l).count j : Nat) : α) * f j
        = (l.count j : α) * f j + (if j = a then f j else 0) := by
      intro j _
      rw [List.count_cons]
      by_cases hj : j = a
      · subst hj
        simp
        ring
      · have : ¬ (a == j) = true := by simpa using fun h => hj h.symm
        simp [hj, this]
    rw [Finset.sum_congr rfl this, Finset.sum_add_distrib, Finset.sum_ite_eq' (Finset.range N) a,
      if_pos (Finset.mem_range.mpr ha)]
    ring

/-- A sum over the positions of a neighbour list is the sum over the list. -/
theorem sum_range_eq_sum_map {α : Type} [LinearOrderedField α] (g : Nat → α) (n : Nat) :
    ∑ l in Finset.range n, g l = ((List.range n).map g).sum := by
  induction n with
  | zero => simp
  | succ n ih => rw [Finset.sum_range_succ, List.range_succ, List.map_append, List.sum_append, ih]; simp

/-- With symmetric neighbour lists of cells in range, summing `f` over all the neighbours
of all the cells counts `f i` once per neighbour of `i`. -/
theorem sum_neighbours_symm {α : Type} [LinearOrderedField α] (d : Inputs α) (f : Nat → α)
    (hsym : ∀ i j, i < d.NCELL → j < d.NCELL → neighCount d i j = neighCount d j i)
    (hrange : ∀ i l, i < d.NCELL → l < d.nNeigh i → d.Neigh i l < d.NCELL) :
    ∑ i in Finset.range d.NCELL, ∑ l in Finset.range (d.nNeigh i), f (d.Neigh i l)
      = ∑ i in Finset.range d.NCELL, (d.nNeigh i : α) * f i := by
  have hmem : ∀ i, i < d.NCELL → ∀ x ∈ (List.range (d.nNeigh i)).map (d.Neigh i),
      x < d.NCELL := by
    intro i hi x hx
    obtain ⟨l, hl, rfl⟩ := List.mem_map.mp hx
    exact hrange i l hi (List.mem_range.mp hl)
  have h1 : ∀ i ∈ Finset.range d.NCELL, ∑ l in Finset.range (d.nNeigh i), f (d.Neigh i l)
      = ∑ j in Finset.range d.NCELL, (neighCount d i j : α) * f j := by
    intro i hi
    rw [sum_range_eq_sum_map (fun l => f (d.Neigh i l))]
    have := sum_map_eq_sum_count f d.NCELL ((List.range (d.nNeigh i)).map (d.Neigh i))
      (hmem i (Finset.mem_range.mp hi))
    rw [List.map_map] at this
    exact this
  have h2 : ∀ j ∈ Finset.range d.NCELL,
      ∑ i in Finset.range d.NCELL, (neighCount d j i : α) = (d.nNeigh j : α) := by
    intro j hj
    have := sum_map_eq_sum_count (fun _ => (1 : α)) d.NCELL
      ((List.range (d.nNeigh j)).map (d.Neigh j)) (hmem j (Finset.mem_range.mp hj))
    simp only [List.map_map, mul_one] at this
    unfold neighCount
    rw [← this, ← sum_range_eq_sum_map]
    simp
  rw [Finset.sum_congr rfl h1, Finset.sum_comm]
  apply Finset.sum_congr rfl
  intro j hj
  rw [← h2 j hj, Finset.sum_mul]
  apply Finset.sum_congr rfl
  intro i hi
  rw [hsym i j (Finset.mem_range.mp hi) (Finset.mem_range.mp hj)]

/-- The quadratic form of the variance step as a finite sum. -/
theorem vrhoSum_eq_sum {α : Type} [LinearOrderedField α] (d : Inputs α) (st : State α) :
    vrhoSum d st = ∑ i in Finset.range d.NCELL,
      st.rho_run i * ((d.nNeigh i : α) * st.rho_run i
        - ∑ l in Finset.range (d.nNeigh i), st.rho_run (d.Neigh i l)) := by
  unfold vrhoSum
  simp only [foldl_range_add]
  norm_num

/-- C20: if the neighbour lists are symmetric (cell `j` occurs in `Neigh[i]` as many times
as `i` occurs in `Neigh[j]`) and hold cells in range, then for every rho the sum of the
variance step, `Σ_i rho_i * (nNeigh_i * rho_i - Σ_{j in Neigh[i]} rho_j)`, is one half of
`Σ_i Σ_{j in Neigh[i]} (rho_i - rho_j)^2`, hence non-negative, and the inverse-gamma rate
`rate + 0.5 * Sum` is strictly positive whenever `rate > 0`. -/
theorem vrhoSum_symmetric {α : Type} [LinearOrderedField α] (d : Inputs α) (st : State α)
    (hsym : ∀ i j, i < d.NCELL → j < d.NCELL → neighCount d i j = neighCount d j i)
    (hrange : ∀ i l, i < d.NCELL → l < d.nNeigh i → d.Neigh i l < d.NCELL) :
    vrhoSum d st = halfPairwiseSS d st.rho_run ∧ 0 ≤ vrhoSum d st ∧
      (0 < d.rate → 0 < d.rate + 0.5 * vrhoSum d st) := by
  have hkey := sum_neighbours_symm d (fun j => st.rho_run j ^ 2) hsym hrange
  have hsq : ∀ i ∈ Finset.range d.NCELL,
      ∑ l in Finset.range (d.nNeigh i), (st.rho_run i - st.rho_run (d.Neigh i l)) ^ 2
      = (d.nNeigh i : α) * st.rho_run i ^ 2
        - 2 * (st.rho_run i * ∑ l in Finset.range (d.nNeigh i), st.rho_run (d.Neigh i l))
        + ∑ l in Finset.range (d.nNeigh i), st.rho_run (d.Neigh i l) ^ 2 := by
    intro i _
    have : ∀ l ∈ Finset.range (d.nNeigh i), (st.rho_run i - st.rho_run (d.Neigh i l)) ^ 2
        = st.rho_run i ^ 2 - 2 * (st.rho_run i * st.rho_run (d.Neigh i l))
          + st.rho_run (d.Neigh i l) ^ 2 := fun l _ => by ring
    rw [Finset.sum_congr rfl this, Finset.sum_add_distrib, Finset.sum_sub_distrib,
      Finset.sum_const, Finset.card_range, nsmul_eq_mul, ← Finset.mul_sum, ← Finset.mul_sum]
  have heq : vrhoSum d st = halfPairwiseSS d st.rho_run := by
    rw [vrhoSum_eq_sum]
    unfold halfPairwiseSS
    rw [Finset.sum_congr rfl hsq, Finset.sum_add_distrib, Finset.sum_sub_distrib, hkey]
    dsimp only
    rw [← Finset.sum_sub_distrib, ← Finset.sum_add_distrib, Finset.mul_sum]
    apply Finset.sum_congr rfl
    intro i _
    ring
  have hnn : 0 ≤ vrhoSum d st := by
    rw [heq]
    unfold halfPairwiseSS
    apply mul_nonneg (by norm_num)
    exact Finset.sum_nonneg (fun i _ => Finset.sum_nonneg (fun l _ => sq_nonneg _))
  refine ⟨heq, hnn, fun hr => ?_⟩
  have : 0 ≤ 0.5 * vrhoSum d st := mul_nonneg (by norm_num) hnn
  linarith

/-- C20 on the five-cell ring of `failInputs` with rho = (0.1, -0.1, 0, 0, 0): the sum is
3/50 and the rate `0.0005 + 0.5 * Sum` is positive. -/
theorem vrhoSum_symmetric_witness :
    vrhoSum (failInputs : Inputs ℝ) (initState failInputs)
        = halfPairwiseSS (failInputs : Inputs ℝ) (initState failInputs).rho_run ∧
      vrhoSum (failInputs : Inputs ℝ) (initState failInputs) = 3 / 50 ∧
      0 < (failInputs : Inputs ℝ).rate
        + 0.5 * vrhoSum (failInputs : Inputs ℝ) (initState failInputs) := by
  have hsym : ∀ i j, i < (failInputs : Inputs ℝ).NCELL → j < (failInputs : Inputs ℝ).NCELL →
      neighCount (failInputs : Inputs ℝ) i j = neighCount (failInputs : Inputs ℝ) j i := by
    intro i j hi hj
    have hi' : i < 5 := hi
    have hj' : j < 5 := hj
    interval_cases i <;> interval_cases j <;> rfl
  have hrange : ∀ i l, i < (failInputs : Inputs ℝ).NCELL →
      l < (failInputs : Inputs ℝ).nNeigh i →
      (failInputs : Inputs ℝ).Neigh i l < (failInputs : Inputs ℝ).NCELL := by
    intro i l _ _
    show (if l = 0 then (i + 1) % 5 else (i + 4) % 5) < 5
    split_ifs <;> omega
  have key := vrhoSum_symmetric (failInputs : Inputs ℝ) (initState failInputs) hsym hrange
  exact ⟨key.1, vrhoSum_failInputs, key.2.2 (by norm_num [failInputs])⟩

/-! ### The binomial density and its log flag -/

/-- C19 fails on the code: `mydbinom (0, 1, 0.5, 1)` (log flag set) returns 1/2, the
density itself, as `mydbinom (0, 1, 0.5, 0)` does, and not its logarithm: the end point
`x = 0` of `dbinom_raw` returns `exp (lc)` without reading the flag. -/
theorem mydbinom_log_flag_ignored :
    ∃ mx : CMathX ℝ, IsRealMathX mx ∧
      mydbinom mx 0 1 (1 / 2) 1 1 = Except.ok (1 / 2) ∧
      mydbinom mx 0 1 (1 / 2) 0 1 = Except.ok (1 / 2) ∧
      mydbinom mx 1 1 (1 / 2) 1 1 = Except.ok (1 / 2) ∧
      Real.log (1 / 2) ≠ 1 / 2 := by
  have hm : IsRealMathX ⟨⟨Real.exp, Real.log, Real.sqrt, fun x y => x ^ y, fun x => ⌊x⌋,
      2147483647⟩, Real.sin, fun x => Real.log (1 + x)⟩ :=
    ⟨⟨rfl, rfl, rfl, fun _ _ => rfl, fun _ => rfl⟩, rfl, fun _ => rfl⟩
  have hf0 : ⌊(0 : ℝ) + 0.5⌋ = 0 := by
    rw [Int.floor_eq_iff]; norm_num
  have hf1 : ⌊(1 : ℝ) + 0.5⌋ = 1 := by
    rw [Int.floor_eq_iff]; norm_num
  have hel : Real.exp (Real.log (1 / 2)) = 1 / 2 := Real.exp_log (by norm_num)
  have hlog : Real.log (1 / 2) < 0 := Real.log_neg (by norm_num) (by norm_num)
  have hp : ¬ ((1 / 2 : ℝ) < 0 ∨ (1 / 2 : ℝ) > 1) := by norm_num
  refine ⟨_, hm, ?_, ?_, ?_, by linarith⟩
  · unfold mydbinom dbinom_raw
    rw [if_neg hp]
    simp only [hf0]
    norm_num
    exact hel
  · unfold mydbinom dbinom_raw
    rw [if_neg hp]
    simp only [hf0]
    norm_num
    exact hel
  · unfold mydbinom dbinom_raw
    rw [if_neg hp]
    simp only [hf1]
    norm_num
    exact hel

/-- Away from the end points (`0 < x < n`, `0 < p`, `0 < q`) `dbinom_raw` does read its
flag: whenever it returns `v` without the flag, it returns `log v` with it. -/
theorem dbinom_raw_interior_log (mx : CMathX ℝ) (hm : IsRealMathX mx) (x n p q : ℝ)
    (fuel : Nat) (hp : p ≠ 0) (hq : q ≠ 0) (hx0 : 0 < x) (hxn : x < n) (v : ℝ)
    (h : dbinom_raw mx x n p q 0 fuel = Except.ok v) :
    dbinom_raw mx x n p q 1 fuel = Except.ok (Real.log v) := by
  have hexp : mx.exp = Real.exp := hm.1.1
  have c3 : ¬ x = 0 := hx0.ne'
  have c4 : ¬ x = n := hxn.ne
  have c5 : ¬ (x < 0 ∨ x > n) := by
    intro hc
    rcases hc with hc | hc <;> linarith
  unfold dbinom_raw at h ⊢
  rw [if_neg hp, if_neg hq, if_neg c3, if_neg c4, if_neg c5] at h ⊢
  split at h
  · rename_i sn sx snx b1 b2 e1 e2 e3 e4 e5
    simp only [show ¬ ((0 : Int) = 1) by decide, if_false, Except.ok.injEq] at h
    simp only [if_true]
    rw [← h, hexp, Real.log_exp]
  all_goals cases h

/-! ### The Bernoulli log-density of the sampler -/

/-- A loop `if (test) acc += f p` over `p < n` adds up `f` over the indices that pass. -/
theorem foldl_range_add_if {α : Type} [LinearOrderedField α] (P : Nat → Prop)
    [DecidablePred P] (f : Nat → α) (a : α) (n : Nat) :
    (List.range n).foldl (fun acc p => if P p then acc + f p else acc) a
      = a + ∑ p in Finset.range n, (if P p then f p else 0) := by
  have : (fun (acc : α) p => if P p then acc + f p else acc)
      = (fun acc p => acc + (if P p then f p else 0)) := by
    funext acc p
    split_ifs
    · rfl
    · rw [add_zero]
  rw [this, foldl_range_add]

/-- The value of `betadens`: the sum over all the observations of `mylndbern` plus the
Normal log-prior. -/
theorem betadens_eq {α : Type} [LinearOrderedField α] (m : CMath α) (d : Inputs α)
    (st : State α) (k : Nat) (v : α) :
    betadens m d st k v =
      (∑ n in Finset.range d.NOBS, mylndbern m (d.Y n)
        (invlogit m ((∑ p in Finset.range d.NP, (if p ≠ k then d.X n p * st.beta_run p else 0))
          + d.X n k * v + st.rho_run (d.IdCell n))))
      + mydnorm m v (d.mubeta k) (m.sqrt (d.Vbeta k)) 1 := by
  unfold betadens
  dsimp only
  rw [foldl_range_add]
  simp only [foldl_range_add_if (fun p => p ≠ k)]
  norm_num

/-- C13 (amended): the Bernoulli log-density evaluations of the sampler (in `betadens`,
in `rhodens_visited`, in the deviance step) are calls of `mylndbern`, which makes no
domain check: for every observation value `x` and every `p` it returns
`x * log p + (1 - x) * log (1 - p)`. The fatal domain errors belong to `mydbern` with its
log flag set, which exits exactly when `p` is outside [0, 1], or `x` is outside {0, 1}, or
`p` is 0 or 1, and otherwise returns the value of `mylndbern`. -/
theorem bernoulli_domain_checks {α : Type} [LinearOrderedField α] (m : CMath α) :
    (∀ (x : Int) (p : α), mylndbern m x p = (x : α) * m.log p + (1 - (x : α)) * m.log (1 - p)) ∧
    (∀ (d : Inputs α) (st : State α) (k : Nat) (v : α), betadens m d st k v =
      (∑ n in Finset.range d.NOBS, mylndbern m (d.Y n)
        (invlogit m ((∑ p in Finset.range d.NP, (if p ≠ k then d.X n p * st.beta_run p else 0))
          + d.X n k * v + st.rho_run (d.IdCell n))))
      + mydnorm m v (d.mubeta k) (m.sqrt (d.Vbeta k)) 1) ∧
    (∀ (d : Inputs α) (st : State α) (i : Nat) (v : α), rhodens_visited m d st i v =
      (∑ n in (Finset.range d.NOBS).filter (fun n => d.IdCell n = i), mylndbern m (d.Y n)
        (invlogit m ((∑ p in Finset.range d.NP, d.X n p * st.beta_run p) + v)))
      + mydnorm m v (sumNeighbors d st i / (d.nNeigh i : α))
          (m.sqrt (st.Vrho_run / (d.nNeigh i : α))) 1) ∧
    (∀ (d : Inputs α) (st : State α), (devianceStep m d st).Deviance_run =
      -2 * ∑ n in Finset.range d.NOBS, mylndbern m (d.Y n)
        (invlogit m ((∑ p in Finset.range d.NP, d.X n p * st.beta_run p)
          + st.rho_run (d.IdCell n)))) ∧
    (∀ (x : Int) (p : α), mydbern m x p 1 = Except.error CErr.exitFailure ↔
      (p < 0 ∨ p > 1 ∨ (x ≠ 0 ∧ x ≠ 1) ∨ p = 0 ∨ p = 1)) ∧
    (∀ (x : Int) (p : α), ¬ (p < 0 ∨ p > 1 ∨ (x ≠ 0 ∧ x ≠ 1) ∨ p = 0 ∨ p = 1) →
      mydbern m x p 1 = Except.ok (mylndbern m x p)) := by
  refine ⟨fun _ _ => rfl, betadens_eq m, fun d st i v => rhodens_visited_eq m d st i v,
    devianceStep_Deviance_run m, fun x p => ?_, fun x p h => ?_⟩
  · unfold mydbern
    by_cases h1 : p < 0 ∨ p > 1
    · rw [if_pos h1]
      simp only [true_iff]
      rcases h1 with h1 | h1
      · exact Or.inl h1
      · exact Or.inr (Or.inl h1)
    · rw [if_neg h1]
      by_cases h2 : x ≠ 0 ∧ x ≠ 1
      · rw [if_pos h2, if_pos rfl]
        simp only [true_iff]
        exact Or.inr (Or.inr (Or.inl h2))
      · rw [if_neg h2, if_pos rfl]
        by_cases h3 : p = 0 ∨ p = 1
        · rw [if_pos h3]
          simp only [true_iff]
          exact Or.inr (Or.inr (Or.inr h3))
        · rw [if_neg h3]
          constructor
          · intro h; cases h
          · rintro (h | h | h | h)
            · exact absurd (Or.inl h) h1
            · exact absurd (Or.inr h) h1
            · exact absurd h h2
            · exact absurd h h3
  · unfold mydbern mylndbern
    have h1 : ¬ (p < 0 ∨ p > 1) := fun hc => h (by
      rcases hc with hc | hc
      · exact Or.inl hc
      · exact Or.inr (Or.inl hc))
    have h2 : ¬ (x ≠ 0 ∧ x ≠ 1) := fun hc => h (Or.inr (Or.inr (Or.inl hc)))
    have h3 : ¬ (p = 0 ∨ p = 1) := fun hc => h (Or.inr (Or.inr (Or.inr hc)))
    rw [if_neg h1, if_neg h2, if_pos rfl, if_neg h3]

/-- C13 fails as stated: for the observation value x = 2, outside {0, 1}, and p = 1/2,
`mylndbern` returns `log (1/2)` where `mydbern` exits; and the deviance step of a data set
whose single observation is `Y[0] = 2` (beta = 0, rho = 0, so theta = 1/2) returns the
deviance `-2 * log (1/2)`. -/
theorem mylndbern_unchecked_counterexample :
    ∃ m : CMath ℝ, IsRealMath m ∧ mylndbern m 2 (1 / 2) = Real.log (1 / 2) ∧
      mydbern m 2 (1 / 2) 1 = Except.error CErr.exitFailure ∧
      (devianceStep m { (exInputs : Inputs ℝ) with NOBS := 1, Y := fun _ => 2 }
        (initState { (exInputs : Inputs ℝ) with NOBS := 1, Y := fun _ => 2 })).Deviance_run
        = -2 * Real.log (1 / 2) := by
  have hm : IsRealMath ⟨Real.exp, Real.log, Real.sqrt, fun x y => x ^ y, fun x => ⌊x⌋,
      2147483647⟩ := ⟨rfl, rfl, rfl, fun _ _ => rfl, fun _ => rfl⟩
  have hval : mylndbern (⟨Real.exp, Real.log, Real.sqrt, fun x y => x ^ y, fun x => ⌊x⌋,
      2147483647⟩ : CMath ℝ) 2 (1 / 2) = Real.log (1 / 2) := by
    simp only [mylndbern]
    norm_num
    ring
  refine ⟨_, hm, hval, ?_, ?_⟩
  · unfold mydbern
    norm_num
  · rw [devianceStep_Deviance_run]
    have hth : invlogit (⟨Real.exp, Real.log, Real.sqrt, fun x y => x ^ y, fun x => ⌊x⌋,
        2147483647⟩ : CMath ℝ) 0 = 1 / 2 := by
      simp only [invlogit]
      norm_num
    simp only [exInputs, initState, Finset.sum_range_one, mul_zero, zero_add, hth]
    rw [hval]

/-! ### The prediction data do not feed back -/

/-- A loop in the option monad commutes with a map of the state that its body commutes
with. -/
theorem foldlM_map_comm {σ β : Type} (f1 f2 : σ → β → Option σ) (T : σ → σ)
    (hf : ∀ s x, f2 (T s) x = (f1 s x).map T) (l : List β) (s : σ) :
    l.foldlM f2 (T s) = (l.foldlM f1 s).map T := by
  induction l generalizing s with
  | nil => rfl
  | cons x l ih =>
    simp only [List.foldlM_cons, Option.bind_eq_bind, hf]
    cases f1 s x with
    | none => rfl
    | some s1 => simp [ih]

/-- A loop commutes with a map of the state that its body commutes with. -/
theorem foldl_map_comm {σ β : Type} (f1 f2 : σ → β → σ) (T : σ → σ)
    (hf : ∀ s x, f2 (T s) x = T (f1 s x)) (l : List β) (s : σ) :
    l.foldl f2 (T s) = T (l.foldl f1 s) := by
  induction l generalizing s with
  | nil => rfl
  | cons x l ih => simp only [List.foldl_cons, hf, ih]

/-- The coefficient step does not read the prediction data. -/
theorem betaStep_withPred {α : Type} [LinearOrderedField α] (m : CMath α) (rs : Nat → Nat)
    (d : Inputs α) (xp : Nat → Nat → α) (cp : Nat → Nat) (fuel : Nat) (a : Nat → α)
    (b : Int → α) (s : State α) :
    betaStep m rs (withPredInputs d xp cp) fuel (withPred a b s)
      = (betaStep m rs d fuel s).map (withPred a b) := by
  unfold betaStep
  apply foldlM_map_comm
  intro s p
  show betaUpdate m rs (withPredInputs d xp cp) fuel (withPred a b s) p
    = (betaUpdate m rs d fuel s p).map (withPred a b)
  unfold betaUpdate
  have e1 : (withPred a b s).beta_run = s.beta_run := rfl
  have e2 : (withPred a b s).sigmap_beta = s.sigmap_beta := rfl
  have e3 : (withPred a b s).pos = s.pos := rfl
  have e4 : ∀ v, betadens m (withPredInputs d xp cp) (withPred a b s) p v
      = betadens m d s p v := fun _ => rfl
  simp only [e1, e2, e3, e4]
  cases myrnorm m rs (s.beta_run p) (s.sigmap_beta p) fuel s.pos with
  | none => rfl
  | some xk =>
    obtain ⟨x, k⟩ := xk
    dsimp only
    split_ifs <;> rfl

/-- The spatial-effect step does not read the prediction data. -/
theorem rhoStep_withPred {α : Type} [LinearOrderedField α] (m : CMath α) (rs : Nat → Nat)
    (d : Inputs α) (xp : Nat → Nat → α) (cp : Nat → Nat) (fuel : Nat) (a : Nat → α)
    (b : Int → α) (s : State α) :
    rhoStep m rs (withPredInputs d xp cp) fuel (withPred a b s)
      = (rhoStep m rs d fuel s).map (withPred a b) := by
  have hs : rhoSample m rs (withPredInputs d xp cp) fuel (withPred a b s)
      = (rhoSample m rs d fuel s).map (withPred a b) := by
    unfold rhoSample
    apply foldlM_map_comm
    intro s i
    show rhoUpdate m rs (withPredInputs d xp cp) fuel (withPred a b s) i
      = (rhoUpdate m rs d fuel s i).map (withPred a b)
    unfold rhoUpdate
    have e0 : viscell (withPredInputs d xp cp) = viscell d := rfl
    have e1 : (withPred a b s).rho_run = s.rho_run := rfl
    have e2 : (withPred a b s).sigmap_rho = s.sigmap_rho := rfl
    have e3 : (withPred a b s).pos = s.pos := rfl
    have e4 : ∀ v, rhodens_visited m (withPredInputs d xp cp) (withPred a b s) i v
        = rhodens_visited m d s i v := fun _ => rfl
    have e5 : rhodens_unvisited m rs (withPredInputs d xp cp) (withPred a b s) i fuel
        = rhodens_unvisited m rs d s i fuel := rfl
    simp only [e0, e1, e2, e3, e4, e5]
    split_ifs
    · cases myrnorm m rs (s.rho_run i) (s.sigmap_rho i) fuel s.pos with
      | none => rfl
      | some xk =>
        obtain ⟨x, k⟩ := xk
        dsimp only
        split_ifs <;> rfl
    · cases rhodens_unvisited m rs d s i fuel with
      | none => rfl
      | some xk => rfl
  unfold rhoStep
  rw [hs]
  cases rhoSample m rs d fuel s with
  | none => rfl
  | some s1 => rfl

/-- The variance step does not read the prediction data. -/
theorem vrhoStep_withPred {α : Type} [LinearOrderedField α] (m : CMath α) (rs : Nat → Nat)
    (d : Inputs α) (xp : Nat → Nat → α) (cp : Nat → Nat) (fuel : Nat) (a : Nat → α)
    (b : Int → α) (s : State α) :
    vrhoStep m rs (withPredInputs d xp cp) fuel (withPred a b s)
      = (vrhoStep m rs d fuel s).map (withPred a b) := by
  have hIG : ∀ s, vrhoInvGamma m rs (withPredInputs d xp cp) fuel (withPred a b s)
      = (vrhoInvGamma m rs d fuel s).map (withPred a b) := by
    intro s
    unfold vrhoInvGamma
    have e1 : vrhoSum (withPredInputs d xp cp) (withPred a b s) = vrhoSum d s := rfl
    have e2 : (withPred a b s).pos = s.pos := rfl
    have e3 : (withPredInputs d xp cp).shape = d.shape := rfl
    have e4 : (withPredInputs d xp cp).NCELL = d.NCELL := rfl
    simp only [e1, e2, e3, e4]
    cases myrgamma1 m rs (d.shape + 0.5 * ((d.NCELL : α) - 1)) fuel s.pos with
    | none => rfl
    | some gk => rfl
  have hU : ∀ s, vrhoUniform m rs (withPredInputs d xp cp) fuel (withPred a b s)
      = (vrhoUniform m rs d fuel s).map (withPred a b) := by
    intro s
    unfold vrhoUniform
    have e1 : vrhoSum (withPredInputs d xp cp) (withPred a b s) = vrhoSum d s := rfl
    have e2 : (withPred a b s).pos = s.pos := rfl
    have e3 : (withPredInputs d xp cp).Vrho_max = d.Vrho_max := rfl
    have e4 : (withPredInputs d xp cp).NCELL = d.NCELL := rfl
    simp only [e1, e2, e3, e4]
    cases myrtgamma_left m rs (0.5 * (d.NCELL : α) - 1) (0.5 * vrhoSum d s) (1 / d.Vrho_max)
        fuel s.pos with
    | none => rfl
    | some gk => rfl
  unfold vrhoStep
  have e0 : (withPredInputs d xp cp).priorVrho = d.priorVrho := rfl
  rw [e0]
  split_ifs with h0 h1 h2 h2
  · rfl
  · rw [hIG]
    cases vrhoInvGamma m rs d fuel s with
    | none => rfl
    | some s1 => exact hU s1
  · rw [hIG]
    cases vrhoInvGamma m rs d fuel s with
    | none => rfl
    | some s1 => rfl
  · exact hU s
  · rfl

/-- The adaptive step does not read the prediction data. -/
theorem adaptStep_withPred {α : Type} [LinearOrderedField α] (d : Inputs α)
    (xp : Nat → Nat → α) (cp : Nat → Nat) (g : Nat) (a : Nat → α) (b : Int → α)
    (s : State α) :
    adaptStep (withPredInputs d xp cp) g (withPred a b s)
      = (adaptStep d g s).map (withPred a b) := by
  have hAB : ∀ s p, adaptBeta (withPredInputs d xp cp) (withPred a b s) p
      = withPred a b (adaptBeta d s p) := fun _ _ => rfl
  have hRB : ∀ s p, rateBeta (withPredInputs d xp cp) (withPred a b s) p
      = withPred a b (rateBeta d s p) := fun _ _ => rfl
  have hAR : ∀ s i, adaptRho (withPredInputs d xp cp) (withPred a b s) i
      = withPred a b (adaptRho d s i) := by
    intro s i
    unfold adaptRho
    have e0 : viscell (withPredInputs d xp cp) = viscell d := rfl
    rw [e0]
    split_ifs <;> rfl
  have hRR : ∀ s i, rateRho (withPredInputs d xp cp) (withPred a b s) i
      = withPred a b (rateRho d s i) := by
    intro s i
    unfold rateRho
    have e0 : viscell (withPredInputs d xp cp) = viscell d := rfl
    rw [e0]
    split_ifs <;> rfl
  have hA : ∀ s, (List.range d.NCELL).foldl (adaptRho (withPredInputs d xp cp))
      ((List.range d.NP).foldl (adaptBeta (withPredInputs d xp cp)) (withPred a b s))
      = withPred a b ((List.range d.NCELL).foldl (adaptRho d)
          ((List.range d.NP).foldl (adaptBeta d) s)) := by
    intro s
    rw [foldl_map_comm (adaptBeta d) _ (withPred a b) hAB,
      foldl_map_comm (adaptRho d) _ (withPred a b) hAR]
  have hB : ∀ s, (List.range d.NCELL).foldl (rateRho (withPredInputs d xp cp))
      ((List.range d.NP).foldl (rateBeta (withPredInputs d xp cp)) (withPred a b s))
      = withPred a b ((List.range d.NCELL).foldl (rateRho d)
          ((List.range d.NP).foldl (rateBeta d) s)) := by
    intro s
    rw [foldl_map_comm (rateBeta d) _ (withPred a b) hRB,
      foldl_map_comm (rateRho d) _ (withPred a b) hRR]
  unfold adaptStep
  have e1 : (withPredInputs d xp cp).NGIBBS = d.NGIBBS := rfl
  have e2 : (withPredInputs d xp cp).NBURN = d.NBURN := rfl
  have e3 : (withPredInputs d xp cp).NCELL = d.NCELL := rfl
  have e4 : (withPredInputs d xp cp).NP = d.NP := rfl
  rw [e1, e2, e3, e4]
  split_ifs with h0 h1 h2 h2
  · rfl
  · exact absurd h1.2 (by have := h2.2; omega)
  · simp only [Option.map_some', hA]
  · simp only [Option.map_some', hB]
  · rfl

/-- The deviance, prediction and output steps with other prediction data differ in the
predictive values and the predictive output only. -/
theorem record_pred_deviance_withPred {α : Type} [LinearOrderedField α] (m : CMath α)
    (d : Inputs α) (xp : Nat → Nat → α) (cp : Nat → Nat) (g : Nat) (a : Nat → α)
    (b : Int → α) (s : State α) :
    ∃ a' b', recordStep (withPredInputs d xp cp) g (predStep m (withPredInputs d xp cp)
        (devianceStep m (withPredInputs d xp cp) (withPred a b s)))
      = (recordStep d g (predStep m d (devianceStep m d s))).map (withPred a' b') := by
  have e1 : (withPredInputs d xp cp).NBURN = d.NBURN := rfl
  have e2 : (withPredInputs d xp cp).NTHIN = d.NTHIN := rfl
  have e3 : (withPredInputs d xp cp).NGIBBS = d.NGIBBS := rfl
  unfold recordStep
  rw [e1, e2, e3]
  by_cases h : records d.NBURN d.NTHIN g = true
  · simp only [h, if_true]
    by_cases hb : isamp d.NBURN d.NTHIN g - 1 < 0 ∨
        NSAMP d.NGIBBS d.NBURN d.NTHIN ≤ isamp d.NBURN d.NTHIN g - 1
    · simp only [hb, if_true]
      exact ⟨a, b, rfl⟩
    · simp only [hb, if_false]
      exact ⟨_, _, rfl⟩
  · simp only [h, if_false]
    exact ⟨_, _, rfl⟩

/-- The progress bar with other prediction data. -/
theorem progressBar_withPred {α : Type} [LinearOrderedField α] (d : Inputs α)
    (xp : Nat → Nat → α) (cp : Nat → Nat) (a : Nat → α) (b : Int → α) (s : State α) :
    progressBar (withPredInputs d xp cp) (withPred a b s)
      = (progressBar d s).map (withPred a b) := by
  have e1 : (withPredInputs d xp cp).NGIBBS = d.NGIBBS := rfl
  unfold progressBar
  rw [e1]
  split_ifs <;> rfl

/-- One sweep with other prediction data returns when the original sweep does, and then
differs in the predictive values and the predictive output only. -/
theorem sweep_withPred {α : Type} [LinearOrderedField α] (m : CMath α) (rs : Nat → Nat)
    (d : Inputs α) (xp : Nat → Nat → α) (cp : Nat → Nat) (fuel : Nat) (g : Nat)
    (a : Nat → α) (b : Int → α) (s : State α) :
    ∃ a' b', sweep m rs (withPredInputs d xp cp) fuel (withPred a b s) g
      = (sweep m rs d fuel s g).map (withPred a' b') := by
  unfold sweep
  rw [betaStep_withPred]
  cases betaStep m rs d fuel s with
  | none => exact ⟨a, b, rfl⟩
  | some s1 =>
    simp only [Option.map_some']
    rw [rhoStep_withPred]
    cases rhoStep m rs d fuel s1 with
    | none => exact ⟨a, b, rfl⟩
    | some s2 =>
      simp only [Option.map_some']
      rw [vrhoStep_withPred]
      cases vrhoStep m rs d fuel s2 with
      | none => exact ⟨a, b, rfl⟩
      | some s3 =>
        simp only [Option.map_some']
        obtain ⟨a', b', e⟩ := record_pred_deviance_withPred m d xp cp g a b s3
        rw [e]
        cases recordStep d g (predStep m d (devianceStep m d s3)) with
        | none => exact ⟨a, b, rfl⟩
        | some s4 =>
          simp only [Option.map_some']
          rw [adaptStep_withPred]
          cases adaptStep d g s4 with
          | none => exact ⟨a, b, rfl⟩
          | some s5 =>
            simp only [Option.map_some']
            rw [progressBar_withPred]
            exact ⟨a', b', rfl⟩

/-- Any number of sweeps with other prediction data returns when the original run does,
and then differs in the predictive values and the predictive output only. -/
theorem sweeps_withPred {α : Type} [LinearOrderedField α] (m : CMath α) (rs : Nat → Nat)
    (d : Inputs α) (xp : Nat → Nat → α) (cp : Nat → Nat) (fuel : Nat) (n : Nat)
    (a : Nat → α) (b : Int → α) (s : State α) :
    ∃ a' b', sweeps m rs (withPredInputs d xp cp) fuel (withPred a b s) n
      = (sweeps m rs d fuel s n).map (withPred a' b') := by
  induction n with
  | zero => exact ⟨a, b, rfl⟩
  | succ n ih =>
    obtain ⟨a1, b1, e1⟩ := ih
    rw [sweeps_succ, sweeps_succ, e1]
    cases sweeps m rs d fuel s n with
    | none => exact ⟨a, b, rfl⟩
    | some s1 =>
      simp only [Option.map_some', Option.some_bind]
      exact sweep_withPred m rs d xp cp fuel n a1 b1 s1

/-- C16: two runs that agree on every input and on the random stream, except for the
prediction covariates `X_pred` and the prediction cell ids `IdCell_pred`, return together,
and with identical beta, rho, Vrho, deviance and latent-theta outputs (and identical
final beta, rho, Vrho and position in the stream); the prediction step writes
`theta_pred_run` only, so no model parameter, and reads no random draw. -/
theorem prediction_noninterference {α : Type} [LinearOrderedField α] (m : CMath α)
    (rs : Nat → Nat) (d : Inputs α) (xp : Nat → Nat → α) (cp : Nat → Nat) (fuel : Nat) :
    (gibbs m rs d fuel = none → gibbs m rs (withPredInputs d xp cp) fuel = none) ∧
    (∀ s1, gibbs m rs d fuel = some s1 →
      ∃ s2, gibbs m rs (withPredInputs d xp cp) fuel = some s2 ∧
        s2.beta_vect = s1.beta_vect ∧ s2.rho_vect = s1.rho_vect ∧
        s2.Vrho_vect = s1.Vrho_vect ∧ s2.Deviance_vect = s1.Deviance_vect ∧
        s2.theta_latent_vect = s1.theta_latent_vect ∧ s2.beta_run = s1.beta_run ∧
        s2.rho_run = s1.rho_run ∧ s2.Vrho_run = s1.Vrho_run ∧ s2.pos = s1.pos) ∧
    (∀ s : State α, ∃ tp, predStep m d s = { s with theta_pred_run := tp }) := by
  have hinit : initState (withPredInputs d xp cp)
      = withPred (fun _ => 0.0) (fun _ => 0.0) (initState d) := rfl
  obtain ⟨a', b', e⟩ := sweeps_withPred m rs d xp cp fuel d.NGIBBS.toNat
    (fun _ => 0.0) (fun _ => 0.0) (initState d)
  have hg : gibbs m rs (withPredInputs d xp cp) fuel
      = (gibbs m rs d fuel).map (withPred a' b') := by
    unfold gibbs
    rw [hinit]
    exact e
  refine ⟨fun h => ?_, fun s1 h => ?_, fun s => ⟨_, rfl⟩⟩
  · rw [hg, h]
    rfl
  · rw [hg, h]
    exact ⟨_, rfl, rfl, rfl, rfl, rfl, rfl, rfl, rfl, rfl, rfl⟩

/-- C16 on the example data (`NGIBBS = 100`): the run with the prediction row moved from
cell 2 to cell 0 and its covariate changed from 1 to 5 returns, as the original run does,
with the same beta trace and the same deviance trace. -/
theorem prediction_noninterference_witness :
    ∃ (m : CMath ℝ) (s1 s2 : State ℝ), IsRealMath m ∧
      gibbs m exStream exInputs 1 = some s1 ∧
      gibbs m exStream (withPredInputs exInputs (fun _ _ => 5) (fun _ => 0)) 1 = some s2 ∧
      s2.beta_vect = s1.beta_vect ∧ s2.Deviance_vect = s1.Deviance_vect := by
  have hm : IsRealMath ⟨Real.exp, Real.log, Real.sqrt, fun x y => x ^ y, fun x => ⌊x⌋,
      2147483647⟩ := ⟨rfl, rfl, rfl, fun _ _ => rfl, fun _ => rfl⟩
  obtain ⟨s1, hs1⟩ := sweeps_exInputs
    (⟨Real.exp, Real.log, Real.sqrt, fun x y => x ^ y, fun x => ⌊x⌋, 2147483647⟩ : CMath ℝ)
    rfl (initState exInputs) 100 (le_refl 100)
  have hs1' : gibbs (⟨Real.exp, Real.log, Real.sqrt, fun x y => x ^ y, fun x => ⌊x⌋,
      2147483647⟩ : CMath ℝ) exStream exInputs 1 = some s1 := hs1
  obtain ⟨s2, hs2, hb, -, -, hd, -⟩ := (prediction_noninterference _ exStream exInputs
    (fun _ _ => 5) (fun _ => 0) 1).2.1 s1 hs1'
  exact ⟨_, s1, s2, hm, hs1', hs2, hb, hd⟩

/-! ### The running means -/

/-- The loop `a[n] += f n` over `n < N` adds `f n` to the first `N` entries. -/
theorem foldl_range_update_add {α : Type} [LinearOrderedField α] (f : Nat → α)
    (r : Int → α) (N n0 : Nat) :
    (List.range N).foldl (fun a (n : Nat) => Function.update a (n : Int) (a (n : Int) + f n)) r
        (n0 : Int)
      = if n0 < N then r (n0 : Int) + f n0 else r (n0 : Int) := by
  induction N with
  | zero => simp
  | succ N ih =>
    rw [List.range_succ, List.foldl_append]
    simp only [List.foldl_cons, List.foldl_nil]
    by_cases hj : n0 = N
    · subst hj
      rw [Function.update_same, ih]
      simp
    · have hne : (n0 : Int) ≠ (N : Int) := by exact_mod_cast hj
      rw [Function.update_noteq hne, ih]
      by_cases hlt : n0 < N
      · simp [hlt, Nat.lt_succ_of_lt hlt]
      · have : ¬ n0 < N + 1 := by omega
        simp [hlt, this]

/-- What an output step that returns adds to the running means. -/
theorem recordStep_means {α : Type} [LinearOrderedField α] (d : Inputs α) (g : Nat)
    (s s' : State α) (h : recordStep d g s = some s') :
    (∀ n, n < d.NOBS → s'.theta_latent_vect (n : Int)
      = s.theta_latent_vect (n : Int) + (if records d.NBURN d.NTHIN g = true then
          s.theta_run n / (NSAMP d.NGIBBS d.NBURN d.NTHIN : α) else 0)) ∧
    (d.save_rho = 0 → ∀ i, i < d.NCELL → s'.rho_vect (i : Int)
      = s.rho_vect (i : Int) + (if records d.NBURN d.NTHIN g = true then
          s.rho_run i / (NSAMP d.NGIBBS d.NBURN d.NTHIN : α) else 0)) ∧
    (d.save_p = 0 → ∀ mm, mm < d.NPRED → s'.theta_pred_vect (mm : Int)
      = s.theta_pred_vect (mm : Int) + (if records d.NBURN d.NTHIN g = true then
          s.theta_pred_run mm / (NSAMP d.NGIBBS d.NBURN d.NTHIN : α) else 0)) := by
  unfold recordStep at h
  by_cases hr : records d.NBURN d.NTHIN g = true
  · rw [if_pos hr] at h
    dsimp only at h
    by_cases hb : isamp d.NBURN d.NTHIN g - 1 < 0 ∨
        NSAMP d.NGIBBS d.NBURN d.NTHIN ≤ isamp d.NBURN d.NTHIN g - 1
    · rw [if_pos hb] at h
      cases h
    rw [if_neg hb] at h
    have e := (Option.some.inj h).symm
    subst e
    simp only [hr, if_true]
    refine ⟨fun n hn => ?_, fun h0 i hi => ?_, fun h0 mm hmm => ?_⟩
    · rw [foldl_range_update_add (fun n => s.theta_run n / (NSAMP d.NGIBBS d.NBURN d.NTHIN : α)),
        if_pos hn]
    · have h1 : ¬ d.save_rho = 1 := by omega
      rw [if_neg h1, if_pos h0,
        foldl_range_update_add (fun i => s.rho_run i / (NSAMP d.NGIBBS d.NBURN d.NTHIN : α)),
        if_pos hi]
    · have h1 : ¬ d.save_p = 1 := by omega
      rw [if_neg h1, if_pos h0,
        foldl_range_update_add
          (fun mm => s.theta_pred_run mm / (NSAMP d.NGIBBS d.NBURN d.NTHIN : α)),
        if_pos hmm]
  · rw [if_neg hr] at h
    have e := (Option.some.inj h).symm
    subst e
    simp only [if_neg hr, add_zero]
    exact ⟨fun _ _ => trivial, fun _ _ _ => trivial, fun _ _ _ => trivial⟩

/-- What one sweep adds to the running means, in terms of the state it leaves. -/
theorem sweep_means {α : Type} [LinearOrderedField α] (m : CMath α) (rs : Nat → Nat)
    (d : Inputs α) (fuel : Nat) (s s' : State α) (g : Nat)
    (h : sweep m rs d fuel s g = some s') :
    (∀ n, n < d.NOBS → s'.theta_latent_vect (n : Int)
      = s.theta_latent_vect (n : Int) + (if records d.NBURN d.NTHIN g = true then
          s'.theta_run n / (NSAMP d.NGIBBS d.NBURN d.NTHIN : α) else 0)) ∧
    (d.save_rho = 0 → ∀ i, i < d.NCELL → s'.rho_vect (i : Int)
      = s.rho_vect (i : Int) + (if records d.NBURN d.NTHIN g = true then
          s'.rho_run i / (NSAMP d.NGIBBS d.NBURN d.NTHIN : α) else 0)) ∧
    (d.save_p = 0 → ∀ mm, mm < d.NPRED → s'.theta_pred_vect (mm : Int)
      = s.theta_pred_vect (mm : Int) + (if records d.NBURN d.NTHIN g = true then
          s'.theta_pred_run mm / (NSAMP d.NGIBBS d.NBURN d.NTHIN : α) else 0)) := by
  obtain ⟨st1, st2, st3, st4, h1, h2, h3, hr4, h4, -⟩ := sweep_steps m rs d fuel s s' g h
  obtain ⟨br, na, k, e1⟩ := betaStep_shape m rs d fuel s st1 h1
  obtain ⟨rr, na2, k2, e2, -⟩ := rhoStep_shape m rs d fuel _ st2 h2
  obtain ⟨v, k3, e3⟩ := vrhoStep_shape m rs d fuel _ st3 h3
  obtain ⟨ab, sb, nb, ar, sr, nr, e4, -⟩ := adaptStep_shape d g _ s' h4
  obtain ⟨bv, rv, vv, dv, tl, tp, hrec⟩ := recordStep_shape d g _ st4 hr4
  obtain ⟨hA, hB, hC⟩ := recordStep_means d g (predStep m d (devianceStep m d st3)) st4 hr4
  have f1 : (predStep m d (devianceStep m d st3)).theta_latent_vect = s.theta_latent_vect := by
    show st3.theta_latent_vect = s.theta_latent_vect
    rw [e3, e2, e1]
  have f2 : (predStep m d (devianceStep m d st3)).rho_vect = s.rho_vect := by
    show st3.rho_vect = s.rho_vect
    rw [e3, e2, e1]
  have f3 : (predStep m d (devianceStep m d st3)).theta_pred_vect = s.theta_pred_vect := by
    show st3.theta_pred_vect = s.theta_pred_vect
    rw [e3, e2, e1]
  have g1 : s'.theta_run = (predStep m d (devianceStep m d st3)).theta_run := by
    rw [e4, hrec]
  have g2 : s'.rho_run = (predStep m d (devianceStep m d st3)).rho_run := by
    rw [e4, hrec]
  have g3 : s'.theta_pred_run = (predStep m d (devianceStep m d st3)).theta_pred_run := by
    rw [e4, hrec]
  have k1 : s'.theta_latent_vect = st4.theta_latent_vect := by
    rw [e4]
  have k2 : s'.rho_vect = st4.rho_vect := by
    rw [e4]
  have k3 : s'.theta_pred_vect = st4.theta_pred_vect := by
    rw [e4]
  refine ⟨fun n hn => ?_, fun h0 i hi => ?_, fun h0 mm hmm => ?_⟩
  · rw [k1, hA n hn, f1, g1]
  · rw [k2, hB h0 i hi, f2, g2]
  · rw [k3, hC h0 mm hmm, f3, g3]

/-- An accumulator that is 0 in the initial state and to which every recording sweep adds
the value `val / c` of the state it leaves holds, after the sweeps `0, …, k-1`, the sum of
those values over the recording sweeps below `k`, divided by `c`. -/
theorem sweeps_running_sum {α : Type} [LinearOrderedField α] (m : CMath α) (rs : Nat → Nat)
    (d : Inputs α) (fuel : Nat) (acc val : State α → α) (c : α)
    (h0 : acc (initState d) = 0)
    (hstep : ∀ s s' g, sweep m rs d fuel s g = some s' →
      acc s' = acc s + (if records d.NBURN d.NTHIN g = true then val s' / c else 0))
    (k : Nat) (s : State α) (h : sweeps m rs d fuel (initState d) k = some s) :
    acc s = (∑ g in (Finset.range k).filter (fun g => records d.NBURN d.NTHIN g = true),
      perSweep m rs d fuel val g) / c := by
  induction k generalizing s with
  | zero =>
    have : s = initState d := by
      have h' : some (initState d) = some s := h
      exact (Option.some.inj h').symm
    rw [this, h0]
    simp
  | succ k ih =>
    have hk := h
    rw [sweeps_succ] at h
    cases hs : sweeps m rs d fuel (initState d) k with
    | none => rw [hs] at h; cases h
    | some s0 =>
      rw [hs] at h
      have hsw : sweep m rs d fuel s0 k = some s := h
      rw [hstep s0 s k hsw, ih s0 hs, Finset.range_succ, Finset.filter_insert]
      have hval : perSweep m rs d fuel val k = val s := by
        unfold perSweep
        rw [hk]
      by_cases hr : records d.NBURN d.NTHIN k = true
      · rw [if_pos hr, if_pos hr, Finset.sum_insert (by simp), hval]
        ring
      · rw [if_neg hr, if_neg hr, add_zero]

/-- C12 (amended): with NTHIN ≥ 1 and NBURN ≥ 0 (the dimensions are positive), NTHIN
dividing NGIBBS − NBURN and NBURN, and NSAMP ≥ 1, every recording sweep of the run stores
at a position inside the traces (`0 ≤ isamp-1 < NSAMP`), there are NSAMP recording sweeps,
and when the run returns (which needs `NGIBBS/100 ≠ 0`) each running-mean output (the
latent theta of every observation; rho of every cell when `save_rho = 0`; the predictive
theta of every prediction row when `save_p = 0`) is the arithmetic mean, over exactly the
recording sweeps, of the value that the sweep leaves (`theta_run[n]`, `rho_run[i]`,
`theta_pred_run[m]`). -/
theorem running_means {α : Type} [LinearOrderedField α] (m : CMath α) (rs : Nat → Nat)
    (d : Inputs α) (fuel : Nat) (hT : 1 ≤ d.NTHIN) (hB : 0 ≤ d.NBURN)
    (hdvd : d.NTHIN ∣ d.NGIBBS - d.NBURN) (hdvdB : d.NTHIN ∣ d.NBURN)
    (hS : 1 ≤ NSAMP d.NGIBBS d.NBURN d.NTHIN)
    (st' : State α) (h : gibbs m rs d fuel = some st') :
    (∀ n, n < d.NOBS → st'.theta_latent_vect (n : Int)
      = recordingMean d (perSweep m rs d fuel (fun s => s.theta_run n))) ∧
    (d.save_rho = 0 → ∀ i, i < d.NCELL → st'.rho_vect (i : Int)
      = recordingMean d (perSweep m rs d fuel (fun s => s.rho_run i))) ∧
    (d.save_p = 0 → ∀ mm, mm < d.NPRED → st'.theta_pred_vect (mm : Int)
      = recordingMean d (perSweep m rs d fuel (fun s => s.theta_pred_run mm))) ∧
    (nRecorded d.NGIBBS d.NBURN d.NTHIN : Int) = NSAMP d.NGIBBS d.NBURN d.NTHIN ∧
    (∀ g : Nat, (g : Int) < d.NGIBBS → records d.NBURN d.NTHIN g = true →
      0 ≤ isamp d.NBURN d.NTHIN g - 1 ∧
        isamp d.NBURN d.NTHIN g - 1 < NSAMP d.NGIBBS d.NBURN d.NTHIN) ∧
    d.NGIBBS.tdiv 100 ≠ 0 := by
  have hBN1 : d.NBURN + 1 ≤ d.NGIBBS := by
    obtain ⟨k, hk⟩ := hdvd
    have hk1 : 1 ≤ k := by
      unfold NSAMP at hS
      rw [hk, Int.mul_tdiv_cancel_left _ (by omega)] at hS
      exact hS
    have : d.NTHIN * 1 ≤ d.NTHIN * k := Int.mul_le_mul_of_nonneg_left hk1 (by omega)
    omega
  have hBN : d.NBURN ≤ d.NGIBBS := by omega
  have hP : d.NGIBBS.tdiv 100 ≠ 0 := by
    obtain ⟨s, s1, -, hs1⟩ := sweeps_prefix m rs d fuel (initState d) st' d.NGIBBS.toNat h 0
      (by omega)
    obtain ⟨_, _, _, _, -, -, -, -, -, hP⟩ := sweep_steps m rs d fuel s s1 0 hs1
    exact hP
  have hc := nRecorded_cast d.NGIBBS d.NBURN d.NTHIN hT hB hBN hdvd
  have hcα : ((nRecorded d.NGIBBS d.NBURN d.NTHIN : Nat) : α)
      = ((NSAMP d.NGIBBS d.NBURN d.NTHIN : Int) : α) := by
    rw [← hc, Int.cast_natCast]
  have h' : sweeps m rs d fuel (initState d) d.NGIBBS.toNat = some st' := h
  refine ⟨fun n hn => ?_, fun h0 i hi => ?_, fun h0 mm hmm => ?_, hc, fun g hg hr =>
    isamp_in_bounds d.NGIBBS d.NBURN d.NTHIN hB (by omega) hBN hdvd hdvdB g hg hr, hP⟩
  · unfold recordingMean
    rw [hcα]
    exact sweeps_running_sum m rs d fuel (fun s => s.theta_latent_vect (n : Int))
      (fun s => s.theta_run n) _ (by simp only [initState]; norm_num)
      (fun s s' g hs => (sweep_means m rs d fuel s s' g hs).1 n hn) _ st' h'
  · unfold recordingMean
    rw [hcα]
    exact sweeps_running_sum m rs d fuel (fun s => s.rho_vect (i : Int))
      (fun s => s.rho_run i) _ (by simp only [initState]; norm_num)
      (fun s s' g hs => (sweep_means m rs d fuel s s' g hs).2.1 h0 i hi) _ st' h'
  · unfold recordingMean
    rw [hcα]
    exact sweeps_running_sum m rs d fuel (fun s => s.theta_pred_vect (mm : Int))
      (fun s => s.theta_pred_run mm) _ (by simp only [initState]; norm_num)
      (fun s s' g hs => (sweep_means m rs d fuel s s' g hs).2.2 h0 mm hmm) _ st' h'

/-- C12 (amended) on the example data (NGIBBS = 100, NBURN = 10, NTHIN = 5,
`save_rho = 0`, `save_p = 0`): the run returns, eighteen sweeps record, and the latent
theta of observation 0, the rho of cell 2 and the predictive theta of row 0 are the means
over those sweeps. -/
theorem running_means_witness :
    ∃ (m : CMath ℝ) (st' : State ℝ), IsRealMath m ∧ gibbs m exStream exInputs 1 = some st' ∧
      nRecorded (exInputs : Inputs ℝ).NGIBBS (exInputs : Inputs ℝ).NBURN
        (exInputs : Inputs ℝ).NTHIN = 18 ∧
      st'.theta_latent_vect 0
        = recordingMean exInputs (perSweep m exStream exInputs 1 (fun s => s.theta_run 0)) ∧
      st'.rho_vect 2
        = recordingMean exInputs (perSweep m exStream exInputs 1 (fun s => s.rho_run 2)) ∧
      st'.theta_pred_vect 0
        = recordingMean exInputs
            (perSweep m exStream exInputs 1 (fun s => s.theta_pred_run 0)) := by
  have hm : IsRealMath ⟨Real.exp, Real.log, Real.sqrt, fun x y => x ^ y, fun x => ⌊x⌋,
      2147483647⟩ := ⟨rfl, rfl, rfl, fun _ _ => rfl, fun _ => rfl⟩
  obtain ⟨st', hst'⟩ := sweeps_exInputs
    (⟨Real.exp, Real.log, Real.sqrt, fun x y => x ^ y, fun x => ⌊x⌋, 2147483647⟩ : CMath ℝ)
    rfl (initState exInputs) 100 (le_refl 100)
  have hg : gibbs (⟨Real.exp, Real.log, Real.sqrt, fun x y => x ^ y, fun x => ⌊x⌋,
      2147483647⟩ : CMath ℝ) exStream exInputs 1 = some st' := hst'
  obtain ⟨k1, k2, k3, k4, -, -⟩ := running_means _ exStream exInputs 1 (by decide) (by decide)
    (by decide) (by decide) (by decide) st' hg
  refine ⟨_, st', hm, hg, ?_, ?_, ?_, ?_⟩
  · have : NSAMP (exInputs : Inputs ℝ).NGIBBS (exInputs : Inputs ℝ).NBURN
        (exInputs : Inputs ℝ).NTHIN = 18 := by decide
    rw [this] at k4
    exact_mod_cast k4
  · exact k1 0 (by simp [exInputs])
  · exact k2 rfl 2 (by simp [exInputs])
  · exact k3 rfl 0 (by simp [exInputs])

/-- C12 fails as stated: on the example data with NGIBBS = 103 and NBURN = 98 (NTHIN = 5
divides NGIBBS − NBURN, NSAMP = 1, and neither `NGIBBS/100` nor `DIV` is 0), with the
stream `exStream`, the sweeps 0 to 98 return, the sweep g = 99 records at the position
`isamp-1 = -1`, outside the traces of NSAMP entries, so that its output step, the sweep and
the run do not return: no running mean is output. -/
theorem running_means_counterexample :
    ∃ (m : CMath ℝ) (s : State ℝ), IsRealMath m ∧
      1 ≤ (oobInputs : Inputs ℝ).NTHIN ∧ 0 ≤ (oobInputs : Inputs ℝ).NBURN ∧
      (oobInputs : Inputs ℝ).NTHIN ∣ (oobInputs : Inputs ℝ).NGIBBS - (oobInputs : Inputs ℝ).NBURN ∧
      NSAMP (oobInputs : Inputs ℝ).NGIBBS (oobInputs : Inputs ℝ).NBURN
        (oobInputs : Inputs ℝ).NTHIN = 1 ∧
      (oobInputs : Inputs ℝ).NGIBBS.tdiv 100 = 1 ∧ DIV (oobInputs : Inputs ℝ).NGIBBS = 10 ∧
      sweeps m exStream oobInputs 1 (initState oobInputs) 99 = some s ∧
      records (oobInputs : Inputs ℝ).NBURN (oobInputs : Inputs ℝ).NTHIN 99 = true ∧
      isamp (oobInputs : Inputs ℝ).NBURN (oobInputs : Inputs ℝ).NTHIN 99 - 1 = -1 ∧
      (∀ s' : State ℝ, recordStep oobInputs 99 s' = none) ∧
      sweep m exStream oobInputs 1 s 99 = none ∧
      gibbs m exStream oobInputs 1 = none := by
  have hm : IsRealMath ⟨Real.exp, Real.log, Real.sqrt, fun x y => x ^ y, fun x => ⌊x⌋,
      2147483647⟩ := ⟨rfl, rfl, rfl, fun _ _ => rfl, fun _ => rfl⟩
  have hno : ∀ g, g < 99 →
      records (oobInputs : Inputs ℝ).NBURN (oobInputs : Inputs ℝ).NTHIN g = true →
      0 ≤ isamp (oobInputs : Inputs ℝ).NBURN (oobInputs : Inputs ℝ).NTHIN g - 1 ∧
        isamp (oobInputs : Inputs ℝ).NBURN (oobInputs : Inputs ℝ).NTHIN g - 1
          < NSAMP (oobInputs : Inputs ℝ).NGIBBS (oobInputs : Inputs ℝ).NBURN
              (oobInputs : Inputs ℝ).NTHIN := by
    intro g hg hr
    have hr' : records ((98 : Nat) : Int) ((5 : Nat) : Int) g = true := hr
    rw [records_iff] at hr'
    omega
  obtain ⟨s, hs⟩ := sweeps_exStream
    (⟨Real.exp, Real.log, Real.sqrt, fun x y => x ^ y, fun x => ⌊x⌋, 2147483647⟩ : CMath ℝ)
    rfl oobInputs (by norm_num [oobInputs, exInputs]) (show DIV 103 ≠ 0 by decide)
    (show (103 : Int).tdiv 100 ≠ 0 by decide) (initState oobInputs) 99 hno
  have hrec : records (oobInputs : Inputs ℝ).NBURN (oobInputs : Inputs ℝ).NTHIN 99 = true := by
    decide
  have hpos : isamp (oobInputs : Inputs ℝ).NBURN (oobInputs : Inputs ℝ).NTHIN 99 - 1 = -1 := by
    decide
  have hstep : ∀ s' : State ℝ, recordStep oobInputs 99 s' = none := by
    intro s'
    cases h : recordStep oobInputs 99 s' with
    | none => rfl
    | some s1 =>
      have := (recordStep_isSome oobInputs 99 s').mp ⟨s1, h⟩ hrec
      rw [hpos] at this
      omega
  have hsweep : ∀ s0 : State ℝ, sweep (⟨Real.exp, Real.log, Real.sqrt, fun x y => x ^ y,
      fun x => ⌊x⌋, 2147483647⟩ : CMath ℝ) exStream oobInputs 1 s0 99 = none := by
    intro s0
    cases h : sweep (⟨Real.exp, Real.log, Real.sqrt, fun x y => x ^ y,
      fun x => ⌊x⌋, 2147483647⟩ : CMath ℝ) exStream oobInputs 1 s0 99 with
    | none => rfl
    | some s1 =>
      have := sweep_in_bounds _ exStream oobInputs 1 s0 s1 99 h hrec
      rw [hpos] at this
      omega
  have hrun : gibbs (⟨Real.exp, Real.log, Real.sqrt, fun x y => x ^ y,
      fun x => ⌊x⌋, 2147483647⟩ : CMath ℝ) exStream oobInputs 1 = none := by
    cases h : gibbs (⟨Real.exp, Real.log, Real.sqrt, fun x y => x ^ y,
      fun x => ⌊x⌋, 2147483647⟩ : CMath ℝ) exStream oobInputs 1 with
    | none => rfl
    | some s1 =>
      obtain ⟨a, b, -, hb⟩ := sweeps_prefix _ exStream oobInputs 1 (initState oobInputs) s1
        103 h 99 (by decide)
      rw [hsweep a] at hb
      cases hb
  exact ⟨_, s, hm, by decide, by decide, by decide, by decide, by decide, by decide, hs, hrec,
    hpos, hstep, hsweep s, hrun⟩

/-! ### The table of cumulative weights of `integer` -/

/-- For an integer shape `n` and a positive rate the weights `wl[1..n]` are positive. -/
theorem integer_wl_pos {α : Type} [LinearOrderedField α] (n : Nat) (b : α) (hb : 0 < b)
    (i : Nat) (h1 : 1 ≤ i) (hn : i ≤ n) : 0 < integer_wl (n : α) b i := by
  induction i with
  | zero => omega
  | succ i ih =>
    cases i with
    | zero =>
      show (0 : α) < 1.0
      norm_num
    | succ i =>
      have hprev := ih (by omega) (by omega)
      have hfac : (0 : α) < (n : α) - ((i + 2 : Nat) : α) + 1 := by
        have h : ((i + 2 : Nat) : α) ≤ (n : α) := by exact_mod_cast hn
        linarith
      show 0 < integer_wl (n : α) b (i + 1) * ((n : α) - ((i + 2 : Nat) : α) + 1) / b
      exact div_pos (mul_pos hprev hfac) hb

/-- The cumulative weights before normalisation are positive and increase strictly. -/
theorem integer_wlc0_pos {α : Type} [LinearOrderedField α] (n : Nat) (b : α) (hb : 0 < b)
    (i : Nat) (h1 : 1 ≤ i) (hn : i ≤ n) :
    0 < integer_wlc0 (n : α) b i ∧
      (i + 1 ≤ n → integer_wlc0 (n : α) b i < integer_wlc0 (n : α) b (i + 1)) := by
  have hstep : ∀ j, 1 ≤ j → j + 1 ≤ n →
      integer_wlc0 (n : α) b (j + 1) = integer_wlc0 (n : α) b j + integer_wl (n : α) b (j + 1) := by
    intro j hj _
    cases j with
    | zero => omega
    | succ j => rfl
  have hpos : ∀ j, 1 ≤ j → j ≤ n → 0 < integer_wlc0 (n : α) b j := by
    intro j
    induction j with
    | zero => intro h; omega
    | succ j ih =>
      intro _ hjn
      cases j with
      | zero =>
        show (0 : α) < 1.0
        norm_num
      | succ j =>
        rw [hstep (j + 1) (by omega) hjn]
        have := ih (by omega) (by omega)
        have := integer_wl_pos n b hb (j + 1 + 1) (by omega) hjn
        linarith
  refine ⟨hpos i h1 hn, fun hi => ?_⟩
  rw [hstep i h1 hi]
  have := integer_wl_pos n b hb (i + 1) (by omega) hi
  linarith

/-- The cumulative weights before normalisation are non-decreasing on `1..n`. -/
theorem integer_wlc0_mono {α : Type} [LinearOrderedField α] (n : Nat) (b : α) (hb : 0 < b)
    (i j : Nat) (h1 : 1 ≤ i) (hij : i ≤ j) (hn : j ≤ n) :
    integer_wlc0 (n : α) b i ≤ integer_wlc0 (n : α) b j := by
  induction j with
  | zero => omega
  | succ j ih =>
    rcases Nat.lt_or_ge i (j + 1) with h | h
    · have h2 := ih (by omega) (by omega)
      have h3 := (integer_wlc0_pos n b hb j (by omega) (by omega)).2 hn
      linarith
    · have : i = j + 1 := by omega
      rw [this]

/-- The search of `integer` from an index `i` at most `n`, run at least `n - i + 1` times
on a table that ends at a value not below `u`, stops at an index between `i` and `n`. -/
theorem integer_search_some {α : Type} [LinearOrderedField α] (wlc : Nat → α) (n : Nat)
    (u : α) (hu : u ≤ wlc n) (fuel i : Nat) (hi : i ≤ n) (hf : n + 1 ≤ fuel + i) :
    ∃ j, integer_search wlc n u fuel i = some j ∧ i ≤ j ∧ j ≤ n ∧ u ≤ wlc j := by
  induction fuel generalizing i with
  | zero => omega
  | succ fuel ih =>
    unfold integer_search
    rw [if_neg (by omega)]
    by_cases hgt : u > wlc i
    · rw [if_pos hgt]
      have hne : i ≠ n := by
        rintro rfl
        exact absurd hu (not_le.mpr hgt)
      obtain ⟨j, hj, h1, h2, h3⟩ := ih (i + 1) (by omega) (by omega)
      exact ⟨j, hj, by omega, h2, h3⟩
    · rw [if_neg hgt]
      exact ⟨i, rfl, le_refl i, hi, not_lt.mp hgt⟩

/-- C23: for an integer-valued shape `a = n ≥ 1` and a rate `b > 0`, the normalised
cumulative weights `wlc[1..n]` of `integer (a, b)` are strictly positive, non-decreasing
and end at `wlc[n] = 1`; so for every uniform draw `u < 1` the search
`while (u > wlc[i])` stops at an index `i` with `1 ≤ i ≤ n`, `u ≤ wlc[i]`, without reading
past entry `n` of the table. -/
theorem integer_table_search {α : Type} [LinearOrderedField α] (n : Nat) (b u : α)
    (hn : 1 ≤ n) (hb : 0 < b) (_hu0 : 0 < u) (hu1 : u < 1) :
    (∀ i, 1 ≤ i → i ≤ n → 0 < integer_wlc (n : α) b n i) ∧
    (∀ i j, 1 ≤ i → i ≤ j → j ≤ n → integer_wlc (n : α) b n i ≤ integer_wlc (n : α) b n j) ∧
    integer_wlc (n : α) b n n = 1 ∧
    (∃ i, integer_search (integer_wlc (n : α) b n) n u n 1 = some i ∧ 1 ≤ i ∧ i ≤ n ∧
      u ≤ integer_wlc (n : α) b n i) := by
  have htot : 0 < integer_wlc0 (n : α) b n := (integer_wlc0_pos n b hb n hn (le_refl n)).1
  have hlast : integer_wlc (n : α) b n n = 1 := by
    unfold integer_wlc
    exact div_self htot.ne'
  refine ⟨fun i h1 hi => ?_, fun i j h1 hij hj => ?_, hlast, ?_⟩
  · unfold integer_wlc
    exact div_pos (integer_wlc0_pos n b hb i h1 hi).1 htot
  · unfold integer_wlc
    exact div_le_div_of_nonneg_right (integer_wlc0_mono n b hb i j h1 hij hj) htot.le
  · exact integer_search_some (integer_wlc (n : α) b n) n u (by rw [hlast]; exact hu1.le) n 1
      hn (by omega)

/-- C23 for the shape 3 and the rate 2 over the rationals: the weights are 1, 1, 1/2, the
table is 2/5, 4/5, 1, and the draw u = 1/2 stops the search at index 2. -/
theorem integer_table_search_witness :
    integer_wlc (3 : ℚ) 2 3 1 = 2 / 5 ∧ integer_wlc (3 : ℚ) 2 3 2 = 4 / 5 ∧
      integer_wlc (3 : ℚ) 2 3 3 = 1 ∧
      integer_search (integer_wlc (3 : ℚ) 2 3) 3 (1 / 2) 3 1 = some 2 := by
  have key := integer_table_search (3 : Nat) (2 : ℚ) (1 / 2) (by decide) (by norm_num)
    (by norm_num) (by norm_num)
  have e1 : integer_wlc (3 : ℚ) 2 3 1 = 2 / 5 := by
    simp only [integer_wlc, integer_wlc0, integer_wl]
    norm_num
  have e2 : integer_wlc (3 : ℚ) 2 3 2 = 4 / 5 := by
    simp only [integer_wlc, integer_wlc0, integer_wl]
    norm_num
  have e3 : integer_wlc ((3 : Nat) : ℚ) 2 3 3 = 1 := key.2.2.1
  refine ⟨e1, e2, by exact_mod_cast e3, ?_⟩
  simp only [integer_search]
  rw [e1, e2]
  norm_num

/-- For an integer-valued shape `n ≥ 1` and a positive rate, `integer` never reads outside
its table: it is the draw `myrgamma1 (i) / b + 1` for the index `i` of `1..n` found by the
search. -/
theorem integer_in_bounds (m : CMath ℝ) (hm : IsRealMath m) (rs : Nat → Nat)
    (hrs : ∀ k, rs k ≤ m.RAND_MAX) (n : Nat) (hn : 1 ≤ n) (b : ℝ) (hb : 0 < b)
    (fuel k : Nat) :
    ∃ i, 1 ≤ i ∧ i ≤ n ∧ integer m rs (n : ℝ) b fuel k =
      match myrgamma1 m rs ((i : Nat) : ℝ) fuel (k + 1) with
      | none => none
      | some (g, k') => some (g / b + 1.0, k') := by
  obtain ⟨-, hu1⟩ := myrunif_mem m rs hrs k
  have htot : 0 < integer_wlc0 (n : ℝ) b n := (integer_wlc0_pos n b hb n hn (le_refl n)).1
  have hlast : integer_wlc (n : ℝ) b n n = 1 := by
    unfold integer_wlc
    exact div_self htot.ne'
  obtain ⟨i, hi, h1, h2, -⟩ := integer_search_some (integer_wlc (n : ℝ) b n) n
    (myrunif m rs k).1 (by rw [hlast]; exact hu1.le) n 1 hn (by omega)
  have hfl : (cInt m (n : ℝ)).toNat = n := by
    unfold cInt
    rw [if_pos (Nat.cast_nonneg n), hm.2.2.2.2, Int.floor_natCast]
    rfl
  refine ⟨i, h1, h2, ?_⟩
  unfold integer
  simp only [hfl, hi, if_neg (show ¬ n < 1 by omega)]
  cases myrgamma1 m rs ((i : Nat) : ℝ) fuel (k + 1) with
  | none => rfl
  | some gk => rfl

/-! ### The acceptance counters, the window rates and the proposal scales -/

/-- A loop in the option monad over `0, …, n-1` whose iteration `p` changes the entry `p`
of an array only, by a step of the reflexive relation `R p`: every entry has made at most
one step, and the entries from `n` on are unchanged. -/
theorem foldlM_range_pointwise {σ β : Type} (F : σ → Nat → Option σ) (get : σ → Nat → β)
    (R : Nat → β → β → Prop) (hrefl : ∀ q b, R q b b)
    (hF : ∀ s p s', F s p = some s' →
      R p (get s p) (get s' p) ∧ ∀ q, q ≠ p → get s' q = get s q)
    (n : Nat) (s s' : σ) (h : (List.range n).foldlM F s = some s') (q : Nat) :
    R q (get s q) (get s' q) ∧ (n ≤ q → get s' q = get s q) := by
  induction n generalizing s' with
  | zero =>
    simp only [List.range_zero, List.foldlM_nil, Option.pure_def, Option.some.injEq] at h
    subst h
    exact ⟨hrefl _ _, fun _ => rfl⟩
  | succ n ih =>
    rw [List.range_succ, List.foldlM_append] at h
    simp only [Option.bind_eq_bind, Option.bind_eq_some, List.foldlM_cons, List.foldlM_nil,
      Option.pure_def] at h
    obtain ⟨s1, h1, s2, h2, h3⟩ := h
    have h3' : s2 = s' := Option.some.inj h3
    subst h3'
    obtain ⟨i1, i2⟩ := ih s1 h1
    obtain ⟨f1, f2⟩ := hF s1 n s2 h2
    by_cases hq : q = n
    · subst hq
      have e := i2 (le_refl q)
      rw [e] at f1
      exact ⟨f1, fun hh => absurd hh (by omega)⟩
    · rw [f2 q hq]
      exact ⟨i1, fun hh => i2 (by omega)⟩

/-- A loop over `0, …, n-1` whose iteration `p` replaces the entry `p` of an array by
`G p` of its value: the entries below `n` are replaced, the others unchanged. -/
theorem foldl_range_pointwise {σ β : Type} (F : σ → Nat → σ) (get : σ → Nat → β)
    (G : Nat → β → β)
    (hF : ∀ s p q, get (F s p) q = if q = p then G p (get s p) else get s q)
    (n : Nat) (s : σ) (q : Nat) :
    get ((List.range n).foldl F s) q = if q < n then G q (get s q) else get s q := by
  induction n with
  | zero => simp
  | succ n ih =>
    rw [List.range_succ, List.foldl_append]
    simp only [List.foldl_cons, List.foldl_nil]
    rw [hF]
    by_cases hq : q = n
    · subst hq
      rw [if_pos rfl, ih, if_neg (lt_irrefl q), if_pos (Nat.lt_succ_self q)]
    · rw [if_neg hq, ih]
      by_cases hlt : q < n
      · rw [if_pos hlt, if_pos (Nat.lt_succ_of_lt hlt)]
      · rw [if_neg hlt, if_neg (by omega)]

/-- A Metropolis update of `beta[p]` leaves the counter `nA_beta[p]` or adds one to it,
and leaves the other counters. -/
theorem betaUpdate_counter {α : Type} [LinearOrderedField α] (m : CMath α) (rs : Nat → Nat)
    (d : Inputs α) (fuel : Nat) (st st' : State α) (p : Nat)
    (h : betaUpdate m rs d fuel st p = some st') :
    (st'.nA_beta p = st.nA_beta p ∨ st'.nA_beta p = st.nA_beta p + 1) ∧
      ∀ q, q ≠ p → st'.nA_beta q = st.nA_beta q := by
  unfold betaUpdate at h
  dsimp only at h
  split at h
  · cases h
  · split_ifs at h
    · have h' := (Option.some.inj h).symm
      subst h'
      exact ⟨Or.inr (Function.update_same _ _ _), fun q hq => Function.update_noteq hq _ _⟩
    · have h' := (Option.some.inj h).symm
      subst h'
      exact ⟨Or.inl rfl, fun q _ => rfl⟩

/-- The loop over the coefficients adds at most one to each counter `nA_beta[p]`, and
nothing from the index `NP` on. -/
theorem betaStep_counter {α : Type} [LinearOrderedField α] (m : CMath α) (rs : Nat → Nat)
    (d : Inputs α) (fuel : Nat) (st st' : State α)
    (h : betaStep m rs d fuel st = some st') (q : Nat) :
    (st'.nA_beta q = st.nA_beta q ∨ st'.nA_beta q = st.nA_beta q + 1) ∧
      (d.NP ≤ q → st'.nA_beta q = st.nA_beta q) :=
  foldlM_range_pointwise (betaUpdate m rs d fuel) (fun s q => s.nA_beta q)
    (fun _ a b => b = a ∨ b = a + 1) (fun _ _ => Or.inl rfl)
    (fun s p s' hs => betaUpdate_counter m rs d fuel s s' p hs) d.NP st st' h q

/-- An update of `rho[i]` leaves the counter `nA_rho[i]` or adds one to it, and leaves the
other counters. -/
theorem rhoUpdate_counter {α : Type} [LinearOrderedField α] (m : CMath α) (rs : Nat → Nat)
    (d : Inputs α) (fuel : Nat) (st st' : State α) (i : Nat)
    (h : rhoUpdate m rs d fuel st i = some st') :
    (st'.nA_rho i = st.nA_rho i ∨ st'.nA_rho i = st.nA_rho i + 1) ∧
      ∀ q, q ≠ i → st'.nA_rho q = st.nA_rho q := by
  unfold rhoUpdate at h
  split_ifs at h with hv
  · dsimp only at h
    split at h
    · cases h
    · split_ifs at h
      · have h' := (Option.some.inj h).symm
        subst h'
        exact ⟨Or.inr (Function.update_same _ _ _), fun q hq => Function.update_noteq hq _ _⟩
      · have h' := (Option.some.inj h).symm
        subst h'
        exact ⟨Or.inl rfl, fun q _ => rfl⟩
  · split at h
    · cases h
    · have h' := (Option.some.inj h).symm
      subst h'
      exact ⟨Or.inl rfl, fun q _ => rfl⟩

/-- The spatial-effect step adds at most one to each counter `nA_rho[i]`, and nothing from
the index `NCELL` on nor at a cell without observation. -/
theorem rhoStep_counter {α : Type} [LinearOrderedField α] (m : CMath α) (rs : Nat → Nat)
    (d : Inputs α) (fuel : Nat) (st st' : State α)
    (h : rhoStep m rs d fuel st = some st') (q : Nat) :
    (st'.nA_rho q = st.nA_rho q ∨ st'.nA_rho q = st.nA_rho q + 1) ∧
      (d.NCELL ≤ q → st'.nA_rho q = st.nA_rho q) ∧
      (¬ viscell d q > 0 → st'.nA_rho q = st.nA_rho q) := by
  obtain ⟨rr, na, k, e, hvis⟩ := rhoStep_shape m rs d fuel st st' h
  have hv : ¬ viscell d q > 0 → st'.nA_rho q = st.nA_rho q := by
    intro hq
    rw [e]
    exact hvis q hq
  unfold rhoStep at h
  split at h
  · cases h
  · rename_i s1 h1
    have h' := (Option.some.inj h).symm
    subst h'
    have key := foldlM_range_pointwise (rhoUpdate m rs d fuel) (fun s q => s.nA_rho q)
      (fun _ a b => b = a ∨ b = a + 1) (fun _ _ => Or.inl rfl)
      (fun s p s' hs => rhoUpdate_counter m rs d fuel s s' p hs) d.NCELL st s1 h1 q
    exact ⟨key.1, key.2, hv⟩
/-- The remainder `(g+1) % DIV` of C, for `DIV ≥ 1`: it lies in `[0, DIV)` and is 0 or one
more than `g % DIV`. -/
theorem tmod_succ (D : Int) (hD : 1 ≤ D) (g : Nat) :
    0 ≤ (g : Int).tmod D ∧ (g : Int).tmod D < D ∧
      (((g : Int) + 1).tmod D = 0 ∨ ((g : Int) + 1).tmod D = (g : Int).tmod D + 1) := by
  have hg : (0 : Int) ≤ (g : Int) := Int.ofNat_nonneg g
  rw [Int.tmod_eq_emod hg (by omega), Int.tmod_eq_emod (by omega) (by omega)]
  have h1 := Int.emod_nonneg (g : Int) (by omega : D ≠ 0)
  have h2 := Int.emod_lt_of_pos (g : Int) (by omega : 0 < D)
  refine ⟨h1, h2, ?_⟩
  have h3 := Int.emod_add_ediv (g : Int) D
  by_cases hr : (g : Int) % D + 1 = D
  · left
    have : (g : Int) + 1 = D * ((g : Int) / D + 1) := by
      rw [mul_add, mul_one]
      omega
    rw [this]
    exact Int.mul_emod_right _ _
  · right
    have : (g : Int) + 1 = ((g : Int) % D + 1) + D * ((g : Int) / D) := by omega
    rw [this, Int.add_mul_emod_self_left]
    exact Int.emod_eq_of_lt (by omega) (by omega)

/-- The window rate of a counter between 0 and `DIV` lies in `[0, 1]`. -/
theorem windowRate_mem {α : Type} [LinearOrderedField α] (n D : Int) (hD : 1 ≤ D)
    (h0 : 0 ≤ n) (h1 : n ≤ D) :
    (0 : α) ≤ windowRate n D ∧ (windowRate n D : α) ≤ 1 := by
  unfold windowRate
  have hDpos : (0 : α) < (D : α) := by exact_mod_cast (by omega : 0 < D)
  have hn0 : (0 : α) ≤ (n : α) := by exact_mod_cast h0
  have hn1 : (n : α) ≤ (D : α) := by exact_mod_cast h1
  exact ⟨div_nonneg hn0 hDpos.le, (div_le_one hDpos).mpr hn1⟩

/-- One adaptation from a rate in `[0, 1]` multiplies the scale by a factor in
`[1/2, 2]`. -/
theorem adaptScale_factor {α : Type} [LinearOrderedField α] (sigmap Ar : α)
    (h0 : 0 ≤ Ar) (h1 : Ar ≤ 1) :
    ∃ f : α, 1 / 2 ≤ f ∧ f ≤ 2 ∧ adaptScale sigmap Ar = sigmap * f := by
  unfold adaptScale ropt
  by_cases h : Ar ≥ (0.44 : α)
  · rw [if_pos h]
    refine ⟨2 - (1 - Ar) / (1 - 0.44), ?_, ?_, rfl⟩
    · have : (1 - Ar) / (1 - 0.44 : α) ≤ 1 := by
        rw [div_le_one (by norm_num)]
        linarith
      linarith
    · have : (0 : α) ≤ (1 - Ar) / (1 - 0.44 : α) := div_nonneg (by linarith) (by norm_num)
      linarith
  · rw [if_neg h]
    have hlt : Ar < (0.44 : α) := not_le.mp h
    have hq0 : (0 : α) ≤ Ar / 0.44 := div_nonneg h0 (by norm_num)
    have hq1 : Ar / (0.44 : α) < 1 := by
      rw [div_lt_one (by norm_num)]
      exact hlt
    have hpos : (0 : α) < 2 - Ar / 0.44 := by linarith
    refine ⟨1 / (2 - Ar / 0.44), ?_, ?_, ?_⟩
    · exact one_div_le_one_div_of_le hpos (by linarith)
    · rw [div_le_iff₀ hpos]
      linarith
    · rw [mul_one_div]
/-- The loops of the adaptive step over the coefficients: what they leave in the entries of
`nA_beta`, `Ar_beta` and `sigmap_beta`, and that they leave the arrays of the cells. -/
theorem adapt_loops_beta {α : Type} [LinearOrderedField α] (d : Inputs α) (st : State α) :
    (∀ q, ((List.range d.NP).foldl (adaptBeta d) st).nA_beta q
        = (if q < d.NP then 0 else st.nA_beta q) ∧
      ((List.range d.NP).foldl (adaptBeta d) st).Ar_beta q
        = (if q < d.NP then windowRate (st.nA_beta q) (DIV d.NGIBBS) else st.Ar_beta q) ∧
      ((List.range d.NP).foldl (adaptBeta d) st).sigmap_beta q
        = (if q < d.NP then
            adaptScale (st.sigmap_beta q) (windowRate (st.nA_beta q) (DIV d.NGIBBS))
          else st.sigmap_beta q)) ∧
    (∀ q, ((List.range d.NP).foldl (rateBeta d) st).nA_beta q
        = (if q < d.NP then 0 else st.nA_beta q) ∧
      ((List.range d.NP).foldl (rateBeta d) st).Ar_beta q
        = (if q < d.NP then windowRate (st.nA_beta q) (DIV d.NGIBBS) else st.Ar_beta q) ∧
      ((List.range d.NP).foldl (rateBeta d) st).sigmap_beta q = st.sigmap_beta q) ∧
    (((List.range d.NP).foldl (adaptBeta d) st).nA_rho = st.nA_rho ∧
      ((List.range d.NP).foldl (adaptBeta d) st).Ar_rho = st.Ar_rho ∧
      ((List.range d.NP).foldl (adaptBeta d) st).sigmap_rho = st.sigmap_rho) ∧
    (((List.range d.NP).foldl (rateBeta d) st).nA_rho = st.nA_rho ∧
      ((List.range d.NP).foldl (rateBeta d) st).Ar_rho = st.Ar_rho ∧
      ((List.range d.NP).foldl (rateBeta d) st).sigmap_rho = st.sigmap_rho) := by
  have hA := foldl_range_pointwise (adaptBeta d)
    (fun s q => (s.nA_beta q, s.Ar_beta q, s.sigmap_beta q))
    (fun _ t => ((0 : Int), (windowRate t.1 (DIV d.NGIBBS) : α),
      adaptScale t.2.2 (windowRate t.1 (DIV d.NGIBBS))))
    (fun s p q => by
      by_cases hq : q = p
      · subst hq
        simp [adaptBeta]
      · simp [adaptBeta, Function.update_noteq hq, hq])
    d.NP st
  have hR := foldl_range_pointwise (rateBeta d)
    (fun s q => (s.nA_beta q, s.Ar_beta q, s.sigmap_beta q))
    (fun _ t => ((0 : Int), (windowRate t.1 (DIV d.NGIBBS) : α), t.2.2))
    (fun s p q => by
      by_cases hq : q = p
      · subst hq
        simp [rateBeta]
      · simp [rateBeta, Function.update_noteq hq, hq])
    d.NP st
  have hfA := foldl_rel (adaptBeta d)
    (fun s s' => s'.nA_rho = s.nA_rho ∧ s'.Ar_rho = s.Ar_rho ∧ s'.sigmap_rho = s.sigmap_rho)
    (fun _ => ⟨rfl, rfl, rfl⟩)
    (fun a b c h1 h2 => ⟨h2.1.trans h1.1, h2.2.1.trans h1.2.1, h2.2.2.trans h1.2.2⟩)
    (List.range d.NP) (fun s p _ => ⟨rfl, rfl, rfl⟩) st
  have hfR := foldl_rel (rateBeta d)
    (fun s s' => s'.nA_rho = s.nA_rho ∧ s'.Ar_rho = s.Ar_rho ∧ s'.sigmap_rho = s.sigmap_rho)
    (fun _ => ⟨rfl, rfl, rfl⟩)
    (fun a b c h1 h2 => ⟨h2.1.trans h1.1, h2.2.1.trans h1.2.1, h2.2.2.trans h1.2.2⟩)
    (List.range d.NP) (fun s p _ => ⟨rfl, rfl, rfl⟩) st
  refine ⟨fun q => ?_, fun q => ?_, hfA, hfR⟩
  · have h := hA q
    by_cases hq : q < d.NP
    · simp only [if_pos hq, Prod.mk.injEq] at h ⊢
      exact h
    · simp only [if_neg hq, Prod.mk.injEq] at h ⊢
      exact h
  · have h := hR q
    by_cases hq : q < d.NP
    · simp only [if_pos hq, Prod.mk.injEq] at h ⊢
      exact h
    · simp only [if_neg hq, Prod.mk.injEq] at h ⊢
      exact h

/-- The loops of the adaptive step over the cells: what they leave in the entries of
`nA_rho`, `Ar_rho` and `sigmap_rho`, and that they leave the arrays of the coefficients. -/
theorem adapt_loops_rho {α : Type} [LinearOrderedField α] (d : Inputs α) (st : State α) :
    (∀ q, ((List.range d.NCELL).foldl (adaptRho d) st).nA_rho q
        = (if q < d.NCELL ∧ viscell d q > 0 then 0 else st.nA_rho q) ∧
      ((List.range d.NCELL).foldl (adaptRho d) st).Ar_rho q
        = (if q < d.NCELL ∧ viscell d q > 0 then windowRate (st.nA_rho q) (DIV d.NGIBBS)
          else st.Ar_rho q) ∧
      ((List.range d.NCELL).foldl (adaptRho d) st).sigmap_rho q
        = (if q < d.NCELL ∧ viscell d q > 0 then
            adaptScale (st.sigmap_rho q) (windowRate (st.nA_rho q) (DIV d.NGIBBS))
          else st.sigmap_rho q)) ∧
    (∀ q, ((List.range d.NCELL).foldl (rateRho d) st).nA_rho q
        = (if q < d.NCELL ∧ viscell d q > 0 then 0 else st.nA_rho q) ∧
      ((List.range d.NCELL).foldl (rateRho d) st).Ar_rho q
        = (if q < d.NCELL ∧ viscell d q > 0 then windowRate (st.nA_rho q) (DIV d.NGIBBS)
          else st.Ar_rho q) ∧
      ((List.range d.NCELL).foldl (rateRho d) st).sigmap_rho q = st.sigmap_rho q) ∧
    (((List.range d.NCELL).foldl (adaptRho d) st).nA_beta = st.nA_beta ∧
      ((List.range d.NCELL).foldl (adaptRho d) st).Ar_beta = st.Ar_beta ∧
      ((List.range d.NCELL).foldl (adaptRho d) st).sigmap_beta = st.sigmap_beta) ∧
    (((List.range d.NCELL).foldl (rateRho d) st).nA_beta = st.nA_beta ∧
      ((List.range d.NCELL).foldl (rateRho d) st).Ar_beta = st.Ar_beta ∧
      ((List.range d.NCELL).foldl (rateRho d) st).sigmap_beta = st.sigmap_beta) := by
  have hA := foldl_range_pointwise (adaptRho d)
    (fun s q => (s.nA_rho q, s.Ar_rho q, s.sigmap_rho q))
    (fun i t => if viscell d i > 0 then ((0 : Int), (windowRate t.1 (DIV d.NGIBBS) : α),
      adaptScale t.2.2 (windowRate t.1 (DIV d.NGIBBS))) else t)
    (fun s p q => by
      by_cases hv : viscell d p > 0
      · by_cases hq : q = p
        · subst hq
          simp [adaptRho, hv]
        · simp [adaptRho, hv, Function.update_noteq hq, hq]
      · by_cases hq : q = p
        · subst hq
          simp [adaptRho, hv]
        · simp [adaptRho, hv, hq])
    d.NCELL st
  have hR := foldl_range_pointwise (rateRho d)
    (fun s q => (s.nA_rho q, s.Ar_rho q, s.sigmap_rho q))
    (fun i t => if viscell d i > 0 then ((0 : Int), (windowRate t.1 (DIV d.NGIBBS) : α),
      t.2.2) else t)
    (fun s p q => by
      by_cases hv : viscell d p > 0
      · by_cases hq : q = p
        · subst hq
          simp [rateRho, hv]
        · simp [rateRho, hv, Function.update_noteq hq, hq]
      · by_cases hq : q = p
        · subst hq
          simp [rateRho, hv]
        · simp [rateRho, hv, hq])
    d.NCELL st
  have hfA := foldl_rel (adaptRho d)
    (fun s s' => s'.nA_beta = s.nA_beta ∧ s'.Ar_beta = s.Ar_beta ∧
      s'.sigmap_beta = s.sigmap_beta)
    (fun _ => ⟨rfl, rfl, rfl⟩)
    (fun a b c h1 h2 => ⟨h2.1.trans h1.1, h2.2.1.trans h1.2.1, h2.2.2.trans h1.2.2⟩)
    (List.range d.NCELL) (fun s p _ => by
      unfold adaptRho
      split_ifs
      · exact ⟨rfl, rfl, rfl⟩
      · exact ⟨rfl, rfl, rfl⟩) st
  have hfR := foldl_rel (rateRho d)
    (fun s s' => s'.nA_beta = s.nA_beta ∧ s'.Ar_beta = s.Ar_beta ∧
      s'.sigmap_beta = s.sigmap_beta)
    (fun _ => ⟨rfl, rfl, rfl⟩)
    (fun a b c h1 h2 => ⟨h2.1.trans h1.1, h2.2.1.trans h1.2.1, h2.2.2.trans h1.2.2⟩)
    (List.range d.NCELL) (fun s p _ => by
      unfold rateRho
      split_ifs
      · exact ⟨rfl, rfl, rfl⟩
      · exact ⟨rfl, rfl, rfl⟩) st
  refine ⟨fun q => ?_, fun q => ?_, hfA, hfR⟩
  · have h := hA q
    by_cases hq : q < d.NCELL
    · by_cases hv : viscell d q > 0
      · simp only [if_pos hq, if_pos hv, if_pos (And.intro hq hv), Prod.mk.injEq] at h ⊢
        exact h
      · simp only [if_pos hq, if_neg hv, if_neg (fun hh : q < d.NCELL ∧ viscell d q > 0 => hv hh.2),
          Prod.mk.injEq] at h ⊢
        exact h
    · simp only [if_neg hq, if_neg (fun hh : q < d.NCELL ∧ viscell d q > 0 => hq hh.1),
        Prod.mk.injEq] at h ⊢
      exact h
  · have h := hR q
    by_cases hq : q < d.NCELL
    · by_cases hv : viscell d q > 0
      · simp only [if_pos hq, if_pos hv, if_pos (And.intro hq hv), Prod.mk.injEq] at h ⊢
        exact h
      · simp only [if_pos hq, if_neg hv, if_neg (fun hh : q < d.NCELL ∧ viscell d q > 0 => hv hh.2),
          Prod.mk.injEq] at h ⊢
        exact h
    · simp only [if_neg hq, if_neg (fun hh : q < d.NCELL ∧ viscell d q > 0 => hq hh.1),
        Prod.mk.injEq] at h ⊢
      exact h
/-- The adaptive step at the index `q`: at a sweep with `(g+1) % DIV = 0` the entries of
the coefficients `q < NP` and of the visited cells `q < NCELL` get the counter 0, the rate
`nA / DIV` and, up to the burn-in, the adapted scale; every other entry is unchanged. -/
theorem adaptStep_slots {α : Type} [LinearOrderedField α] (d : Inputs α) (g : Nat)
    (st st' : State α) (h : adaptStep d g st = some st') (q : Nat) :
    ((((g : Int) + 1).tmod (DIV d.NGIBBS) = 0 ∧ q < d.NP) →
      st'.nA_beta q = 0 ∧ st'.Ar_beta q = windowRate (st.nA_beta q) (DIV d.NGIBBS) ∧
      st'.sigmap_beta q = (if (g : Int) + 1 ≤ d.NBURN then
          adaptScale (st.sigmap_beta q) (windowRate (st.nA_beta q) (DIV d.NGIBBS))
        else st.sigmap_beta q)) ∧
    (¬ (((g : Int) + 1).tmod (DIV d.NGIBBS) = 0 ∧ q < d.NP) →
      st'.nA_beta q = st.nA_beta q ∧ st'.Ar_beta q = st.Ar_beta q ∧
      st'.sigmap_beta q = st.sigmap_beta q) ∧
    ((((g : Int) + 1).tmod (DIV d.NGIBBS) = 0 ∧ (q < d.NCELL ∧ viscell d q > 0)) →
      st'.nA_rho q = 0 ∧ st'.Ar_rho q = windowRate (st.nA_rho q) (DIV d.NGIBBS) ∧
      st'.sigmap_rho q = (if (g : Int) + 1 ≤ d.NBURN then
          adaptScale (st.sigmap_rho q) (windowRate (st.nA_rho q) (DIV d.NGIBBS))
        else st.sigmap_rho q)) ∧
    (¬ (((g : Int) + 1).tmod (DIV d.NGIBBS) = 0 ∧ (q < d.NCELL ∧ viscell d q > 0)) →
      st'.nA_rho q = st.nA_rho q ∧ st'.Ar_rho q = st.Ar_rho q ∧
      st'.sigmap_rho q = st.sigmap_rho q) := by
  unfold adaptStep at h
  by_cases h0 : DIV d.NGIBBS = 0
  · rw [if_pos h0] at h
    cases h
  rw [if_neg h0] at h
  dsimp only at h
  have h' := (Option.some.inj h).symm
  by_cases hT : ((g : Int) + 1).tmod (DIV d.NGIBBS) = 0
  · by_cases hB : (g : Int) + 1 ≤ d.NBURN
    · have cA : ((g : Int) + 1).tmod (DIV d.NGIBBS) = 0 ∧ (g : Int) + 1 ≤ d.NBURN := ⟨hT, hB⟩
      have cB : ¬ (((g : Int) + 1).tmod (DIV d.NGIBBS) = 0 ∧ (g : Int) + 1 > d.NBURN) :=
        fun hh => absurd hB (not_le.mpr hh.2)
      simp only [if_pos cA, if_neg cB] at h'
      obtain ⟨bA, -, bF, -⟩ := adapt_loops_beta d st
      obtain ⟨rA, -, rF, -⟩ := adapt_loops_rho d ((List.range d.NP).foldl (adaptBeta d) st)
      obtain ⟨b1, b2, b3⟩ := bA q
      obtain ⟨r1, r2, r3⟩ := rA q
      simp only [bF.1, bF.2.1, bF.2.2] at r1 r2 r3
      have c1 : st'.nA_beta q = ((List.range d.NP).foldl (adaptBeta d) st).nA_beta q := by
        rw [h', rF.1]
      have c2 : st'.Ar_beta q = ((List.range d.NP).foldl (adaptBeta d) st).Ar_beta q := by
        rw [h', rF.2.1]
      have c3 : st'.sigmap_beta q
          = ((List.range d.NP).foldl (adaptBeta d) st).sigmap_beta q := by
        rw [h', rF.2.2]
      rw [← h'] at r1 r2 r3
      rw [b1] at c1
      rw [b2] at c2
      rw [b3] at c3
      refine ⟨fun hc => ?_, fun hc => ?_, fun hc => ?_, fun hc => ?_⟩
      · rw [if_pos hc.2] at c1 c2 c3
        rw [if_pos hB]
        exact ⟨c1, c2, c3⟩
      · have hq : ¬ q < d.NP := fun hq => hc ⟨hT, hq⟩
        rw [if_neg hq] at c1 c2 c3
        exact ⟨c1, c2, c3⟩
      · rw [if_pos hc.2] at r1 r2 r3
        rw [if_pos hB]
        exact ⟨r1, r2, r3⟩
      · have hq : ¬ (q < d.NCELL ∧ viscell d q > 0) := fun hq => hc ⟨hT, hq⟩
        rw [if_neg hq] at r1 r2 r3
        exact ⟨r1, r2, r3⟩
    · have cA : ¬ (((g : Int) + 1).tmod (DIV d.NGIBBS) = 0 ∧ (g : Int) + 1 ≤ d.NBURN) :=
        fun hh => hB hh.2
      have cB : ((g : Int) + 1).tmod (DIV d.NGIBBS) = 0 ∧ (g : Int) + 1 > d.NBURN :=
        ⟨hT, not_le.mp hB⟩
      simp only [if_neg cA, if_pos cB] at h'
      obtain ⟨-, bA, -, bF⟩ := adapt_loops_beta d st
      obtain ⟨-, rA, -, rF⟩ := adapt_loops_rho d ((List.range d.NP).foldl (rateBeta d) st)
      obtain ⟨b1, b2, b3⟩ := bA q
      obtain ⟨r1, r2, r3⟩ := rA q
      simp only [bF.1, bF.2.1, bF.2.2] at r1 r2 r3
      have c1 : st'.nA_beta q = ((List.range d.NP).foldl (rateBeta d) st).nA_beta q := by
        rw [h', rF.1]
      have c2 : st'.Ar_beta q = ((List.range d.NP).foldl (rateBeta d) st).Ar_beta q := by
        rw [h', rF.2.1]
      have c3 : st'.sigmap_beta q
          = ((List.range d.NP).foldl (rateBeta d) st).sigmap_beta q := by
        rw [h', rF.2.2]
      rw [← h'] at r1 r2 r3
      rw [b1] at c1
      rw [b2] at c2
      rw [b3] at c3
      refine ⟨fun hc => ?_, fun hc => ?_, fun hc => ?_, fun hc => ?_⟩
      · rw [if_pos hc.2] at c1 c2
        rw [if_neg hB]
        exact ⟨c1, c2, c3⟩
      · have hq : ¬ q < d.NP := fun hq => hc ⟨hT, hq⟩
        rw [if_neg hq] at c1 c2
        exact ⟨c1, c2, c3⟩
      · rw [if_pos hc.2] at r1 r2
        rw [if_neg hB]
        exact ⟨r1, r2, r3⟩
      · have hq : ¬ (q < d.NCELL ∧ viscell d q > 0) := fun hq => hc ⟨hT, hq⟩
        rw [if_neg hq] at r1 r2
        exact ⟨r1, r2, r3⟩
  · have cA : ¬ (((g : Int) + 1).tmod (DIV d.NGIBBS) = 0 ∧ (g : Int) + 1 ≤ d.NBURN) :=
      fun hh => hT hh.1
    have cB : ¬ (((g : Int) + 1).tmod (DIV d.NGIBBS) = 0 ∧ (g : Int) + 1 > d.NBURN) :=
      fun hh => hT hh.1
    simp only [if_neg cA, if_neg cB] at h'
    subst h'
    exact ⟨fun hc => absurd hc.1 hT, fun _ => ⟨rfl, rfl, rfl⟩, fun hc => absurd hc.1 hT,
      fun _ => ⟨rfl, rfl, rfl⟩⟩

/-- One entry of the counters, rates and scales through a sweep `g`, for `DIV = D ≥ 1`:
`nA`, `Ar`, `sg` before the sweep, `nA1` the counter after the Metropolis steps, `nA2`,
`Ar2`, `sg2` after the adaptive step. -/
theorem window_slot {α : Type} [LinearOrderedField α] (D : Int) (hD : 1 ≤ D) (g : Nat)
    (NBURN : Int) (active : Prop) (nA nA1 nA2 : Int) (Ar Ar2 sg sg2 : α)
    (h0 : 0 ≤ nA) (h1 : nA ≤ (g : Int).tmod D) (hin : ¬ active → nA = 0)
    (hstep : nA1 = nA ∨ nA1 = nA + 1) (hfr : ¬ active → nA1 = nA)
    (hAr0 : 0 ≤ Ar) (hAr1 : Ar ≤ 1) (hsg : 0 < sg)
    (hT : (((g : Int) + 1).tmod D = 0 ∧ active) →
      nA2 = 0 ∧ Ar2 = windowRate nA1 D ∧
      sg2 = (if (g : Int) + 1 ≤ NBURN then adaptScale sg (windowRate nA1 D) else sg))
    (hF : ¬ (((g : Int) + 1).tmod D = 0 ∧ active) → nA2 = nA1 ∧ Ar2 = Ar ∧ sg2 = sg) :
    (0 ≤ nA2 ∧ nA2 ≤ ((g + 1 : Nat) : Int).tmod D ∧ (¬ active → nA2 = 0) ∧
      0 ≤ Ar2 ∧ Ar2 ≤ 1 ∧ 0 < sg2) ∧
    (∃ f : α, 1 / 2 ≤ f ∧ f ≤ 2 ∧ sg2 = sg * f) ∧
    ((((g : Int) + 1).tmod D = 0 ∧ active) →
      ∃ n : Int, 0 ≤ n ∧ n ≤ D ∧ Ar2 = windowRate n D) := by
  obtain ⟨t0, t1, t2⟩ := tmod_succ D hD g
  have hcast : (((g + 1 : Nat) : Int)) = (g : Int) + 1 := by push_cast; rfl
  rw [hcast]
  have b1 : 0 ≤ nA1 ∧ nA1 ≤ D := by
    rcases hstep with e | e <;> omega
  by_cases hc : ((g : Int) + 1).tmod D = 0 ∧ active
  · obtain ⟨e1, e2, e3⟩ := hT hc
    obtain ⟨w0, w1⟩ := windowRate_mem (α := α) nA1 D hD b1.1 b1.2
    have hf : ∃ f : α, 1 / 2 ≤ f ∧ f ≤ 2 ∧ sg2 = sg * f := by
      by_cases hB : (g : Int) + 1 ≤ NBURN
      · rw [if_pos hB] at e3
        obtain ⟨f, f1, f2, f3⟩ := adaptScale_factor sg (windowRate nA1 D) w0 w1
        exact ⟨f, f1, f2, by rw [e3, f3]⟩
      · rw [if_neg hB] at e3
        exact ⟨1, by norm_num, by norm_num, by rw [e3, mul_one]⟩
    refine ⟨⟨by omega, by omega, fun hn => absurd hc.2 hn, by rw [e2]; exact w0,
      by rw [e2]; exact w1, ?_⟩, hf, fun _ => ⟨nA1, b1.1, b1.2, e2⟩⟩
    obtain ⟨f, f1, _, f3⟩ := hf
    rw [f3]
    exact mul_pos hsg (by linarith)
  · obtain ⟨e1, e2, e3⟩ := hF hc
    refine ⟨⟨by omega, ?_, fun hn => by rw [e1, hfr hn, hin hn], by rw [e2]; exact hAr0,
      by rw [e2]; exact hAr1, by rw [e3]; exact hsg⟩,
      ⟨1, by norm_num, by norm_num, by rw [e3, mul_one]⟩, fun hh => absurd hh hc⟩
    by_cases ha : active
    · have hT0 : ¬ ((g : Int) + 1).tmod D = 0 := fun hh => hc ⟨hh, ha⟩
      rcases t2 with t | t
      · exact absurd t hT0
      · rcases hstep with e | e <;> omega
    · have := hfr ha
      have := hin ha
      rcases t2 with t | t <;> omega
/-- The counters, rates and scales through one sweep `g`, for `DIV ≥ 1`, from a state in
which every counter lies in `[0, g % DIV]` and is 0 outside the coefficients and the
visited cells, every rate lies in `[0, 1]` and every scale is positive. -/
theorem sweep_window_step {α : Type} [LinearOrderedField α] (m : CMath α) (rs : Nat → Nat)
    (d : Inputs α) (fuel : Nat) (hD : 1 ≤ DIV d.NGIBBS) (g : Nat) (st st' : State α)
    (h : sweep m rs d fuel st g = some st')
    (hb : ∀ p, 0 ≤ st.nA_beta p ∧ st.nA_beta p ≤ (g : Int).tmod (DIV d.NGIBBS) ∧
      (¬ p < d.NP → st.nA_beta p = 0) ∧
      0 ≤ st.Ar_beta p ∧ st.Ar_beta p ≤ 1 ∧ 0 < st.sigmap_beta p)
    (hr : ∀ i, 0 ≤ st.nA_rho i ∧ st.nA_rho i ≤ (g : Int).tmod (DIV d.NGIBBS) ∧
      (¬ (i < d.NCELL ∧ viscell d i > 0) → st.nA_rho i = 0) ∧
      0 ≤ st.Ar_rho i ∧ st.Ar_rho i ≤ 1 ∧ 0 < st.sigmap_rho i) :
    (∀ p, (0 ≤ st'.nA_beta p ∧ st'.nA_beta p ≤ ((g + 1 : Nat) : Int).tmod (DIV d.NGIBBS) ∧
        (¬ p < d.NP → st'.nA_beta p = 0) ∧
        0 ≤ st'.Ar_beta p ∧ st'.Ar_beta p ≤ 1 ∧ 0 < st'.sigmap_beta p) ∧
      (∃ f : α, 1 / 2 ≤ f ∧ f ≤ 2 ∧ st'.sigmap_beta p = st.sigmap_beta p * f) ∧
      ((((g : Int) + 1).tmod (DIV d.NGIBBS) = 0 ∧ p < d.NP) →
        ∃ n : Int, 0 ≤ n ∧ n ≤ DIV d.NGIBBS ∧
          st'.Ar_beta p = windowRate n (DIV d.NGIBBS))) ∧
    (∀ i, (0 ≤ st'.nA_rho i ∧ st'.nA_rho i ≤ ((g + 1 : Nat) : Int).tmod (DIV d.NGIBBS) ∧
        (¬ (i < d.NCELL ∧ viscell d i > 0) → st'.nA_rho i = 0) ∧
        0 ≤ st'.Ar_rho i ∧ st'.Ar_rho i ≤ 1 ∧ 0 < st'.sigmap_rho i) ∧
      (∃ f : α, 1 / 2 ≤ f ∧ f ≤ 2 ∧ st'.sigmap_rho i = st.sigmap_rho i * f) ∧
      ((((g : Int) + 1).tmod (DIV d.NGIBBS) = 0 ∧ (i < d.NCELL ∧ viscell d i > 0)) →
        ∃ n : Int, 0 ≤ n ∧ n ≤ DIV d.NGIBBS ∧
          st'.Ar_rho i = windowRate n (DIV d.NGIBBS))) := by
  obtain ⟨st1, st2, st3, st4, h1, h2, h3, hr4, h4, -⟩ := sweep_steps m rs d fuel st st' g h
  obtain ⟨br, na, k, e1⟩ := betaStep_shape m rs d fuel st st1 h1
  obtain ⟨rr, na2, k2, e2, -⟩ := rhoStep_shape m rs d fuel _ st2 h2
  obtain ⟨v, k3, e3⟩ := vrhoStep_shape m rs d fuel _ st3 h3
  obtain ⟨bv, rv, vv, dv, tl, tp, hrec⟩ := recordStep_shape d g _ st4 hr4
  have q1 : st4.nA_beta = st1.nA_beta := by
    rw [hrec]
    show st3.nA_beta = st1.nA_beta
    rw [e3, e2]
  have q2 : st4.Ar_beta = st.Ar_beta := by
    rw [hrec]
    show st3.Ar_beta = st.Ar_beta
    rw [e3, e2, e1]
  have q3 : st4.sigmap_beta = st.sigmap_beta := by
    rw [hrec]
    show st3.sigmap_beta = st.sigmap_beta
    rw [e3, e2, e1]
  have q4 : st4.nA_rho = st2.nA_rho := by
    rw [hrec]
    show st3.nA_rho = st2.nA_rho
    rw [e3]
  have q5 : st4.Ar_rho = st.Ar_rho := by
    rw [hrec]
    show st3.Ar_rho = st.Ar_rho
    rw [e3, e2, e1]
  have q6 : st4.sigmap_rho = st.sigmap_rho := by
    rw [hrec]
    show st3.sigmap_rho = st.sigmap_rho
    rw [e3, e2, e1]
  have q7 : st1.nA_rho = st.nA_rho := by rw [e1]
  constructor
  · intro p
    obtain ⟨sb1, sb2, -, -⟩ := adaptStep_slots d g _ st' h4 p
    simp only [q1, q2, q3] at sb1 sb2
    obtain ⟨c1, c2⟩ := betaStep_counter m rs d fuel st st1 h1 p
    obtain ⟨b0, b1, b2, b3, b4, b5⟩ := hb p
    exact window_slot (DIV d.NGIBBS) hD g d.NBURN (p < d.NP) (st.nA_beta p) (st1.nA_beta p)
      (st'.nA_beta p) (st.Ar_beta p) (st'.Ar_beta p) (st.sigmap_beta p) (st'.sigmap_beta p)
      b0 b1 b2 c1 (fun hn => c2 (not_lt.mp hn)) b3 b4 b5 sb1 sb2
  · intro i
    obtain ⟨-, -, sr1, sr2⟩ := adaptStep_slots d g _ st' h4 i
    simp only [q4, q5, q6] at sr1 sr2
    obtain ⟨c1, c2, c3⟩ := rhoStep_counter m rs d fuel st1 st2 h2 i
    rw [q7] at c1 c2 c3
    obtain ⟨b0, b1, b2, b3, b4, b5⟩ := hr i
    refine window_slot (DIV d.NGIBBS) hD g d.NBURN (i < d.NCELL ∧ viscell d i > 0)
      (st.nA_rho i) (st2.nA_rho i)
      (st'.nA_rho i) (st.Ar_rho i) (st'.Ar_rho i) (st.sigmap_rho i) (st'.sigmap_rho i)
      b0 b1 b2 c1 (fun hn => ?_) b3 b4 b5 sr1 sr2
    by_cases hi : i < d.NCELL
    · exact c3 (fun hv => hn ⟨hi, hv⟩)
    · exact c2 (not_lt.mp hi)

/-- After any number of sweeps from the initial state, for `DIV ≥ 1`, every counter lies in
`[0, g % DIV]` and is 0 outside the coefficients and the visited cells, every rate lies in
`[0, 1]` and every scale is positive. -/
theorem sweeps_window_inv {α : Type} [LinearOrderedField α] (m : CMath α) (rs : Nat → Nat)
    (d : Inputs α) (fuel : Nat) (hD : 1 ≤ DIV d.NGIBBS) (g : Nat) (st : State α)
    (h : sweeps m rs d fuel (initState d) g = some st) :
    (∀ p, 0 ≤ st.nA_beta p ∧ st.nA_beta p ≤ (g : Int).tmod (DIV d.NGIBBS) ∧
      (¬ p < d.NP → st.nA_beta p = 0) ∧
      0 ≤ st.Ar_beta p ∧ st.Ar_beta p ≤ 1 ∧ 0 < st.sigmap_beta p) ∧
    (∀ i, 0 ≤ st.nA_rho i ∧ st.nA_rho i ≤ (g : Int).tmod (DIV d.NGIBBS) ∧
      (¬ (i < d.NCELL ∧ viscell d i > 0) → st.nA_rho i = 0) ∧
      0 ≤ st.Ar_rho i ∧ st.Ar_rho i ≤ 1 ∧ 0 < st.sigmap_rho i) := by
  induction g generalizing st with
  | zero =>
    have e : st = initState d := by
      simp only [sweeps, List.range_zero, List.foldlM_nil, Option.pure_def,
        Option.some.injEq] at h
      exact h.symm
    subst e
    have z : ((0 : Nat) : Int).tmod (DIV d.NGIBBS) = 0 := by simp
    rw [z]
    constructor
    · intro p
      simp only [initState]
      norm_num
    · intro i
      simp only [initState]
      norm_num
  | succ g ih =>
    rw [sweeps_succ] at h
    cases hs : sweeps m rs d fuel (initState d) g with
    | none =>
      rw [hs] at h
      cases h
    | some s =>
      rw [hs] at h
      obtain ⟨hb, hr⟩ := ih s hs
      obtain ⟨kb, kr⟩ := sweep_window_step m rs d fuel hD g s st h hb hr
      exact ⟨fun p => (kb p).1, fun i => (kr i).1⟩

/-- C21: throughout a run with `DIV ≥ 1`, at the end of every sweep `g` reached from the
initial state, every acceptance counter satisfies `0 ≤ nA ≤ (g+1) % DIV`; every rate `Ar`
lies in `[0, 1]`, and a rate computed at that sweep (`(g+1) % DIV = 0`, for a coefficient
or a visited cell) is `nA / DIV` for a counter `0 ≤ nA ≤ DIV`; the sweep multiplies every
proposal scale by a factor in `[1/2, 2]`; and every proposal scale is strictly positive. -/
theorem acceptance_window_invariant {α : Type} [LinearOrderedField α] (m : CMath α)
    (rs : Nat → Nat) (d : Inputs α) (fuel : Nat) (hD : 1 ≤ DIV d.NGIBBS) (g : Nat)
    (st st' : State α) (hs : sweeps m rs d fuel (initState d) g = some st)
    (hs' : sweep m rs d fuel st g = some st') :
    (∀ p, 0 ≤ st'.nA_beta p ∧ st'.nA_beta p ≤ ((g : Int) + 1).tmod (DIV d.NGIBBS)) ∧
    (∀ i, 0 ≤ st'.nA_rho i ∧ st'.nA_rho i ≤ ((g : Int) + 1).tmod (DIV d.NGIBBS)) ∧
    (∀ p, 0 ≤ st'.Ar_beta p ∧ st'.Ar_beta p ≤ 1) ∧
    (∀ i, 0 ≤ st'.Ar_rho i ∧ st'.Ar_rho i ≤ 1) ∧
    (((g : Int) + 1).tmod (DIV d.NGIBBS) = 0 →
      (∀ p, p < d.NP → ∃ n : Int, 0 ≤ n ∧ n ≤ DIV d.NGIBBS ∧
        st'.Ar_beta p = windowRate n (DIV d.NGIBBS)) ∧
      (∀ i, i < d.NCELL → viscell d i > 0 → ∃ n : Int, 0 ≤ n ∧ n ≤ DIV d.NGIBBS ∧
        st'.Ar_rho i = windowRate n (DIV d.NGIBBS))) ∧
    (∀ p, ∃ f : α, 1 / 2 ≤ f ∧ f ≤ 2 ∧ st'.sigmap_beta p = st.sigmap_beta p * f) ∧
    (∀ i, ∃ f : α, 1 / 2 ≤ f ∧ f ≤ 2 ∧ st'.sigmap_rho i = st.sigmap_rho i * f) ∧
    (∀ p, 0 < st'.sigmap_beta p) ∧ (∀ i, 0 < st'.sigmap_rho i) := by
  obtain ⟨hb, hr⟩ := sweeps_window_inv m rs d fuel hD g st hs
  obtain ⟨kb, kr⟩ := sweep_window_step m rs d fuel hD g st st' hs' hb hr
  have hcast : (((g + 1 : Nat) : Int)) = (g : Int) + 1 := by push_cast; rfl
  rw [hcast] at kb kr
  exact ⟨fun p => ⟨(kb p).1.1, (kb p).1.2.1⟩, fun i => ⟨(kr i).1.1, (kr i).1.2.1⟩,
    fun p => ⟨(kb p).1.2.2.2.1, (kb p).1.2.2.2.2.1⟩,
    fun i => ⟨(kr i).1.2.2.2.1, (kr i).1.2.2.2.2.1⟩,
    fun hT => ⟨fun p hp => (kb p).2.2 ⟨hT, hp⟩, fun i hi hv => (kr i).2.2 ⟨hT, hi, hv⟩⟩,
    fun p => (kb p).2.1, fun i => (kr i).2.1,
    fun p => (kb p).1.2.2.2.2.2, fun i => (kr i).1.2.2.2.2.2⟩
/-- C21 on the example data (`NGIBBS = 100`, so `DIV = 10`, and `NBURN = 10`) with the
constant stream `exStream`: the sweeps 0 to 8 of the run return a state, the sweep g = 9,
an adaptation sweep, returns from it, and after it every counter is 0, every rate lies in
`[0, 1]`, every scale is positive and a multiple by a factor in `[1/2, 2]` of the scale
before the sweep. -/
theorem acceptance_window_invariant_witness :
    ∃ (m : CMath ℝ) (st st' : State ℝ), IsRealMath m ∧
      1 ≤ DIV (exInputs : Inputs ℝ).NGIBBS ∧
      sweeps m exStream exInputs 1 (initState exInputs) 9 = some st ∧
      sweep m exStream exInputs 1 st 9 = some st' ∧
      (∀ p, st'.nA_beta p = 0) ∧ (∀ i, st'.nA_rho i = 0) ∧
      (∀ p, 0 ≤ st'.Ar_beta p ∧ st'.Ar_beta p ≤ 1) ∧
      (∀ i, 0 ≤ st'.Ar_rho i ∧ st'.Ar_rho i ≤ 1) ∧
      (∀ p, ∃ f : ℝ, 1 / 2 ≤ f ∧ f ≤ 2 ∧ st'.sigmap_beta p = st.sigmap_beta p * f) ∧
      (∀ i, ∃ f : ℝ, 1 / 2 ≤ f ∧ f ≤ 2 ∧ st'.sigmap_rho i = st.sigmap_rho i * f) ∧
      (∀ p, 0 < st'.sigmap_beta p) ∧ (∀ i, 0 < st'.sigmap_rho i) := by
  have hm : IsRealMath ⟨Real.exp, Real.log, Real.sqrt, fun x y => x ^ y, fun x => ⌊x⌋,
      2147483647⟩ := ⟨rfl, rfl, rfl, fun _ _ => rfl, fun _ => rfl⟩
  have hD : 1 ≤ DIV (exInputs : Inputs ℝ).NGIBBS := by decide
  obtain ⟨st, hst⟩ := sweeps_exInputs
    (⟨Real.exp, Real.log, Real.sqrt, fun x y => x ^ y, fun x => ⌊x⌋, 2147483647⟩ : CMath ℝ)
    rfl (initState exInputs) 9 (by decide)
  obtain ⟨st', hst'⟩ := sweep_exInputs
    (⟨Real.exp, Real.log, Real.sqrt, fun x y => x ^ y, fun x => ⌊x⌋, 2147483647⟩ : CMath ℝ)
    rfl st 9 (by decide)
  have key := acceptance_window_invariant _ exStream exInputs 1 hD 9 st st' hst hst'
  have hT : (((9 : Nat) : Int) + 1).tmod (DIV (exInputs : Inputs ℝ).NGIBBS) = 0 := by decide
  rw [hT] at key
  obtain ⟨k1, k2, k3, k4, -, k6, k7, k8, k9⟩ := key
  exact ⟨_, st, st', hm, hD, hst, hst', fun p => le_antisymm (k1 p).2 (k1 p).1,
    fun i => le_antisymm (k2 i).2 (k2 i).1, k3, k4, k6, k7, k8, k9⟩

/-! ### A proposal that does not lower the log-posterior -/

/-- The logarithm of a finite double. -/
theorem CDouble.log_fin {α : Type} [LinearOrderedField α] (m : CMath α) (x : α) :
    CDouble.log m (CDouble.fin x) =
      if x < 0 then CDouble.nan else if x = 0 then CDouble.negInf
      else CDouble.fin (m.log x) := rfl

/-- The product of a finite double and `-inf`. -/
theorem CDouble.mul_fin_negInf {α : Type} [LinearOrderedField α] (a : α) :
    CDouble.mul (CDouble.fin a) CDouble.negInf =
      if a = 0 then CDouble.nan else if 0 < a then CDouble.negInf else CDouble.posInf := rfl

/-- For a probability strictly between 0 and 1 the Bernoulli log-density with the
logarithms of `math.h` is the finite value of `mylndbern`. -/
theorem mylndbern_ext_fin {α : Type} [LinearOrderedField α] (m : CMath α) (x : Int) (p : α)
    (h0 : 0 < p) (h1 : p < 1) :
    mylndbern_ext m x p = CDouble.fin (mylndbern m x p) := by
  unfold mylndbern_ext mylndbern
  rw [CDouble.log_fin, CDouble.log_fin, if_neg (not_lt.mpr h0.le), if_neg h0.ne',
    if_neg (by linarith), if_neg (by linarith)]
  rfl

/-- For a probability that has reached 1 the Bernoulli log-density of the outcome 0 with
the logarithms of `math.h` is `-inf`. -/
theorem mylndbern_ext_saturated {α : Type} [LinearOrderedField α] (m : CMath α) :
    mylndbern_ext m 0 1 = CDouble.negInf := by
  unfold mylndbern_ext
  rw [CDouble.log_fin, CDouble.log_fin, if_neg (by norm_num), if_neg (by norm_num),
    if_neg (by norm_num), if_pos (by norm_num), CDouble.mul_fin_negInf,
    if_neg (by norm_num), if_pos (by norm_num)]
  rfl

/-- For finite log-posteriors the test of a Metropolis step is `z < exp (p_prop - p_now)`,
the test of `betaUpdate` and `rhoUpdate`. -/
theorem metropolisAccept_fin {α : Type} [LinearOrderedField α] (m : CMath α) (a b z : α) :
    metropolisAccept m (CDouble.fin a) (CDouble.fin b) z = decide (z < m.exp (b - a)) := by
  unfold metropolisAccept CDouble.sub CDouble.neg CDouble.add CDouble.exp CDouble.lt
  simp only [sub_eq_add_neg]

/-- C22 (amended): in exact real arithmetic, where every log-posterior is finite, with
`rand()` at most `RAND_MAX`, a Metropolis step for a coefficient `beta[p]`, or for the rho
of a visited cell, whose proposal has a log-posterior at least that of the current value
(`p_prop ≥ p_now`) accepts the proposal whatever the uniform draw is: the parameter is set
to `x_prop` and its acceptance counter increases by exactly one. The test on finite
log-posteriors `p_now ≤ p_prop` succeeds at every uniform draw. -/
theorem metropolis_accepts_uphill (m : CMath ℝ) (hm : IsRealMath m) (rs : Nat → Nat)
    (hrs : ∀ k, rs k ≤ m.RAND_MAX) (d : Inputs ℝ) (fuel : Nat) (st : State ℝ) :
    (∀ (p : Nat) (x_prop : ℝ) (k : Nat),
      myrnorm m rs (st.beta_run p) (st.sigmap_beta p) fuel st.pos = some (x_prop, k) →
      betadens m d st p x_prop ≥ betadens m d st p (st.beta_run p) →
      betaUpdate m rs d fuel st p =
        some { st with beta_run := Function.update st.beta_run p x_prop,
                       nA_beta := Function.update st.nA_beta p (st.nA_beta p + 1),
                       pos := k + 1 }) ∧
    (∀ (i : Nat) (x_prop : ℝ) (k : Nat), viscell d i > 0 →
      myrnorm m rs (st.rho_run i) (st.sigmap_rho i) fuel st.pos = some (x_prop, k) →
      rhodens_visited m d st i x_prop ≥ rhodens_visited m d st i (st.rho_run i) →
      rhoUpdate m rs d fuel st i =
        some { st with rho_run := Function.update st.rho_run i x_prop,
                       nA_rho := Function.update st.nA_rho i (st.nA_rho i + 1),
                       pos := k + 1 }) ∧
    (∀ (p_now p_prop : ℝ) (k : Nat), p_prop ≥ p_now →
      metropolisAccept m (CDouble.fin p_now) (CDouble.fin p_prop) (myrunif m rs k).1
        = true) := by
  have hexp : m.exp = Real.exp := hm.1
  have hacc : ∀ (k : Nat) (a b : ℝ), a ≥ b → (myrunif m rs k).1 < m.exp (a - b) := by
    intro k a b hab
    have h1 := (myrunif_mem m rs hrs k).2
    have h2 : (1 : ℝ) ≤ Real.exp (a - b) := Real.one_le_exp (by linarith)
    rw [hexp]
    linarith
  refine ⟨?_, ?_, ?_⟩
  · intro p x_prop k hd hge
    unfold betaUpdate
    dsimp only
    rw [hd]
    dsimp only
    rw [if_pos (hacc k _ _ hge)]
  · intro i x_prop k hv hd hge
    unfold rhoUpdate
    rw [if_pos hv]
    dsimp only
    rw [hd]
    dsimp only
    rw [if_pos (hacc k _ _ hge)]
  · intro p_now p_prop k hge
    rw [metropolisAccept_fin]
    exact decide_eq_true (hacc k _ _ hge)

/-- C22 fails as stated on the doubles of C: when the probability of an observation
`Y = 0` has reached 1 (as `invlogit (100)`, which is the double 1.0), its Bernoulli
log-density is `log (0) = -inf`, the log-posterior is `-inf` whatever the finite other
terms are, at the current value and at the proposal alike; then `p_prop >= p_now` holds,
the ratio `exp (p_prop - p_now)` is NaN, and the test `z < r` fails at every uniform draw:
the proposal is rejected. -/
theorem metropolis_rejects_saturated :
    ∃ m : CMath ℝ, IsRealMath m ∧
      mylndbern_ext m 0 1 = CDouble.negInf ∧
      (∀ rest prior : ℝ, CDouble.add (CDouble.add (CDouble.fin rest) (mylndbern_ext m 0 1))
        (CDouble.fin prior) = CDouble.negInf) ∧
      CDouble.ge (CDouble.negInf : CDouble ℝ) CDouble.negInf = true ∧
      CDouble.exp m (CDouble.sub CDouble.negInf CDouble.negInf) = CDouble.nan ∧
      (∀ z : ℝ, metropolisAccept m CDouble.negInf CDouble.negInf z = false) := by
  have hm : IsRealMath ⟨Real.exp, Real.log, Real.sqrt, fun x y => x ^ y, fun x => ⌊x⌋,
      2147483647⟩ := ⟨rfl, rfl, rfl, fun _ _ => rfl, fun _ => rfl⟩
  have h1 := mylndbern_ext_saturated (⟨Real.exp, Real.log, Real.sqrt, fun x y => x ^ y,
    fun x => ⌊x⌋, 2147483647⟩ : CMath ℝ)
  refine ⟨_, hm, h1, fun rest prior => ?_, rfl, rfl, fun z => rfl⟩
  rw [h1]
  rfl
/-- On `exStream`, in real arithmetic, the standard normal draw is `-sqrt (log (N²/2))` for
`N = RAND_MAX`: it lies in `[-7, 0]`. -/
theorem rnorm1_exStream_bound (m : CMath ℝ) (hm : IsRealMath m)
    (hR : m.RAND_MAX = 2147483647) (k : Nat) :
    ∃ z, rnorm1 m exStream 1 k = some (z, k + 2) ∧ -7 ≤ z ∧ z ≤ 0 := by
  have hv : (2.0 * (((1073741823 : Nat) : ℝ) / ((2147483647 : Nat) : ℝ)) - 1) =
      -(1 / 2147483647) := by norm_num
  have hs : (-(1 / 2147483647 : ℝ)) * (-(1 / 2147483647)) +
      (-(1 / 2147483647)) * (-(1 / 2147483647)) = 2 / 2147483647 ^ 2 := by norm_num
  simp only [rnorm1, exStream, hR, hv, hs, hm.2.1, hm.2.2.1]
  rw [if_neg (by norm_num), if_neg (by norm_num)]
  refine ⟨_, rfl, ?_, ?_⟩
  · have hlog : -Real.log (2 / 2147483647 ^ 2) ≤ 49 := by
      have h1 : -Real.log (2 / 2147483647 ^ 2) = Real.log (2147483647 ^ 2 / 2) := by
        rw [← Real.log_inv]
        congr 1
        norm_num
      have h2 : Real.log (2147483647 ^ 2 / 2) ≤ Real.log (2 ^ 62) :=
        Real.log_le_log (by norm_num) (by norm_num)
      have h3 : Real.log ((2 : ℝ) ^ 62) = 62 * Real.log 2 := by
        rw [Real.log_pow]
        norm_num
      have h4 : Real.log 2 ≤ 0.75 := by
        have := Real.log_two_lt_d9
        linarith
      have h5 : (62 : ℝ) * Real.log 2 ≤ 49 := by linarith
      rw [h1]
      exact le_trans h2 (h3 ▸ h5)
    have hA : Real.sqrt (-2.0 * Real.log (2 / 2147483647 ^ 2) / (2 / 2147483647 ^ 2)) ≤
        7 * 2147483647 := by
      rw [Real.sqrt_le_iff]
      refine ⟨by norm_num, ?_⟩
      rw [div_le_iff₀ (by norm_num)]
      norm_num
      linarith
    have : -(1 / 2147483647 : ℝ) * (7 * 2147483647) = -7 := by norm_num
    nlinarith
  · have := Real.sqrt_nonneg (-2.0 * Real.log (2 / 2147483647 ^ 2) / (2 / 2147483647 ^ 2))
    nlinarith

/-- In real arithmetic `invlogit` is non-decreasing, and at least 1/2 from 0 on. -/
theorem invlogit_mono (m : CMath ℝ) (hm : IsRealMath m) (x y : ℝ) (h : x ≤ y) :
    invlogit m x ≤ invlogit m y ∧ (0 ≤ x → 1 / 2 ≤ invlogit m x) := by
  have hb : ∀ t : ℝ, invlogit m t = 1 / (1 + Real.exp (-t)) := by
    intro t
    unfold invlogit
    rw [hm.1]
    split_ifs
    · rfl
    · rw [Real.exp_neg]
      have := Real.exp_pos t
      field_simp
      ring
  rw [hb x, hb y]
  have h1 := Real.exp_pos (-y)
  have h2 : Real.exp (-y) ≤ Real.exp (-x) := Real.exp_le_exp.mpr (by linarith)
  refine ⟨one_div_le_one_div_of_le (by linarith) (by linarith), fun h0 => ?_⟩
  have h3 : Real.exp (-x) ≤ 1 := by
    have := Real.exp_le_exp.mpr (by linarith : -x ≤ 0)
    rwa [Real.exp_zero] at this
  have h4 := Real.exp_pos (-x)
  exact one_div_le_one_div_of_le (by linarith) (by linarith)

/-- The Normal log-density with mean 0 does not decrease when the square of its argument
does not increase. -/
theorem mydnorm_log_mono {α : Type} [LinearOrderedField α] (m : CMath α) (x y sd : α)
    (h : x * x ≤ y * y) : mydnorm m x 0 sd 1 ≥ mydnorm m y 0 sd 1 := by
  simp only [mydnorm, if_true, sub_zero]
  have e1 : (0.5 : α) * (x / sd) * (x / sd) = 0.5 * ((x * x) / (sd * sd)) := by
    rw [mul_assoc, div_mul_div_comm]
  have e2 : (0.5 : α) * (y / sd) * (y / sd) = 0.5 * ((y * y) / (sd * sd)) := by
    rw [mul_assoc, div_mul_div_comm]
  have h3 : (x * x) / (sd * sd) ≤ (y * y) / (sd * sd) :=
    div_le_div_of_nonneg_right h (mul_self_nonneg sd)
  have h5 : (0 : α) < 0.5 := by norm_num
  rw [e1, e2]
  have := mul_le_mul_of_nonneg_left h3 h5.le
  linarith

/-- C22 (amended) on the example data, with the constant stream `exStream`, whose normal
draw `z` lies in `[-7, 0]`, at values at which no probability reaches 0 or 1. For the
coefficient at 8 (two observations, `Y = (1, 0)`, prior mean 0) the proposal `8 + z` lies
in `[1, 8]`, has a log-posterior at least the current one, and is accepted. For the effect
of cell 1 (one observation `Y = 0`, neighbours at 0) at 4 the proposal `4 + z` lies in
`[-3, 4]`, has a log-posterior at least the current one, and is accepted. -/
theorem metropolis_accepts_uphill_witness :
    ∃ m : CMath ℝ, IsRealMath m ∧ (∀ k, exStream k ≤ m.RAND_MAX) ∧
      (∃ x, 1 ≤ x ∧ x ≤ 8 ∧ myrnorm m exStream 8 1.0 1 0 = some (x, 2) ∧
        betadens m exInputs uphillBeta 0 x ≥ betadens m exInputs uphillBeta 0 8 ∧
        betaUpdate m exStream exInputs 1 uphillBeta 0 =
          some { (uphillBeta : State ℝ) with
                 beta_run := Function.update (uphillBeta : State ℝ).beta_run 0 x,
                 nA_beta := Function.update (uphillBeta : State ℝ).nA_beta 0 (0 + 1),
                 pos := 2 + 1 }) ∧
      (∃ x, -3 ≤ x ∧ x ≤ 4 ∧ viscell (exInputs : Inputs ℝ) 1 > 0 ∧
        myrnorm m exStream 4 1.0 1 0 = some (x, 2) ∧
        rhodens_visited m exInputs uphillRho 1 x ≥ rhodens_visited m exInputs uphillRho 1 4 ∧
        rhoUpdate m exStream exInputs 1 uphillRho 1 =
          some { (uphillRho : State ℝ) with
                 rho_run := Function.update (uphillRho : State ℝ).rho_run 1 x,
                 nA_rho := Function.update (uphillRho : State ℝ).nA_rho 1 (0 + 1),
                 pos := 2 + 1 }) := by
  have hm : IsRealMath ⟨Real.exp, Real.log, Real.sqrt, fun x y => x ^ y, fun x => ⌊x⌋,
      2147483647⟩ := ⟨rfl, rfl, rfl, fun _ _ => rfl, fun _ => rfl⟩
  have hrs : ∀ k, exStream k ≤ (⟨Real.exp, Real.log, Real.sqrt, fun x y => x ^ y,
      fun x => ⌊x⌋, 2147483647⟩ : CMath ℝ).RAND_MAX := by
    intro k
    show (1073741823 : Nat) ≤ 2147483647
    decide
  obtain ⟨z, hz, hz1, hz2⟩ := rnorm1_exStream_bound _ hm rfl 0
  have hmyb : myrnorm (⟨Real.exp, Real.log, Real.sqrt, fun x y => x ^ y,
      fun x => ⌊x⌋, 2147483647⟩ : CMath ℝ) exStream 8 1.0 1 0 = some (8 + z * 1.0, 2) := by
    simp only [myrnorm, hz]
  have hmyr : myrnorm (⟨Real.exp, Real.log, Real.sqrt, fun x y => x ^ y,
      fun x => ⌊x⌋, 2147483647⟩ : CMath ℝ) exStream 4 1.0 1 0 = some (4 + z * 1.0, 2) := by
    simp only [myrnorm, hz]
  have hxb : 1 ≤ 8 + z * 1.0 ∧ 8 + z * 1.0 ≤ 8 := by
    constructor <;> norm_num <;> linarith
  have hxr : -3 ≤ 4 + z * 1.0 ∧ 4 + z * 1.0 ≤ 4 := by
    constructor <;> norm_num <;> linarith
  have hlik : ∀ v : ℝ, betadens (⟨Real.exp, Real.log, Real.sqrt, fun x y => x ^ y,
      fun x => ⌊x⌋, 2147483647⟩ : CMath ℝ) exInputs uphillBeta 0 v =
      Real.log (invlogit ⟨Real.exp, Real.log, Real.sqrt, fun x y => x ^ y,
        fun x => ⌊x⌋, 2147483647⟩ v)
      + Real.log (1 - invlogit ⟨Real.exp, Real.log, Real.sqrt, fun x y => x ^ y,
        fun x => ⌊x⌋, 2147483647⟩ v)
      + mydnorm ⟨Real.exp, Real.log, Real.sqrt, fun x y => x ^ y,
        fun x => ⌊x⌋, 2147483647⟩ v 0 (Real.sqrt 10) 1 := by
    intro v
    rw [betadens_eq]
    simp [exInputs, uphillBeta, initState, Finset.sum_range_succ, mylndbern]
  have hb : betadens (⟨Real.exp, Real.log, Real.sqrt, fun x y => x ^ y,
      fun x => ⌊x⌋, 2147483647⟩ : CMath ℝ) exInputs uphillBeta 0 (8 + z * 1.0) ≥
      betadens (⟨Real.exp, Real.log, Real.sqrt, fun x y => x ^ y,
      fun x => ⌊x⌋, 2147483647⟩ : CMath ℝ) exInputs uphillBeta 0 8 := by
    rw [hlik, hlik]
    have hp := mydnorm_log_mono (⟨Real.exp, Real.log, Real.sqrt, fun x y => x ^ y,
      fun x => ⌊x⌋, 2147483647⟩ : CMath ℝ) (8 + z * 1.0) 8 (Real.sqrt 10) (by nlinarith)
    obtain ⟨t1, t2⟩ := invlogit_mono _ hm (8 + z * 1.0) 8 hxb.2
    have t3 := t2 (by linarith)
    have a1 := invlogit_mem hm (8 + z * 1.0)
    have a2 := invlogit_mem hm (8 : ℝ)
    have hprod : invlogit (⟨Real.exp, Real.log, Real.sqrt, fun x y => x ^ y,
        fun x => ⌊x⌋, 2147483647⟩ : CMath ℝ) 8 * (1 - invlogit (⟨Real.exp, Real.log,
        Real.sqrt, fun x y => x ^ y, fun x => ⌊x⌋, 2147483647⟩ : CMath ℝ) 8)
        ≤ invlogit (⟨Real.exp, Real.log, Real.sqrt, fun x y => x ^ y,
        fun x => ⌊x⌋, 2147483647⟩ : CMath ℝ) (8 + z * 1.0) * (1 - invlogit (⟨Real.exp,
        Real.log, Real.sqrt, fun x y => x ^ y, fun x => ⌊x⌋, 2147483647⟩ : CMath ℝ)
        (8 + z * 1.0)) := by nlinarith
    have hlog := Real.log_le_log (mul_pos a2.1 (by linarith)) hprod
    rw [Real.log_mul a2.1.ne' (by linarith), Real.log_mul a1.1.ne' (by linarith)] at hlog
    linarith
  have hv : viscell (exInputs : Inputs ℝ) 1 > 0 := by
    simp [viscell, exInputs, List.range_succ, Function.update]
  have hmean : sumNeighbors (exInputs : Inputs ℝ) uphillRho 1 /
      (((exInputs : Inputs ℝ).nNeigh 1 : Nat) : ℝ) = 0 := by
    simp only [sumNeighbors, exInputs, uphillRho, List.range_succ, List.range_zero,
      List.nil_append, List.cons_append, List.foldl_cons, List.foldl_nil]
    norm_num
  have hf : (Finset.range (exInputs : Inputs ℝ).NOBS).filter
      (fun n => (exInputs : Inputs ℝ).IdCell n = 1) = {1} := by
    simp only [exInputs]
    decide
  have hr : rhodens_visited (⟨Real.exp, Real.log, Real.sqrt, fun x y => x ^ y,
      fun x => ⌊x⌋, 2147483647⟩ : CMath ℝ) exInputs uphillRho 1 (4 + z * 1.0) ≥
      rhodens_visited (⟨Real.exp, Real.log, Real.sqrt, fun x y => x ^ y,
      fun x => ⌊x⌋, 2147483647⟩ : CMath ℝ) exInputs uphillRho 1 4 := by
    rw [rhodens_visited_eq, rhodens_visited_eq, hmean]
    have h1 := mydnorm_log_mono (⟨Real.exp, Real.log, Real.sqrt, fun x y => x ^ y,
      fun x => ⌊x⌋, 2147483647⟩ : CMath ℝ) (4 + z * 1.0) 4
      (Real.sqrt ((uphillRho : State ℝ).Vrho_run /
        (((exInputs : Inputs ℝ).nNeigh 1 : Nat) : ℝ))) (by nlinarith)
    have h2 := (invlogit_mono _ hm (1 * 0 + (4 + z * 1.0)) (1 * 0 + 4) (by linarith)).1
    have h3 := invlogit_mem hm (1 * 0 + (4 : ℝ))
    have h4 : Real.log (1 - invlogit (⟨Real.exp, Real.log, Real.sqrt, fun x y => x ^ y,
        fun x => ⌊x⌋, 2147483647⟩ : CMath ℝ) (1 * 0 + 4)) ≤
        Real.log (1 - invlogit (⟨Real.exp, Real.log, Real.sqrt, fun x y => x ^ y,
        fun x => ⌊x⌋, 2147483647⟩ : CMath ℝ) (1 * 0 + (4 + z * 1.0))) :=
      Real.log_le_log (by linarith) (by linarith)
    unfold cellLogLik
    rw [hf, Finset.sum_singleton, Finset.sum_singleton]
    have e : ∀ v : ℝ, mylndbern (⟨Real.exp, Real.log, Real.sqrt, fun x y => x ^ y,
        fun x => ⌊x⌋, 2147483647⟩ : CMath ℝ) ((exInputs : Inputs ℝ).Y 1)
        (invlogit ⟨Real.exp, Real.log, Real.sqrt, fun x y => x ^ y,
        fun x => ⌊x⌋, 2147483647⟩ ((∑ p in Finset.range (exInputs : Inputs ℝ).NP,
          (exInputs : Inputs ℝ).X 1 p * (uphillRho : State ℝ).beta_run p) + v)) =
        Real.log (1 - invlogit (⟨Real.exp, Real.log, Real.sqrt, fun x y => x ^ y,
        fun x => ⌊x⌋, 2147483647⟩ : CMath ℝ) (1 * 0 + v)) := by
      intro v
      simp [exInputs, uphillRho, initState, mylndbern]
    rw [e, e]
    exact add_le_add h4 h1
  refine ⟨_, hm, hrs, ⟨8 + z * 1.0, hxb.1, hxb.2, hmyb, hb, ?_⟩,
    ⟨4 + z * 1.0, hxr.1, hxr.2, hv, hmyr, hr, ?_⟩⟩
  · exact (metropolis_accepts_uphill _ hm exStream hrs exInputs 1 uphillBeta).1 0 _ 2
      hmyb hb
  · exact (metropolis_accepts_uphill _ hm exStream hrs exInputs 1 uphillRho).2.1 1 _ 2 hv
      hmyr hr
/-! ### `gammafn` below `-1/2` -/

end ForestAtRisk
